import Mathlib

/-!
Verification of the CloudBot `PluginManager` (src/cloudbot/plugin_manager.py).

This file gives a shallow embedding of the plugin registry and dispatch
pipeline of `PluginManager` and proves/refutes the specification claims
about it.  Python dictionaries are modelled as association lists that keep
insertion order (as CPython dicts do); `defaultdict(list)` is modelled by
the `mapAppend`/`mapRemoveKeep` helpers that create keys on demand and never
delete them; `list.sort(key=...)` (a stable sort) is modelled by insertion
sort with a non-strict comparison, which is extensionally equal to any
stable sort by the same key.  Hook callables are external code (the hooks
themselves live in plugin files outside the manager), so each `Hook` record
carries an oracle describing the callable: `fn` for ordinary hooks
(raise, or return a value) and `sieveFn` for sieve invocation (raise, or
return a possibly transformed event or `None`).  Events are abstracted to
`Nat` identifiers, regex pattern objects to `Nat` identifiers.
Asynchronous execution: the sequential model below runs each `launch` to
completion (this matches loading/unloading, where every hook launch is
awaited); a dispatch that would suspend forever on the serialization queue
is modelled as `Option.none`.  The concurrent behaviour of the
serialization queue is modelled separately as a transition system `SStep`.
-/

namespace CloudBot

/-- Python values a hook callable can produce, as far as the manager
inspects them: the manager only ever compares a result against `None`
(sieve rejection) and against `False` (post-hook stop sentinel). -/
inductive Val where
  | vnone
  | vfalse
  | vother (n : Nat)
deriving DecidableEq

/-- Outcome of calling an ordinary hook function: it either raises an
exception or returns a value. -/
inductive FnOut where
  | raises
  | rets (v : Val)
deriving DecidableEq

/-- Outcome of calling a sieve function with an event: it either raises or
returns a (possibly transformed) event, or returns `None` (reject). -/
inductive SieveOut where
  | raises
  | rets (r : Option Nat)
deriving DecidableEq

/-- A registered hook, as `PluginManager` sees it: the metadata fields the
manager reads, plus oracles for the external callable.  `hid` stands for
the identity of the Python hook object (two distinct hook objects are
never `==`-equal, so removal from indices compares by `hid`). -/
structure Hook where
  hid : Nat
  type : String
  priority : Int
  plugin_title : String
  function_name : String
  threaded : Bool := false
  single_thread : Bool := false
  aliases : List String := []
  triggers : List String := []
  catch_all : Bool := false
  etypes : List String := []
  regexes : List Nat := []
  caps : List String := []
  perms : List String := []
  fn : Nat → FnOut := fun _ => FnOut.rets Val.vnone
  sieveFn : Nat → Nat → SieveOut := fun _ _ => SieveOut.raises

/-- A plugin: `Plugin.hooks` in the source is a dict from hook-type name to
the list of hooks of that type; here each key is a field.  (`tasks` and the
sqlalchemy tables are not modelled: tasks never feed back into any index,
and table setup/teardown are external collaborators traced as events.) -/
structure Plugin where
  file_path : String
  title : String
  hooks_on_start : List Hook := []
  hooks_on_stop : List Hook := []
  hooks_periodic : List Hook := []
  hooks_on_cap_available : List Hook := []
  hooks_on_cap_ack : List Hook := []
  hooks_command : List Hook := []
  hooks_irc_raw : List Hook := []
  hooks_event : List Hook := []
  hooks_regex : List Hook := []
  hooks_sieve : List Hook := []
  hooks_on_connect : List Hook := []
  hooks_irc_out : List Hook := []
  hooks_post_hook : List Hook := []
  hooks_perm_check : List Hook := []

/-- The key of the serialization queue: `(hook.plugin.title, hook.function_name)`. -/
abbrev SKey := String × String

/-- The `PluginManager` state: all the registry fields set up in
`PluginManager.__init__`.  `plugin_name_map` models the
`WeakValueDictionary` as advised by weak-reference semantics: it stores the
plugin identity (file path); a lookup only hits if that identity is still
in `plugins`.  `cap_hooks` (a dict with the two fixed keys "on_available"
and "on_ack") is split into its two entries. -/
structure PM where
  plugins : List (String × Plugin) := []
  plugin_name_map : List (String × String) := []
  commands : List (String × Hook) := []
  raw_triggers : List (String × List Hook) := []
  catch_all_triggers : List Hook := []
  event_type_hooks : List (String × List Hook) := []
  regex_hooks : List (Nat × Hook) := []
  sieves : List Hook := []
  cap_hooks_available : List (String × List Hook) := []
  cap_hooks_ack : List (String × List Hook) := []
  connect_hooks : List Hook := []
  out_sieves : List Hook := []
  hook_hooks : List (String × List Hook) := []
  perm_hooks : List (String × List Hook) := []
  hook_waiting_queues : List (SKey × Option (List Nat)) := []

/-- The manager state right after `PluginManager.__init__`. -/
def pmEmpty : PM := {}

/-! ### Association-list model of Python dicts -/

/-- Dict lookup (`d[k]` / `d.get(k)`). -/
def alookup [DecidableEq κ] (k : κ) : List (κ × β) → Option β
  | [] => none
  | kv :: rest => if kv.1 = k then some kv.2 else alookup k rest

/-- Dict assignment `d[k] = v`: overwrites in place, or appends a new key at
the end (CPython dicts keep insertion order). -/
def aset [DecidableEq κ] (k : κ) (v : β) : List (κ × β) → List (κ × β)
  | [] => [(k, v)]
  | kv :: rest => if kv.1 = k then (kv.1, v) :: rest else kv :: aset k v rest

/-- Dict deletion `del d[k]`. -/
def adel [DecidableEq κ] (k : κ) : List (κ × β) → List (κ × β)
  | [] => []
  | kv :: rest => if kv.1 = k then rest else kv :: adel k rest

/-- `d[k].append(h)` on a dict of lists, creating the key when absent: the
common pattern of both the plain-dict registrations
(`if trigger in self.raw_triggers: ... append ... else: ... = [raw_hook]`)
and the `defaultdict(list)` registrations. -/
def mapAppend [DecidableEq κ] (m : List (κ × List Hook)) (k : κ) (h : Hook) :
    List (κ × List Hook) :=
  match alookup k m with
  | some l => aset k (l ++ [h]) m
  | none => aset k [h] m

/-- Remove the first hook with identity `i` from a list
(Python `list.remove(hook)`, object identity). -/
def eraseHook (l : List Hook) (i : Nat) : List Hook :=
  l.eraseP (fun h => decide (h.hid = i))

/-- `d[k].remove(hook)` followed by `if not d[k]: del d[k]` — the removal
pattern used for `raw_triggers`, `event_type_hooks` and both capability
maps.  An absent key is unreachable in the source (guarded by an assert /
it would raise); modelled as a no-op. -/
def mapRemoveDrop [DecidableEq κ] (m : List (κ × List Hook)) (k : κ) (i : Nat) :
    List (κ × List Hook) :=
  match alookup k m with
  | none => m
  | some l =>
    let l2 := eraseHook l i
    if l2.isEmpty then adel k m else aset k l2 m

/-- `d[k].remove(hook)` on a `defaultdict(list)` with no emptiness check —
the removal pattern of `perm_hooks` and `hook_hooks`: the key is never
deleted, an emptied list stays behind. -/
def mapRemoveKeep [DecidableEq κ] (m : List (κ × List Hook)) (k : κ) (i : Nat) :
    List (κ × List Hook) :=
  match alookup k m with
  | none => m
  | some l => aset k (eraseHook l i) m

/-- Reading `d[k]` on a `defaultdict(list)` inserts `k → []` when absent;
this is the state effect of `self.hook_hooks["post"]` appearing in an
expression. -/
def ddEnsure (m : List (String × List Hook)) (k : String) : List (String × List Hook) :=
  match alookup k m with
  | some _ => m
  | none => aset k [] m

/-- `str.casefold()`, modelled as ASCII lowering of the characters. -/
def casefold (s : String) : String := String.mk (s.data.map Char.toLower)

/-! ### Stable sorting by priority (`list.sort(key=attrgetter("priority"))`) -/

/-- The comparison used by every index sort: ascending hook priority.  The
non-strict form makes insertion sort stable, matching Python sort. -/
def hookle : Hook → Hook → Prop := fun a b => a.priority ≤ b.priority

instance : DecidableRel hookle :=
  fun a b => inferInstanceAs (Decidable (a.priority ≤ b.priority))

instance : IsTotal Hook hookle := ⟨fun a b => Int.le_total a.priority b.priority⟩

instance : IsTrans Hook hookle := ⟨fun _ _ _ h1 h2 => le_trans h1 h2⟩

/-- `lst.sort(key=attrgetter("priority"))`: a stable ascending sort. -/
def sortHooks (l : List Hook) : List Hook := List.insertionSort hookle l

/-- The comparison for `regex_hooks.sort(key=lambda x: x[1].priority)`. -/
def rxle : Nat × Hook → Nat × Hook → Prop := fun a b => a.2.priority ≤ b.2.priority

instance : DecidableRel rxle :=
  fun a b => inferInstanceAs (Decidable (a.2.priority ≤ b.2.priority))

instance : IsTotal (Nat × Hook) rxle := ⟨fun a b => Int.le_total a.2.priority b.2.priority⟩

instance : IsTrans (Nat × Hook) rxle := ⟨fun _ _ _ h1 h2 => le_trans h1 h2⟩

/-- `self.regex_hooks.sort(key=lambda x: x[1].priority)`. -/
def sortRegexes (l : List (Nat × Hook)) : List (Nat × Hook) := List.insertionSort rxle l

/-- Sorting every value list of a dict of hook lists, as the load-time sort
block does for `event_type_hooks`, `raw_triggers`, `perm_hooks` and
`hook_hooks` (it sorts `d.values()` in place, keys untouched). -/
def mapSortValues (m : List (κ × List Hook)) : List (κ × List Hook) :=
  m.map (fun kv => (kv.1, sortHooks kv.2))

/-! ### Dispatch pipeline -/

/-- Observable execution events, for stating which hooks ran, in which
order, on which executor, and what bookkeeping the manager performed. -/
inductive TEv where
  | runT (hid ev : Nat)
  | runS (hid ev : Nat)
  | sieveT (hid ev thid : Nat)
  | sieveS (hid ev thid : Nat)
  | acquire (key : SKey)
  | release (key : SKey)
  | tablesCreated (title : String)
  | tablesDropped (title : String)
  | warnOnStartFailed (title : String)
  | logConflict (title al : String)
deriving DecidableEq

/-- `PluginManager.internal_launch`: run the hook callable (threaded hooks
on the executor, others as a coroutine), catching any exception; returns
`(ok, out)` plus the trace of the one execution. -/
def internalLaunch (h : Hook) (ev : Nat) : Bool × Val × List TEv :=
  let t : TEv := if h.threaded then TEv.runT h.hid ev else TEv.runS h.hid ev
  match h.fn ev with
  | FnOut.raises => (false, Val.vnone, [t])
  | FnOut.rets v => (true, v, [t])

/-- The post-hook loop shared by `_execute_hook` and `_sieve`: run each
post hook through `internal_launch` in list order; stop early exactly when
an invocation succeeds and its result is `False`. -/
def postChain : List Hook → Nat → List TEv
  | [], _ => []
  | p :: ps, ev =>
    let r := internalLaunch p ev
    if r.1 = true ∧ r.2.1 = Val.vfalse then r.2.2
    else r.2.2 ++ postChain ps ev

/-- The state effect of evaluating `self.hook_hooks["post"]` (a
`defaultdict` read creates the key). -/
def ensurePost (st : PM) : PM := { st with hook_hooks := ddEnsure st.hook_hooks "post" }

/-- The post-hook list `self.hook_hooks["post"]`. -/
def postsOf (st : PM) : List Hook := (alookup "post" st.hook_hooks).getD []

/-- `PluginManager._execute_hook`: run the hook, then the post-hook chain;
return the hook's own ok flag. -/
def executeHook (st : PM) (h : Hook) (ev : Nat) : PM × Bool × List TEv :=
  let r := internalLaunch h ev
  let st1 := ensurePost st
  (st1, r.1, r.2.2 ++ postChain (postsOf st1) ev)

/-- `PluginManager._sieve`: call the sieve function (threaded or not) with
`(bot, event, hook)`, catching exceptions (`result` stays `None` on error),
then run the post-hook chain, and return `result`. -/
def sieveOne (st : PM) (s : Hook) (ev : Nat) (tgt : Hook) : PM × Option Nat × List TEv :=
  let t : TEv := if s.threaded then TEv.sieveT s.hid ev tgt.hid else TEv.sieveS s.hid ev tgt.hid
  let res : Option Nat :=
    match s.sieveFn ev tgt.hid with
    | SieveOut.raises => none
    | SieveOut.rets r => r
  let st1 := ensurePost st
  (st1, res, t :: postChain (postsOf st1) ev)

/-- The sieve loop of `launch`: `event = await self._sieve(sieve, event, hook)`
for each registered sieve in list order, aborting on `None`. -/
def sieveChain : PM → List Hook → Nat → Hook → PM × Option Nat × List TEv
  | st, [], ev, _ => (st, some ev, [])
  | st, s :: ss, ev, tgt =>
    let r1 := sieveOne st s ev tgt
    match r1.2.1 with
    | none => (r1.1, none, r1.2.2)
    | some ev1 =>
      let r2 := sieveChain r1.1 ss ev1 tgt
      (r2.1, r2.2.1, r1.2.2 ++ r2.2.2)

/-! ### Serialization queue -/

/-- The acquire step of the `single_thread` branch of `launch`: key absent
means set the running marker (`None`) and proceed (`true`); key present
means ensure a queue exists and enqueue a waiter token (the caller then
suspends, `false`). -/
def serAcquire (m : List (SKey × Option (List Nat))) (k : SKey) (tok : Nat) :
    List (SKey × Option (List Nat)) × Bool :=
  match alookup k m with
  | none => (aset k none m, true)
  | some none => (aset k (some [tok]) m, false)
  | some (some q) => (aset k (some (q ++ [tok])) m, false)

/-- The release step of the `single_thread` branch of `launch`: if the
stored state is the marker or an empty queue, delete the entry; otherwise
dequeue the head waiter token and wake it (the entry keeps the queue
state). -/
def serRelease (m : List (SKey × Option (List Nat))) (k : SKey) :
    List (SKey × Option (List Nat)) × Option Nat :=
  match alookup k m with
  | none => (m, none)
  | some none => (adel k m, none)
  | some (some []) => (adel k m, none)
  | some (some (t :: ts)) => (aset k (some ts) m, some t)

/-- `(hook.plugin.title, hook.function_name)`. -/
def hookKey (h : Hook) : SKey := (h.plugin_title, h.function_name)

/-- The part of `launch` after the sieve loop: serialization-queue
admission for `single_thread` hooks around `_execute_hook`.  In this
sequential model a key already present means the dispatch suspends behind a
running invocation and never completes here — result `none`. -/
def launchRest (st : PM) (h : Hook) (ev : Nat) (tr0 : List TEv) :
    Option (PM × Bool × List TEv) :=
  if h.single_thread then
    match alookup (hookKey h) st.hook_waiting_queues with
    | some _ => none
    | none =>
      let st1 :=
        { st with hook_waiting_queues := (serAcquire st.hook_waiting_queues (hookKey h) 0).1 }
      let r := executeHook st1 h ev
      let st2 :=
        { r.1 with hook_waiting_queues := (serRelease r.1.hook_waiting_queues (hookKey h)).1 }
      some (st2, r.2.1, tr0 ++ [TEv.acquire (hookKey h)] ++ r.2.2 ++ [TEv.release (hookKey h)])
  else
    let r := executeHook st h ev
    some (r.1, r.2.1, tr0 ++ r.2.2)

/-- `PluginManager.launch`: sieve chain (skipped for `on_start`, `on_stop`
and `periodic` hooks), then serialization and execution. -/
def launch (st : PM) (h : Hook) (ev : Nat) : Option (PM × Bool × List TEv) :=
  if h.type = "on_start" ∨ h.type = "on_stop" ∨ h.type = "periodic" then
    launchRest st h ev []
  else
    let r := sieveChain st st.sieves ev h
    match r.2.1 with
    | none => some (r.1, false, r.2.2)
    | some ev1 => launchRest r.1 h ev1 r.2.2

/-! ### Registration (`load_plugin`) -/

/-- The `(key, hook)` pairs produced by a nested registration loop
`for hook in hooks: for x in hook.xs: ...`, flattened in loop order. -/
def keyPairs (key : Hook → List κ) (hs : List Hook) : List (κ × Hook) :=
  (hs.map (fun h => (key h).map (fun k => (k, h)))).flatten

/-- Capability registration pairs: caps are casefolded. -/
def capPairs (hs : List Hook) : List (String × Hook) :=
  keyPairs (fun h => h.caps.map casefold) hs

/-- Command registration pairs: one per alias. -/
def cmdPairs (p : Plugin) : List (String × Hook) :=
  keyPairs Hook.aliases p.hooks_command

/-- Event registration pairs: one per event type. -/
def etypePairs (hs : List Hook) : List (String × Hook) :=
  keyPairs Hook.etypes hs

/-- Permission registration pairs: one per permission. -/
def permPairs (hs : List Hook) : List (String × Hook) :=
  keyPairs Hook.perms hs

/-- Raw-trigger registration pairs for the non-catch-all raw hooks. -/
def rawPairs (hs : List Hook) : List (String × Hook) :=
  keyPairs Hook.triggers (hs.filter (fun h => !h.catch_all))

/-- Regex registration pairs `(regex, hook)`, one per compiled pattern. -/
def regexPairs (hs : List Hook) : List (Nat × Hook) :=
  (hs.map (fun h => h.regexes.map (fun rx => (rx, h)))).flatten

/-- Appending a sequence of `(key, hook)` registrations to a dict of lists. -/
def addPairs [DecidableEq κ] (m : List (κ × List Hook)) (prs : List (κ × Hook)) :
    List (κ × List Hook) :=
  prs.foldl (fun m pr => mapAppend m pr.1 pr.2) m

/-- Command registration with first-registrant-wins conflict handling:
`if alias in self.commands: log the conflict else self.commands[alias] = hook`. -/
def regCommands : List (String × Hook) → List (String × Hook) →
    List (String × Hook) × List TEv
  | m, [] => (m, [])
  | m, pr :: prs =>
    match alookup pr.1 m with
    | some _ =>
      let r := regCommands m prs
      (r.1, TEv.logConflict pr.2.plugin_title pr.1 :: r.2)
    | none => regCommands (aset pr.1 pr.2 m) prs

/-- The index insertions of `load_plugin` (everything between the two sort
comments), acting on all index fields at once; each individual index
receives its insertions in source loop order.  Also returns the
conflict-log trace. -/
def registerPhase (st : PM) (p : Plugin) : PM × List TEv :=
  let cmds := regCommands st.commands (cmdPairs p)
  ({ st with
      cap_hooks_available := addPairs st.cap_hooks_available (capPairs p.hooks_on_cap_available)
      cap_hooks_ack := addPairs st.cap_hooks_ack (capPairs p.hooks_on_cap_ack)
      commands := cmds.1
      catch_all_triggers :=
        st.catch_all_triggers ++ p.hooks_irc_raw.filter (fun h => h.catch_all)
      raw_triggers := addPairs st.raw_triggers (rawPairs p.hooks_irc_raw)
      event_type_hooks := addPairs st.event_type_hooks (etypePairs p.hooks_event)
      regex_hooks := st.regex_hooks ++ regexPairs p.hooks_regex
      sieves := st.sieves ++ p.hooks_sieve
      connect_hooks := st.connect_hooks ++ p.hooks_on_connect
      out_sieves := st.out_sieves ++ p.hooks_irc_out
      hook_hooks := addPairs st.hook_hooks (p.hooks_post_hook.map (fun h => ("post", h)))
      perm_hooks := addPairs st.perm_hooks (permPairs p.hooks_perm_check) },
   cmds.2)

/-- The sort block at the end of `load_plugin`: `sieves` and
`connect_hooks` are sorted twice (once explicitly, once as members of
`lists_of_hooks`), `regex_hooks` by the hook component of each pair, and
every value list of `event_type_hooks`, `raw_triggers`, `perm_hooks` and
`hook_hooks`.  The capability maps are NOT sorted by the source. -/
def sortPhase (st : PM) : PM :=
  { st with
      sieves := sortHooks (sortHooks st.sieves)
      connect_hooks := sortHooks (sortHooks st.connect_hooks)
      regex_hooks := sortRegexes st.regex_hooks
      catch_all_triggers := sortHooks st.catch_all_triggers
      out_sieves := sortHooks st.out_sieves
      event_type_hooks := mapSortValues st.event_type_hooks
      raw_triggers := mapSortValues st.raw_triggers
      perm_hooks := mapSortValues st.perm_hooks
      hook_hooks := mapSortValues st.hook_hooks }

/-- The `on_start` loop of `load_plugin`: launch each `on_start` hook with
a fresh event and stop at the first failure. -/
def runOnStart : PM → List Hook → List TEv → Option (PM × Bool × List TEv)
  | st, [], tr => some (st, true, tr)
  | st, h :: hs, tr =>
    match launch st h 0 with
    | none => none
    | some r => if r.2.1 then runOnStart r.1 hs (tr ++ r.2.2) else some (r.1, false, tr ++ r.2.2)

/-! ### Unregistration (`unload_plugin`) -/

/-- Removing a sequence of registrations from a plain dict of lists,
deleting emptied keys (capability maps, `raw_triggers`, `event_type_hooks`). -/
def dropPairs [DecidableEq κ] (m : List (κ × List Hook)) (prs : List (κ × Hook)) :
    List (κ × List Hook) :=
  prs.foldl (fun m pr => mapRemoveDrop m pr.1 pr.2.hid) m

/-- Removing a sequence of registrations from a `defaultdict(list)`
without deleting emptied keys (`perm_hooks`, `hook_hooks`). -/
def keepPairs [DecidableEq κ] (m : List (κ × List Hook)) (prs : List (κ × Hook)) :
    List (κ × List Hook) :=
  prs.foldl (fun m pr => mapRemoveKeep m pr.1 pr.2.hid) m

/-- Command unregistration: delete each alias of the plugin's command hooks
only if it still maps to that very hook
(`if alias in self.commands and self.commands[alias] == command_hook`). -/
def unregCommands (m : List (String × Hook)) (prs : List (String × Hook)) :
    List (String × Hook) :=
  prs.foldl
    (fun m pr =>
      match alookup pr.1 m with
      | some k => if k.hid = pr.2.hid then adel pr.1 m else m
      | none => m)
    m

/-- Removing each hook of `hs` from a plain hook list (`list.remove`). -/
def eraseHooks (l : List Hook) (hs : List Hook) : List Hook :=
  hs.foldl (fun l h => eraseHook l h.hid) l

/-- The identity of a `(regex, hook)` pair: Python tuple equality is
componentwise, and hook equality is object identity. -/
def rxId (q : Nat × Hook) : Nat × Nat := (q.1, q.2.hid)

/-- Removing the plugin's regex pairs (`self.regex_hooks.remove((regex_match, regex_hook))`). -/
def eraseRegexes (l : List (Nat × Hook)) (prs : List (Nat × Hook)) : List (Nat × Hook) :=
  prs.foldl (fun l pr => l.eraseP (fun q => decide (rxId q = rxId pr))) l

/-- The index removals of `unload_plugin` (everything before the `on_stop`
loop), acting on all index fields at once; each individual index receives
its removals in source loop order. -/
def unregPhase (st : PM) (p : Plugin) : PM :=
  { st with
      cap_hooks_available := dropPairs st.cap_hooks_available (capPairs p.hooks_on_cap_available)
      cap_hooks_ack := dropPairs st.cap_hooks_ack (capPairs p.hooks_on_cap_ack)
      commands := unregCommands st.commands (cmdPairs p)
      catch_all_triggers :=
        eraseHooks st.catch_all_triggers (p.hooks_irc_raw.filter (fun h => h.catch_all))
      raw_triggers := dropPairs st.raw_triggers (rawPairs p.hooks_irc_raw)
      event_type_hooks := dropPairs st.event_type_hooks (etypePairs p.hooks_event)
      regex_hooks := eraseRegexes st.regex_hooks (regexPairs p.hooks_regex)
      sieves := eraseHooks st.sieves p.hooks_sieve
      connect_hooks := eraseHooks st.connect_hooks p.hooks_on_connect
      out_sieves := eraseHooks st.out_sieves p.hooks_irc_out
      hook_hooks := keepPairs st.hook_hooks (p.hooks_post_hook.map (fun h => ("post", h)))
      perm_hooks := keepPairs st.perm_hooks (permPairs p.hooks_perm_check) }

/-- The `on_stop` loop of `unload_plugin`: launch every `on_stop` hook,
ignoring individual results. -/
def runOnStop : PM → List Hook → Option (PM × List TEv)
  | st, [] => some (st, [])
  | st, h :: hs =>
    match launch st h 0 with
    | none => none
    | some r =>
      match runOnStop r.1 hs with
      | none => none
      | some r2 => some (r2.1, r.2.2 ++ r2.2)

/-- `PluginManager.unload_plugin`: no-op returning `False` when the path is
not loaded; otherwise remove every hook from every index, run the
`on_stop` hooks, release the storage, and delete the plugin entry,
returning `True`.  (The weak name map is not touched: its entry dies with
the plugin, which the `findPlugin` model reflects.) -/
def unloadPlugin (st : PM) (fp : String) : Option (PM × Bool × List TEv) :=
  match alookup fp st.plugins with
  | none => some (st, false, [])
  | some p =>
    let st1 := unregPhase st p
    match runOnStop st1 p.hooks_on_stop with
    | none => none
    | some r =>
      some ({ r.1 with plugins := adel p.file_path r.1.plugins },
            true,
            r.2 ++ [TEv.tablesDropped p.title])

/-- The result of `load_plugin`.  The Python function returns `None` on
every path — early-abort and success alike — so `ret` has type `Unit`. -/
structure LoadOut where
  st : PM
  ret : Unit
  tr : List TEv

/-- `PluginManager.load_plugin` from the point where the plugin module is
imported and its hooks are known (path resolution, the `should_load`
config check and the import machinery are external; an enabled plugin
whose import succeeds is assumed).  Steps, in source order: unload any
plugin already loaded from this path; create the storage tables; run the
`on_start` hooks, aborting registration (and releasing storage) if one
fails; insert the plugin into `plugins` and the name map; register every
other hook into its indices; sort the sorted indices; finally
`del plugin.hooks["on_start"]` (the stored plugin keeps no `on_start`
hooks). -/
def loadPlugin (st0 : PM) (p : Plugin) : Option LoadOut :=
  let pre :=
    if (alookup p.file_path st0.plugins).isSome then unloadPlugin st0 p.file_path
    else some (st0, false, [])
  match pre with
  | none => none
  | some pr =>
    let st := pr.1
    let tr0 := pr.2.2 ++ [TEv.tablesCreated p.title]
    match runOnStart st p.hooks_on_start tr0 with
    | none => none
    | some r =>
      if r.2.1 then
        let st1 := { r.1 with
          plugins := aset p.file_path { p with hooks_on_start := [] } r.1.plugins
          plugin_name_map := aset p.title p.file_path r.1.plugin_name_map }
        let reg := registerPhase st1 p
        some ⟨sortPhase reg.1, (), r.2.2 ++ reg.2⟩
      else
        some ⟨r.1, (), r.2.2 ++ [TEv.warnOnStartFailed p.title, TEv.tablesDropped p.title]⟩

/-- `PluginManager.find_plugin`: the weak name map holds the plugin only as
long as it is otherwise alive, i.e. still present in `plugins`. -/
def findPlugin (st : PM) (title : String) : Option Plugin :=
  match alookup title st.plugin_name_map with
  | none => none
  | some fp => alookup fp st.plugins

/-! ### Derived notions used to state the claims -/

/-- The state stored for a plugin at load time: the plugin with its
`on_start` hook list deleted. -/
def storedPlugin (p : Plugin) : Plugin := { p with hooks_on_start := [] }

/-- The registry state right after a successful registration of `p` over
the intermediate state `E`. -/
def loadedState (E : PM) (p : Plugin) : PM :=
  sortPhase (registerPhase
    { E with
        plugins := aset p.file_path (storedPlugin p) E.plugins
        plugin_name_map := aset p.title p.file_path E.plugin_name_map } p).1


/-- Keys of a dict. -/
def keysOf (m : List (κ × β)) : List κ := m.map Prod.fst

/-- A dict has no duplicate keys (true of every Python dict). -/
def NodupKeys (m : List (κ × β)) : Prop := (keysOf m).Nodup

/-- Every value list of a dict of hook lists is priority-sorted. -/
def mapSorted [DecidableEq κ] (m : List (κ × List Hook)) : Prop :=
  ∀ k l, alookup k m = some l → l.Pairwise hookle

/-- No value list of a dict of hook lists is empty. -/
def mapNonempty [DecidableEq κ] (m : List (κ × List Hook)) : Prop :=
  ∀ k l, alookup k m = some l → l ≠ []

/-- All hook identities stored in a dict of hook lists. -/
def hidsOfMap (m : List (κ × List Hook)) : List Nat :=
  (m.map (fun kv => kv.2.map Hook.hid)).flatten

/-- Every hook identity reachable from any derived index of the manager. -/
def pmHids (st : PM) : List Nat :=
  st.commands.map (fun kv => kv.2.hid) ++ hidsOfMap st.raw_triggers
    ++ st.catch_all_triggers.map Hook.hid ++ hidsOfMap st.event_type_hooks
    ++ st.regex_hooks.map (fun pr => pr.2.hid) ++ st.sieves.map Hook.hid
    ++ hidsOfMap st.cap_hooks_available ++ hidsOfMap st.cap_hooks_ack
    ++ st.connect_hooks.map Hook.hid ++ st.out_sieves.map Hook.hid
    ++ hidsOfMap st.hook_hooks ++ hidsOfMap st.perm_hooks

/-- All hooks declared by a plugin. -/
def pluginHooks (p : Plugin) : List Hook :=
  p.hooks_on_start ++ p.hooks_on_stop ++ p.hooks_periodic
    ++ p.hooks_on_cap_available ++ p.hooks_on_cap_ack ++ p.hooks_command
    ++ p.hooks_irc_raw ++ p.hooks_event ++ p.hooks_regex ++ p.hooks_sieve
    ++ p.hooks_on_connect ++ p.hooks_irc_out ++ p.hooks_post_hook
    ++ p.hooks_perm_check

/-- All hook identities declared by a plugin. -/
def pluginHids (p : Plugin) : List Nat := (pluginHooks p).map Hook.hid

/-- Well-formedness invariants of a reachable manager state: dict keys are
unique, the indices that the load-time sort block keeps sorted are sorted,
the indices whose unregistration deletes emptied keys have no empty value
lists, and no dispatch is in flight (the serialization dict is empty).
Every state reachable by `__init__` / `load_plugin` / `unload_plugin`
between dispatches satisfies this. -/
structure PMWF (st : PM) : Prop where
  ndk_plugins : NodupKeys st.plugins
  ndk_commands : NodupKeys st.commands
  ndk_raw : NodupKeys st.raw_triggers
  ndk_event : NodupKeys st.event_type_hooks
  ndk_capA : NodupKeys st.cap_hooks_available
  ndk_capK : NodupKeys st.cap_hooks_ack
  ndk_hook : NodupKeys st.hook_hooks
  ndk_perm : NodupKeys st.perm_hooks
  sorted_sieves : st.sieves.Pairwise hookle
  sorted_connect : st.connect_hooks.Pairwise hookle
  sorted_out : st.out_sieves.Pairwise hookle
  sorted_catch : st.catch_all_triggers.Pairwise hookle
  sorted_regex : st.regex_hooks.Pairwise rxle
  sorted_raw : mapSorted st.raw_triggers
  sorted_event : mapSorted st.event_type_hooks
  sorted_perm : mapSorted st.perm_hooks
  sorted_hook : mapSorted st.hook_hooks
  ne_raw : mapNonempty st.raw_triggers
  ne_event : mapNonempty st.event_type_hooks
  ne_capA : mapNonempty st.cap_hooks_available
  ne_capK : mapNonempty st.cap_hooks_ack
  queues_empty : st.hook_waiting_queues = []

/-- Well-formedness of a plugin as produced by hook discovery: hook objects
are pairwise distinct, hooks are filed under their own type, and no hook
declares the same trigger datum twice. -/
structure PlugWF (p : Plugin) : Prop where
  nodup_hids : (pluginHids p).Nodup
  start_types : ∀ h ∈ p.hooks_on_start, h.type = "on_start"
  stop_types : ∀ h ∈ p.hooks_on_stop, h.type = "on_stop"
  nodup_aliases : ∀ h ∈ p.hooks_command, h.aliases.Nodup
  nodup_triggers : ∀ h ∈ p.hooks_irc_raw, h.triggers.Nodup
  nodup_etypes : ∀ h ∈ p.hooks_event, h.etypes.Nodup
  nodup_regexes : ∀ h ∈ p.hooks_regex, h.regexes.Nodup
  nodup_capsA : ∀ h ∈ p.hooks_on_cap_available, (h.caps.map casefold).Nodup
  nodup_capsK : ∀ h ∈ p.hooks_on_cap_ack, (h.caps.map casefold).Nodup
  nodup_perms : ∀ h ∈ p.hooks_perm_check, h.perms.Nodup

/-- The plugin is entirely new to the manager: none of its hook objects is
registered anywhere and neither its path nor its title is taken. -/
def FreshFor (st : PM) (p : Plugin) : Prop :=
  (∀ i ∈ pluginHids p, i ∉ pmHids st)
    ∧ alookup p.file_path st.plugins = none
    ∧ alookup p.title st.plugin_name_map = none

/-! ### Spec-side helpers for stating the dispatch claims -/

/-- The value of `await self._sieve(sieve, event, hook)` as a function of
the sieve oracle alone (raising and returning `None` both yield `None`). -/
def sieveStep (s : Hook) (ev : Nat) (t : Nat) : Option Nat :=
  match s.sieveFn ev t with
  | SieveOut.raises => none
  | SieveOut.rets r => r

/-- The event surviving a sieve list, each sieve fed the output of its
predecessors; `none` when some sieve rejects or raises. -/
def specChain : List Hook → Nat → Nat → Option Nat
  | [], ev, _ => some ev
  | s :: ss, ev, t =>
    match sieveStep s ev t with
    | none => none
    | some ev1 => specChain ss ev1 t

/-- Which sieves run and with which event argument: every sieve up to and
including the first one that rejects or raises, each fed the transformed
event. -/
def specSieveTrace : List Hook → Nat → Nat → List (Nat × Nat)
  | [], _, _ => []
  | s :: ss, ev, t =>
    (s.hid, ev) ::
      match sieveStep s ev t with
      | none => []
      | some ev1 => specSieveTrace ss ev1 t

/-- The sieve-invocation events of a trace, as `(sieve hid, event)` pairs. -/
def sieveEvsOf (tr : List TEv) : List (Nat × Nat) :=
  tr.filterMap (fun e =>
    match e with
    | TEv.sieveT i ev _ => some (i, ev)
    | TEv.sieveS i ev _ => some (i, ev)
    | _ => none)

/-- The hook-execution events of a trace for hook identity `i`. -/
def runsOf (i : Nat) (tr : List TEv) : List TEv :=
  tr.filter (fun e =>
    match e with
    | TEv.runT j _ => decide (j = i)
    | TEv.runS j _ => decide (j = i)
    | _ => false)

/-- The serialization-acquisition events of a trace for key `k`. -/
def acquiresOf (k : SKey) (tr : List TEv) : List TEv :=
  tr.filter (fun e =>
    match e with
    | TEv.acquire k2 => decide (k2 = k)
    | _ => false)

/-- Whether a post hook invocation stops the post chain: it must complete
without raising and return exactly `False`. -/
def stopsPost (p : Hook) (ev : Nat) : Bool :=
  match p.fn ev with
  | FnOut.raises => false
  | FnOut.rets v => decide (v = Val.vfalse)

/-- The prefix of the post-hook list that actually runs: everything up to
and including the first stopper. -/
def specPostHooks : List Hook → Nat → List Hook
  | [], _ => []
  | p :: ps, ev => p :: (if stopsPost p ev then [] else specPostHooks ps ev)

/-- The one execution event `internal_launch` emits for a hook. -/
def runEvOf (h : Hook) (ev : Nat) : TEv :=
  if h.threaded then TEv.runT h.hid ev else TEv.runS h.hid ev

/-- The registrations for key `k` among a pair list, in order. -/
def keyAdds [DecidableEq κ] (k : κ) (prs : List (κ × Hook)) : List Hook :=
  prs.filterMap (fun pr => if pr.1 = k then some pr.2 else none)

/-- The per-key effect of the unregistration fold on a plain dict of lists:
erase each identity in turn, dropping the entry once it empties. -/
def dropFold (o : Option (List Hook)) (ids : List Nat) : Option (List Hook) :=
  ids.foldl
    (fun o i =>
      match o with
      | none => none
      | some l =>
        let l2 := eraseHook l i
        if l2.isEmpty then none else some l2)
    o

/-- The per-key effect of the unregistration fold on a `defaultdict`:
erase each identity in turn, keeping the entry. -/
def keepFold (o : Option (List Hook)) (ids : List Nat) : Option (List Hook) :=
  ids.foldl
    (fun o i =>
      match o with
      | none => none
      | some l => some (eraseHook l i))
    o

/-- The per-alias effect of command unregistration: the alias entry is
deleted exactly when it maps to one of the given identities. -/
def cmdDropFold (o : Option Hook) (ids : List Nat) : Option Hook :=
  ids.foldl
    (fun o i =>
      match o with
      | none => none
      | some h => if h.hid = i then none else some h)
    o

/-- Generic first-match-by-identity erasure (`list.remove` by object
identity, for any identity projection). -/
def eraseById [DecidableEq ι] (idf : α → ι) (l : List α) (i : ι) : List α :=
  l.eraseP (fun x => decide (idf x = i))

/-- Erasing the identities of a whole list in order. -/
def eraseAllById [DecidableEq ι] (idf : α → ι) (l ns : List α) : List α :=
  ns.foldl (fun l n => eraseById idf l (idf n)) l

/-- The `hook_hooks` dict after a step that may have evaluated
`self.hook_hooks["post"]` some number of times. -/
def EnsuredPost (m m2 : List (String × List Hook)) : Prop :=
  m2 = m ∨ m2 = ddEnsure m "post"

/-- State equality between dispatches as far as the registry is concerned:
everything except `hook_hooks` is untouched, `hook_hooks` at worst gained
the empty "post" entry, and the serialization dict is empty again. -/
def DispatchFrame (st st2 : PM) : Prop :=
  st2.plugins = st.plugins ∧ st2.plugin_name_map = st.plugin_name_map
    ∧ st2.commands = st.commands ∧ st2.raw_triggers = st.raw_triggers
    ∧ st2.catch_all_triggers = st.catch_all_triggers
    ∧ st2.event_type_hooks = st.event_type_hooks ∧ st2.regex_hooks = st.regex_hooks
    ∧ st2.sieves = st.sieves ∧ st2.cap_hooks_available = st.cap_hooks_available
    ∧ st2.cap_hooks_ack = st.cap_hooks_ack ∧ st2.connect_hooks = st.connect_hooks
    ∧ st2.out_sieves = st.out_sieves ∧ EnsuredPost st.hook_hooks st2.hook_hooks
    ∧ st2.perm_hooks = st.perm_hooks
    ∧ st2.hook_waiting_queues = st.hook_waiting_queues

/-! ### The serialization queue as a concurrent transition system

Each task is one `single_thread` dispatch of some hook key, observed at its
suspension points: `ready` (about to enter the acquire block), `waiting`
(suspended on a future carrying its queue token), `running` (between
acquire and release, i.e. inside `_execute_hook`), `done`.  Steps happen
atomically between suspension points, exactly as the event loop runs the
acquire and release blocks of `launch`. -/

/-- Phase of one in-flight `single_thread` dispatch. -/
inductive Phase where
  | ready
  | waiting (tok : Nat)
  | running
  | done
deriving DecidableEq

/-- One in-flight dispatch: its serialization key and phase. -/
structure TaskT where
  key : SKey
  phase : Phase
deriving DecidableEq

/-- The shared state: the `_hook_waiting_queues` dict, the in-flight
dispatches, and a counter allocating fresh waiter tokens (futures). -/
structure Sys where
  queues : List (SKey × Option (List Nat))
  tasks : List TaskT
  nextTok : Nat

/-- Waking a waiter future: `next_future.set_result(None)` makes the task
suspended on that token runnable. -/
def wake (w : Option Nat) (ts : List TaskT) : List TaskT :=
  match w with
  | none => ts
  | some tok =>
    ts.map (fun t => if t.phase = Phase.waiting tok then { t with phase := Phase.running } else t)

/-- Effect of a `ready` task executing the acquire block. -/
def startResult (q : List (SKey × Option (List Nat))) (n : Nat) (pre post : List TaskT)
    (k : SKey) : Sys :=
  let r := serAcquire q k n
  ⟨r.1, pre ++ ⟨k, if r.2 then Phase.running else Phase.waiting n⟩ :: post, n + 1⟩

/-- Effect of a `running` task executing the release block. -/
def finishResult (q : List (SKey × Option (List Nat))) (n : Nat) (pre post : List TaskT)
    (k : SKey) : Sys :=
  let r := serRelease q k
  ⟨r.1, wake r.2 (pre ++ ⟨k, Phase.done⟩ :: post), n⟩

/-- Interleaving semantics of the `single_thread` branch of `launch`: any
ready task may run its acquire block; any running task may finish and run
its release block. -/
inductive SStep : Sys → Sys → Prop where
  | start (q : List (SKey × Option (List Nat))) (n : Nat) (pre post : List TaskT) (k : SKey) :
      SStep ⟨q, pre ++ ⟨k, Phase.ready⟩ :: post, n⟩ (startResult q n pre post k)
  | finish (q : List (SKey × Option (List Nat))) (n : Nat) (pre post : List TaskT) (k : SKey) :
      SStep ⟨q, pre ++ ⟨k, Phase.running⟩ :: post, n⟩ (finishResult q n pre post k)

/-- Number of dispatches for key `k` currently executing. -/
def runCount (k : SKey) (ts : List TaskT) : Nat :=
  ts.countP (fun t => decide (t.key = k ∧ t.phase = Phase.running))

/-- The tokens of the waiters for key `k`, in task order. -/
def waitToks (k : SKey) (ts : List TaskT) : List Nat :=
  ts.filterMap (fun t =>
    match t.phase with
    | Phase.waiting tok => if t.key = k then some tok else none
    | _ => none)

/-- All waiter tokens. -/
def allToks (ts : List TaskT) : List Nat :=
  ts.filterMap (fun t =>
    match t.phase with
    | Phase.waiting tok => some tok
    | _ => none)

/-- The per-key three-state invariant: key absent means idle; marker
(`None`) means one execution and no waiters; queue means one execution and
exactly the queued waiters, in FIFO (token) order. -/
def KeyInv (s : Sys) (k : SKey) : Prop :=
  match alookup k s.queues with
  | none => runCount k s.tasks = 0 ∧ waitToks k s.tasks = []
  | some none => runCount k s.tasks = 1 ∧ waitToks k s.tasks = []
  | some (some q) =>
      runCount k s.tasks = 1 ∧ q.Perm (waitToks k s.tasks) ∧ q.Pairwise (· < ·)

/-- The full system invariant. -/
def SysInv (s : Sys) : Prop :=
  (∀ k, KeyInv s k) ∧ (∀ t ∈ allToks s.tasks, t < s.nextTok)
    ∧ (allToks s.tasks).Nodup ∧ NodupKeys s.queues

/-! ### Concrete fixtures for counterexamples and witnesses -/

/-- A permission-check hook registering permission `"p"`. -/
def permHook : Hook :=
  { hid := 11
    type := "perm_check"
    priority := 1
    plugin_title := "permmod"
    function_name := "permf"
    perms := ["p"] }

/-- A post hook (its callable returns `None`, so it never stops a chain). -/
def postHookA : Hook :=
  { hid := 12
    type := "post_hook"
    priority := 1
    plugin_title := "permmod"
    function_name := "postf" }

/-- A module with one permission hook and one post hook. -/
def permPlug : Plugin :=
  { file_path := "/p/perm.py"
    title := "permmod"
    hooks_post_hook := [postHookA]
    hooks_perm_check := [permHook] }

/-- An `on_start` hook whose callable raises. -/
def failHook : Hook :=
  { hid := 13
    type := "on_start"
    priority := 1
    plugin_title := "failmod"
    function_name := "startf"
    fn := fun _ => FnOut.raises }

/-- A module whose sole `on_start` hook always fails. -/
def failPlug : Plugin :=
  { file_path := "/p/fail.py"
    title := "failmod"
    hooks_on_start := [failHook] }

/-- An `on_start` hook whose callable succeeds. -/
def okHook : Hook :=
  { hid := 14
    type := "on_start"
    priority := 1
    plugin_title := "okmod"
    function_name := "startok" }

/-- A module whose sole `on_start` hook succeeds. -/
def okPlug : Plugin :=
  { file_path := "/p/ok.py"
    title := "okmod"
    hooks_on_start := [okHook] }

/-- First command hook: alias `"a"`. -/
def cmdHookA : Hook :=
  { hid := 31
    type := "command"
    priority := 1
    plugin_title := "m1"
    function_name := "f1"
    aliases := ["a"] }

def plgA : Plugin :=
  { file_path := "/p/1.py"
    title := "m1"
    hooks_command := [cmdHookA] }

/-- Second command hook: alias `"c"`. -/
def cmdHookB : Hook :=
  { hid := 32
    type := "command"
    priority := 1
    plugin_title := "m2"
    function_name := "f2"
    aliases := ["c"] }

def plgB : Plugin :=
  { file_path := "/p/2.py"
    title := "m2"
    hooks_command := [cmdHookB] }

/-- Third command hook: aliases `"a"` (conflicting) and `"c"` (also taken). -/
def cmdHookC : Hook :=
  { hid := 33
    type := "command"
    priority := 1
    plugin_title := "m3"
    function_name := "f3"
    aliases := ["a", "c"] }

def plgC : Plugin :=
  { file_path := "/p/3.py"
    title := "m3"
    hooks_command := [cmdHookC] }

/-- Capability hook with high priority, registered first. -/
def capHookHi : Hook :=
  { hid := 41
    type := "on_cap_available"
    priority := 5
    plugin_title := "m4"
    function_name := "f4"
    caps := ["x"] }

def capPlugHi : Plugin :=
  { file_path := "/p/4.py"
    title := "m4"
    hooks_on_cap_available := [capHookHi] }

/-- Capability hook with low priority, registered second. -/
def capHookLo : Hook :=
  { hid := 42
    type := "on_cap_available"
    priority := 1
    plugin_title := "m5"
    function_name := "f5"
    caps := ["x"] }

def capPlugLo : Plugin :=
  { file_path := "/p/5.py"
    title := "m5"
    hooks_on_cap_available := [capHookLo] }

/-- Two sieve hooks declared out of priority order. -/
def sieveHook9 : Hook :=
  { hid := 43
    type := "sieve"
    priority := 9
    plugin_title := "m6"
    function_name := "s9" }

def sieveHook2 : Hook :=
  { hid := 44
    type := "sieve"
    priority := 2
    plugin_title := "m6"
    function_name := "s2" }

def sievePlug : Plugin :=
  { file_path := "/p/6.py"
    title := "m6"
    hooks_sieve := [sieveHook9, sieveHook2] }

/-- A sieve that rejects every event. -/
def sieveRejHook : Hook :=
  { hid := 51
    type := "sieve"
    priority := 1
    plugin_title := "m7"
    function_name := "sv"
    sieveFn := fun _ _ => SieveOut.rets none }

/-- A registry whose only index content is the rejecting sieve. -/
def stSieve : PM := { sieves := [sieveRejHook] }

/-- A plain command hook used as dispatch target. -/
def tgtCmdHook : Hook :=
  { hid := 52
    type := "command"
    priority := 1
    plugin_title := "m7b"
    function_name := "cf" }

/-- A post hook that succeeds returning the stop sentinel `False`. -/
def postStopHook : Hook :=
  { hid := 61
    type := "post_hook"
    priority := 1
    plugin_title := "m8"
    function_name := "p1"
    fn := fun _ => FnOut.rets Val.vfalse }

/-- A post hook of higher priority, after the stopper. -/
def postAfterHook : Hook :=
  { hid := 62
    type := "post_hook"
    priority := 2
    plugin_title := "m8"
    function_name := "p2" }

/-- A registry with a stopping post hook followed by another post hook. -/
def stPost : PM := { hook_hooks := [("post", [postStopHook, postAfterHook])] }

/-- An exclusive (`single_thread`) post hook. -/
def postExcl : Hook :=
  { hid := 71
    type := "post_hook"
    priority := 1
    plugin_title := "m9"
    function_name := "pf"
    single_thread := true }

/-- A registry whose only post hook is the exclusive one. -/
def stPostX : PM := { hook_hooks := [("post", [postExcl])] }

/-- A non-exclusive command hook used as dispatch target. -/
def tgtPlainHook : Hook :=
  { hid := 72
    type := "command"
    priority := 1
    plugin_title := "m9b"
    function_name := "f9" }

/-- A command hook owning aliases `"a"` and `"b"`, of module `m10`. -/
def ownCmdHook : Hook :=
  { hid := 81
    type := "command"
    priority := 1
    plugin_title := "m10"
    function_name := "c10"
    aliases := ["a", "b"] }

/-- A foreign command hook that won alias `"a"` earlier. -/
def winnerCmdHook : Hook :=
  { hid := 82
    type := "command"
    priority := 1
    plugin_title := "m0"
    function_name := "c0"
    aliases := ["a"] }

def plugOwn : Plugin :=
  { file_path := "/p/t.py"
    title := "m10"
    hooks_command := [ownCmdHook] }

/-- A registry where `m10` is loaded but lost alias `"a"` to the foreign
hook: `"a"` maps to the winner, `"b"` to `m10`'s own hook. -/
def stTwoCmds : PM :=
  { plugins := [("/p/t.py", plugOwn)]
    commands := [("a", winnerCmdHook), ("b", ownCmdHook)] }

/-! ## Lemmas about the dict model -/

section AList

variable {κ : Type _} {β : Type _} [DecidableEq κ]

theorem alookup_nil (k : κ) : alookup k ([] : List (κ × β)) = none := rfl

theorem alookup_cons (k : κ) (kv : κ × β) (rest : List (κ × β)) :
    alookup k (kv :: rest) = if kv.1 = k then some kv.2 else alookup k rest := rfl

theorem keysOf_nil : keysOf ([] : List (κ × β)) = [] := rfl

theorem keysOf_cons (kv : κ × β) (rest : List (κ × β)) :
    keysOf (kv :: rest) = kv.1 :: keysOf rest := rfl

theorem alookup_aset_self (k : κ) (v : β) (m : List (κ × β)) :
    alookup k (aset k v m) = some v := by
  induction m with
  | nil => simp [aset, alookup]
  | cons kv rest ih =>
    unfold aset
    by_cases h : kv.1 = k
    · rw [if_pos h, alookup_cons, if_pos h]
    · rw [if_neg h, alookup_cons, if_neg h]
      exact ih

theorem alookup_aset_ne {k1 k : κ} (h : k1 ≠ k) (v : β) (m : List (κ × β)) :
    alookup k1 (aset k v m) = alookup k1 m := by
  have hne : k ≠ k1 := fun hh => h hh.symm
  induction m with
  | nil => simp [aset, alookup, hne]
  | cons kv rest ih =>
    unfold aset
    by_cases hk : kv.1 = k
    · have hne1 : ¬ kv.1 = k1 := fun hh => hne (hk ▸ hh)
      rw [if_pos hk, alookup_cons, alookup_cons]
      simp only [hne1, hk, hne, if_false]
    · rw [if_neg hk, alookup_cons, alookup_cons]
      by_cases hk1 : kv.1 = k1
      · rw [if_pos hk1, if_pos hk1]
      · rw [if_neg hk1, if_neg hk1]
        exact ih

theorem alookup_adel_ne {k1 k : κ} (h : k1 ≠ k) (m : List (κ × β)) :
    alookup k1 (adel k m) = alookup k1 m := by
  induction m with
  | nil => rfl
  | cons kv rest ih =>
    unfold adel
    by_cases hk : kv.1 = k
    · have hne1 : ¬ kv.1 = k1 := fun hh => h (hh ▸ hk)
      rw [if_pos hk, alookup_cons, if_neg hne1]
    · rw [if_neg hk, alookup_cons, alookup_cons]
      by_cases hk1 : kv.1 = k1
      · rw [if_pos hk1, if_pos hk1]
      · rw [if_neg hk1, if_neg hk1]
        exact ih

theorem mem_keysOf_of_alookup {k : κ} {v : β} {m : List (κ × β)}
    (h : alookup k m = some v) : k ∈ keysOf m := by
  induction m with
  | nil => simp [alookup] at h
  | cons kv rest ih =>
    rw [alookup_cons] at h
    rw [keysOf_cons]
    by_cases hk : kv.1 = k
    · exact hk ▸ List.mem_cons_self _ _
    · rw [if_neg hk] at h
      exact List.mem_cons_of_mem _ (ih h)

theorem alookup_eq_none {k : κ} {m : List (κ × β)} (h : k ∉ keysOf m) :
    alookup k m = none := by
  induction m with
  | nil => rfl
  | cons kv rest ih =>
    rw [keysOf_cons, List.mem_cons] at h
    push_neg at h
    rw [alookup_cons, if_neg (fun hh => h.1 hh.symm)]
    exact ih h.2

theorem alookup_isSome_of_mem {k : κ} {m : List (κ × β)} (h : k ∈ keysOf m) :
    (alookup k m).isSome := by
  induction m with
  | nil => simp [keysOf] at h
  | cons kv rest ih =>
    rw [alookup_cons]
    by_cases hk : kv.1 = k
    · rw [if_pos hk]
      rfl
    · rw [if_neg hk]
      rw [keysOf_cons, List.mem_cons] at h
      exact ih (h.resolve_left (fun hh => hk hh.symm))

theorem alookup_entry_mem {k : κ} {v : β} {m : List (κ × β)}
    (h : alookup k m = some v) : (k, v) ∈ m := by
  induction m with
  | nil => simp [alookup] at h
  | cons kv rest ih =>
    rw [alookup_cons] at h
    by_cases hk : kv.1 = k
    · rw [if_pos hk] at h
      have : kv = (k, v) := by
        cases kv
        cases h
        cases hk
        rfl
      exact this ▸ List.mem_cons_self _ _
    · rw [if_neg hk] at h
      exact List.mem_cons_of_mem _ (ih h)

theorem keysOf_aset (k : κ) (v : β) (m : List (κ × β)) :
    keysOf (aset k v m) = if k ∈ keysOf m then keysOf m else keysOf m ++ [k] := by
  induction m with
  | nil => simp [aset, keysOf]
  | cons kv rest ih =>
    unfold aset
    by_cases hk : kv.1 = k
    · rw [if_pos hk, keysOf_cons, keysOf_cons,
        if_pos (hk ▸ List.mem_cons_self kv.1 (keysOf rest))]
    · rw [if_neg hk, keysOf_cons, keysOf_cons, ih]
      have hmemiff : k ∈ kv.1 :: keysOf rest ↔ k ∈ keysOf rest := by
        rw [List.mem_cons]
        exact or_iff_right (fun hh => hk hh.symm)
      by_cases hm : k ∈ keysOf rest
      · rw [if_pos hm, if_pos (hmemiff.mpr hm)]
      · rw [if_neg hm, if_neg (fun hh => hm (hmemiff.mp hh)), List.cons_append]

theorem keysOf_adel (k : κ) (m : List (κ × β)) :
    keysOf (adel k m) = (keysOf m).erase k := by
  induction m with
  | nil => rfl
  | cons kv rest ih =>
    unfold adel
    by_cases hk : kv.1 = k
    · rw [if_pos hk, keysOf_cons, hk, List.erase_cons_head]
    · rw [if_neg hk, keysOf_cons, keysOf_cons, ih]
      simp [List.erase_cons, hk]

theorem nodupKeys_aset {m : List (κ × β)} (nd : NodupKeys m) (k : κ) (v : β) :
    NodupKeys (aset k v m) := by
  unfold NodupKeys
  rw [keysOf_aset]
  by_cases h : k ∈ keysOf m
  · rw [if_pos h]
    exact nd
  · rw [if_neg h]
    rw [List.nodup_append]
    exact ⟨nd, List.nodup_singleton k, by simpa [List.disjoint_singleton] using h⟩

theorem nodupKeys_adel {m : List (κ × β)} (nd : NodupKeys m) (k : κ) :
    NodupKeys (adel k m) := by
  unfold NodupKeys
  rw [keysOf_adel]
  exact nd.erase k

theorem alist_ext {m1 m2 : List (κ × β)} (nd : NodupKeys m1)
    (hk : keysOf m1 = keysOf m2) (hl : ∀ k, alookup k m1 = alookup k m2) :
    m1 = m2 := by
  induction m1 generalizing m2 with
  | nil =>
    cases m2 with
    | nil => rfl
    | cons kv rest => simp [keysOf] at hk
  | cons kv rest ih =>
    cases m2 with
    | nil => simp [keysOf] at hk
    | cons kv2 rest2 =>
      rw [keysOf_cons, keysOf_cons] at hk
      have hk1 : kv.1 = kv2.1 := List.head_eq_of_cons_eq hk
      have hkr : keysOf rest = keysOf rest2 := List.tail_eq_of_cons_eq hk
      have hv : kv.2 = kv2.2 := by
        have := hl kv.1
        rw [alookup_cons, alookup_cons, if_pos rfl, if_pos hk1.symm] at this
        exact Option.some.inj this
      have hnd : NodupKeys rest := by
        have := (List.nodup_cons.mp (by simpa [NodupKeys, keysOf_cons] using nd)).2
        exact this
      have hnotin : kv.1 ∉ keysOf rest :=
        (List.nodup_cons.mp (by simpa [NodupKeys, keysOf_cons] using nd)).1
      have hrest : rest = rest2 := by
        refine ih hnd hkr (fun k => ?_)
        by_cases hkk : k = kv.1
        · subst hkk
          rw [alookup_eq_none hnotin, alookup_eq_none (hkr ▸ hnotin)]
        · have := hl k
          rw [alookup_cons, alookup_cons, if_neg (fun hh => hkk hh.symm),
            if_neg (fun hh => hkk (hk1 ▸ hh).symm)] at this
          exact this
      have hkv : kv = kv2 := by
        cases kv
        cases kv2
        cases hk1
        cases hv
        rfl
      rw [hkv, hrest]

end AList

/-! ## Lemmas about the map registration helpers -/

section MapOps

variable {κ : Type _} [DecidableEq κ]

theorem alookup_adel_self {m : List (κ × β)} (nd : NodupKeys m) (k : κ) :
    alookup k (adel k m) = none := by
  apply alookup_eq_none
  rw [keysOf_adel]
  exact nd.not_mem_erase

theorem alookup_mapAppend_self (m : List (κ × List Hook)) (k : κ) (h : Hook) :
    alookup k (mapAppend m k h) = some ((alookup k m).getD [] ++ [h]) := by
  unfold mapAppend
  cases hm : alookup k m with
  | none => simp [alookup_aset_self]
  | some l => simp [alookup_aset_self]

theorem alookup_mapAppend_ne {k1 k : κ} (hne : k1 ≠ k) (m : List (κ × List Hook)) (h : Hook) :
    alookup k1 (mapAppend m k h) = alookup k1 m := by
  unfold mapAppend
  cases hm : alookup k m with
  | none => exact alookup_aset_ne hne _ _
  | some l => exact alookup_aset_ne hne _ _

theorem keysOf_mapAppend (m : List (κ × List Hook)) (k : κ) (h : Hook) :
    keysOf (mapAppend m k h) =
      if k ∈ keysOf m then keysOf m else keysOf m ++ [k] := by
  unfold mapAppend
  cases hm : alookup k m with
  | none => rw [keysOf_aset]
  | some l => rw [keysOf_aset]

theorem nodupKeys_mapAppend {m : List (κ × List Hook)} (nd : NodupKeys m) (k : κ) (h : Hook) :
    NodupKeys (mapAppend m k h) := by
  unfold mapAppend
  cases alookup k m with
  | none => exact nodupKeys_aset nd _ _
  | some l => exact nodupKeys_aset nd _ _

theorem alookup_mapRemoveDrop_self {m : List (κ × List Hook)} (nd : NodupKeys m)
    (k : κ) (i : Nat) :
    alookup k (mapRemoveDrop m k i) =
      match alookup k m with
      | none => none
      | some l => if (eraseHook l i).isEmpty then none else some (eraseHook l i) := by
  unfold mapRemoveDrop
  cases hm : alookup k m with
  | none => simpa using hm
  | some l =>
    by_cases he : (eraseHook l i).isEmpty
    · simp only [he, if_true]
      exact alookup_adel_self nd k
    · simp only [he, if_false]
      simp [alookup_aset_self, he]

theorem alookup_mapRemoveDrop_ne {k1 k : κ} (hne : k1 ≠ k) (m : List (κ × List Hook)) (i : Nat) :
    alookup k1 (mapRemoveDrop m k i) = alookup k1 m := by
  unfold mapRemoveDrop
  cases hm : alookup k m with
  | none => rfl
  | some l =>
    by_cases he : (eraseHook l i).isEmpty
    · simp only [he, if_true]
      exact alookup_adel_ne hne m
    · simp only [he, if_false]
      exact alookup_aset_ne hne _ m

theorem keysOf_mapRemoveDrop_sublist (m : List (κ × List Hook)) (k : κ) (i : Nat) :
    List.Sublist (keysOf (mapRemoveDrop m k i)) (keysOf m) := by
  unfold mapRemoveDrop
  cases hm : alookup k m with
  | none => exact List.Sublist.refl _
  | some l =>
    by_cases he : (eraseHook l i).isEmpty
    · simp only [he, if_true]
      rw [keysOf_adel]
      exact List.erase_sublist _ _
    · show (keysOf (if (eraseHook l i).isEmpty = true then adel k m
          else aset k (eraseHook l i) m)).Sublist (keysOf m)
      rw [if_neg he, keysOf_aset, if_pos (mem_keysOf_of_alookup hm)]

theorem nodupKeys_mapRemoveDrop {m : List (κ × List Hook)} (nd : NodupKeys m) (k : κ) (i : Nat) :
    NodupKeys (mapRemoveDrop m k i) := by
  unfold mapRemoveDrop
  cases alookup k m with
  | none => exact nd
  | some l =>
    by_cases he : (eraseHook l i).isEmpty
    · simp only [he, if_true]
      exact nodupKeys_adel nd k
    · simp only [he, if_false]
      exact nodupKeys_aset nd _ _

theorem alookup_mapRemoveKeep_self (m : List (κ × List Hook)) (k : κ) (i : Nat) :
    alookup k (mapRemoveKeep m k i) = (alookup k m).map (fun l => eraseHook l i) := by
  unfold mapRemoveKeep
  cases hm : alookup k m with
  | none => simpa using hm
  | some l => simp [alookup_aset_self]

theorem alookup_mapRemoveKeep_ne {k1 k : κ} (hne : k1 ≠ k) (m : List (κ × List Hook)) (i : Nat) :
    alookup k1 (mapRemoveKeep m k i) = alookup k1 m := by
  unfold mapRemoveKeep
  cases hm : alookup k m with
  | none => rfl
  | some l => exact alookup_aset_ne hne _ m

theorem keysOf_mapRemoveKeep (m : List (κ × List Hook)) (k : κ) (i : Nat) :
    keysOf (mapRemoveKeep m k i) = keysOf m := by
  unfold mapRemoveKeep
  cases hm : alookup k m with
  | none => rfl
  | some l => rw [keysOf_aset, if_pos (mem_keysOf_of_alookup hm)]

theorem nodupKeys_mapRemoveKeep {m : List (κ × List Hook)} (nd : NodupKeys m) (k : κ) (i : Nat) :
    NodupKeys (mapRemoveKeep m k i) := by
  unfold NodupKeys
  rw [keysOf_mapRemoveKeep]
  exact nd

end MapOps

section DDEnsure

theorem getD_alookup_ddEnsure (m : List (String × List Hook)) (k k1 : String) :
    (alookup k1 (ddEnsure m k)).getD [] = (alookup k1 m).getD [] := by
  unfold ddEnsure
  cases hm : alookup k m with
  | some l => rfl
  | none =>
    by_cases hk : k1 = k
    · subst hk
      rw [alookup_aset_self, hm]
      rfl
    · rw [alookup_aset_ne hk]

theorem ddEnsure_idem (m : List (String × List Hook)) (k : String) :
    ddEnsure (ddEnsure m k) k = ddEnsure m k := by
  unfold ddEnsure
  cases hm : alookup k m with
  | some l => simp [hm]
  | none => simp [alookup_aset_self]

theorem nodupKeys_ddEnsure {m : List (String × List Hook)} (nd : NodupKeys m) (k : String) :
    NodupKeys (ddEnsure m k) := by
  unfold ddEnsure
  cases alookup k m with
  | some l => exact nd
  | none => exact nodupKeys_aset nd _ _

theorem mapSorted_ddEnsure {m : List (String × List Hook)} (hs : mapSorted m) (k : String) :
    mapSorted (ddEnsure m k) := by
  unfold ddEnsure
  cases hm : alookup k m with
  | some l => exact hs
  | none =>
    intro k1 l hl
    by_cases hk : k1 = k
    · subst hk
      rw [alookup_aset_self] at hl
      cases hl
      exact List.Pairwise.nil
    · rw [alookup_aset_ne hk] at hl
      exact hs k1 l hl

theorem ensuredPost_refl (m : List (String × List Hook)) : EnsuredPost m m := Or.inl rfl

theorem ensuredPost_trans {m m1 m2 : List (String × List Hook)}
    (h1 : EnsuredPost m m1) (h2 : EnsuredPost m1 m2) : EnsuredPost m m2 := by
  cases h1 with
  | inl h1 =>
    subst h1
    exact h2
  | inr h1 =>
    cases h2 with
    | inl h2 => exact Or.inr (h2 ▸ h1)
    | inr h2 =>
      subst h1
      rw [ddEnsure_idem] at h2
      exact Or.inr h2

end DDEnsure

/-! ## Per-key characterization of the registration folds -/

section PerKey

variable {κ : Type _} [DecidableEq κ]

theorem keyAdds_nil (k : κ) : keyAdds k ([] : List (κ × Hook)) = [] := rfl

theorem keyAdds_cons (k : κ) (pr : κ × Hook) (prs : List (κ × Hook)) :
    keyAdds k (pr :: prs) =
      if pr.1 = k then pr.2 :: keyAdds k prs else keyAdds k prs := by
  unfold keyAdds
  by_cases h : pr.1 = k
  · simp [List.filterMap_cons, h]
  · simp [List.filterMap_cons, h]

theorem addPairs_nil (m : List (κ × List Hook)) : addPairs m [] = m := rfl

theorem addPairs_cons (m : List (κ × List Hook)) (pr : κ × Hook) (prs : List (κ × Hook)) :
    addPairs m (pr :: prs) = addPairs (mapAppend m pr.1 pr.2) prs := rfl

theorem alookup_addPairs_nil {k : κ} {prs : List (κ × Hook)} (h : keyAdds k prs = [])
    (m : List (κ × List Hook)) : alookup k (addPairs m prs) = alookup k m := by
  induction prs generalizing m with
  | nil => rfl
  | cons pr prs ih =>
    rw [keyAdds_cons] at h
    by_cases hk : pr.1 = k
    · rw [if_pos hk] at h
      cases h
    · rw [if_neg hk] at h
      rw [addPairs_cons, ih h, alookup_mapAppend_ne (fun hh => hk hh.symm)]

theorem alookup_addPairs_cons {k : κ} {prs : List (κ × Hook)} (h : keyAdds k prs ≠ [])
    (m : List (κ × List Hook)) :
    alookup k (addPairs m prs) = some ((alookup k m).getD [] ++ keyAdds k prs) := by
  induction prs generalizing m with
  | nil => exact absurd rfl h
  | cons pr prs ih =>
    rw [addPairs_cons, keyAdds_cons]
    by_cases hk : pr.1 = k
    · rw [if_pos hk]
      subst hk
      by_cases h2 : keyAdds pr.1 prs = []
      · rw [alookup_addPairs_nil h2, alookup_mapAppend_self, h2]
      · rw [ih h2, alookup_mapAppend_self]
        simp
    · rw [if_neg hk]
      rw [keyAdds_cons, if_neg hk] at h
      rw [ih h, alookup_mapAppend_ne (fun hh => hk hh.symm)]

theorem keysOf_addPairs (m : List (κ × List Hook)) (prs : List (κ × Hook)) :
    ∃ ks, keysOf (addPairs m prs) = keysOf m ++ ks ∧ ∀ k ∈ ks, k ∉ keysOf m := by
  induction prs generalizing m with
  | nil => exact ⟨[], by simp [addPairs_nil], by simp⟩
  | cons pr prs ih =>
    rw [addPairs_cons]
    obtain ⟨ks, hks, hfresh⟩ := ih (mapAppend m pr.1 pr.2)
    rw [keysOf_mapAppend] at hks hfresh
    by_cases hm : pr.1 ∈ keysOf m
    · rw [if_pos hm] at hks hfresh
      exact ⟨ks, hks, hfresh⟩
    · rw [if_neg hm] at hks hfresh
      refine ⟨pr.1 :: ks, by simpa using hks, ?_⟩
      intro k hk
      cases hk with
      | head => exact hm
      | tail _ hk =>
        intro hmem
        exact hfresh k hk (List.mem_append_left _ hmem)

theorem nodupKeys_addPairs {m : List (κ × List Hook)} (nd : NodupKeys m)
    (prs : List (κ × Hook)) : NodupKeys (addPairs m prs) := by
  induction prs generalizing m with
  | nil => exact nd
  | cons pr prs ih => exact ih (nodupKeys_mapAppend nd _ _)

theorem dropPairs_nil (m : List (κ × List Hook)) : dropPairs m [] = m := rfl

theorem dropPairs_cons (m : List (κ × List Hook)) (pr : κ × Hook) (prs : List (κ × Hook)) :
    dropPairs m (pr :: prs) = dropPairs (mapRemoveDrop m pr.1 pr.2.hid) prs := rfl

theorem dropFold_none (ids : List Nat) : dropFold none ids = none := by
  induction ids with
  | nil => rfl
  | cons i ids ih => exact ih

theorem dropFold_cons (o : Option (List Hook)) (i : Nat) (ids : List Nat) :
    dropFold o (i :: ids) =
      dropFold
        (match o with
         | none => none
         | some l => if (eraseHook l i).isEmpty then none else some (eraseHook l i))
        ids := rfl

theorem dropFold_some_cons (M : List Hook) (i : Nat) (ids : List Nat) :
    dropFold (some M) (i :: ids) =
      dropFold (if (eraseHook M i).isEmpty then none else some (eraseHook M i)) ids := rfl

theorem alookup_dropPairs {m : List (κ × List Hook)} (nd : NodupKeys m)
    (k : κ) (prs : List (κ × Hook)) :
    alookup k (dropPairs m prs) = dropFold (alookup k m) ((keyAdds k prs).map Hook.hid) := by
  induction prs generalizing m with
  | nil => rfl
  | cons pr prs ih =>
    rw [dropPairs_cons, keyAdds_cons]
    by_cases hk : pr.1 = k
    · subst hk
      rw [if_pos rfl, List.map_cons, dropFold_cons,
        ih (nodupKeys_mapRemoveDrop nd _ _), alookup_mapRemoveDrop_self nd]
    · rw [if_neg hk, ih (nodupKeys_mapRemoveDrop nd _ _),
        alookup_mapRemoveDrop_ne (fun hh => hk hh.symm)]

theorem keysOf_dropPairs_sublist (m : List (κ × List Hook)) (prs : List (κ × Hook)) :
    List.Sublist (keysOf (dropPairs m prs)) (keysOf m) := by
  induction prs generalizing m with
  | nil => exact List.Sublist.refl _
  | cons pr prs ih =>
    rw [dropPairs_cons]
    exact (ih _).trans (keysOf_mapRemoveDrop_sublist m _ _)

theorem nodupKeys_dropPairs {m : List (κ × List Hook)} (nd : NodupKeys m)
    (prs : List (κ × Hook)) : NodupKeys (dropPairs m prs) := by
  induction prs generalizing m with
  | nil => exact nd
  | cons pr prs ih => exact ih (nodupKeys_mapRemoveDrop nd _ _)

theorem keepPairs_cons (m : List (κ × List Hook)) (pr : κ × Hook) (prs : List (κ × Hook)) :
    keepPairs m (pr :: prs) = keepPairs (mapRemoveKeep m pr.1 pr.2.hid) prs := rfl

theorem keepFold_none (ids : List Nat) : keepFold none ids = none := by
  induction ids with
  | nil => rfl
  | cons i ids ih => exact ih

theorem alookup_keepPairs (m : List (κ × List Hook)) (k : κ) (prs : List (κ × Hook)) :
    alookup k (keepPairs m prs) = keepFold (alookup k m) ((keyAdds k prs).map Hook.hid) := by
  induction prs generalizing m with
  | nil => rfl
  | cons pr prs ih =>
    rw [keepPairs_cons, keyAdds_cons]
    by_cases hk : pr.1 = k
    · subst hk
      rw [if_pos rfl, List.map_cons, ih, alookup_mapRemoveKeep_self]
      cases alookup pr.1 m with
      | none => rfl
      | some l => rfl
    · rw [if_neg hk, ih, alookup_mapRemoveKeep_ne (fun hh => hk hh.symm)]

theorem keysOf_keepPairs (m : List (κ × List Hook)) (prs : List (κ × Hook)) :
    keysOf (keepPairs m prs) = keysOf m := by
  induction prs generalizing m with
  | nil => rfl
  | cons pr prs ih => rw [keepPairs_cons, ih, keysOf_mapRemoveKeep]

theorem nodupKeys_keepPairs {m : List (κ × List Hook)} (nd : NodupKeys m)
    (prs : List (κ × Hook)) : NodupKeys (keepPairs m prs) := by
  unfold NodupKeys
  rw [keysOf_keepPairs]
  exact nd

end PerKey

/-! ## Per-alias characterization of command (un)registration -/

section Commands

theorem alookup_regCommands (m : List (String × Hook)) (a : String)
    (prs : List (String × Hook)) :
    alookup a (regCommands m prs).1 = (alookup a m).or (keyAdds a prs).head? := by
  induction prs generalizing m with
  | nil =>
    show alookup a m = (alookup a m).or (keyAdds a ([] : List (String × Hook))).head?
    cases alookup a m <;> rfl
  | cons pr prs ih =>
    rw [keyAdds_cons]
    unfold regCommands
    cases hm : alookup pr.1 m with
    | some h =>
      by_cases hk : pr.1 = a
      · subst hk
        simp only [ih, hm, if_pos rfl]
        rfl
      · simp only [ih]
        rw [if_neg hk]
    | none =>
      by_cases hk : pr.1 = a
      · subst hk
        simp only [ih, alookup_aset_self, hm, if_pos rfl]
        rfl
      · simp only [ih, alookup_aset_ne (fun hh => hk hh.symm)]
        rw [if_neg hk]

theorem keysOf_regCommands (m : List (String × Hook)) (prs : List (String × Hook)) :
    ∃ ks, keysOf (regCommands m prs).1 = keysOf m ++ ks ∧ ∀ k ∈ ks, k ∉ keysOf m := by
  induction prs generalizing m with
  | nil => exact ⟨[], by simp [regCommands], by simp⟩
  | cons pr prs ih =>
    unfold regCommands
    cases hm : alookup pr.1 m with
    | some h => exact ih m
    | none =>
      obtain ⟨ks, hks, hfresh⟩ := ih (aset pr.1 pr.2 m)
      rw [keysOf_aset] at hks hfresh
      have hnm : pr.1 ∉ keysOf m := by
        intro hmem
        have := alookup_isSome_of_mem hmem
        rw [hm] at this
        cases this
      rw [if_neg hnm] at hks hfresh
      refine ⟨pr.1 :: ks, by simpa using hks, ?_⟩
      intro k hk
      cases hk with
      | head => exact hnm
      | tail _ hk =>
        intro hmem
        exact hfresh k hk (List.mem_append_left _ hmem)

theorem nodupKeys_regCommands {m : List (String × Hook)} (nd : NodupKeys m)
    (prs : List (String × Hook)) : NodupKeys (regCommands m prs).1 := by
  induction prs generalizing m with
  | nil => exact nd
  | cons pr prs ih =>
    unfold regCommands
    cases alookup pr.1 m with
    | some h => exact ih nd
    | none => exact ih (nodupKeys_aset nd _ _)

theorem unregCommands_cons (m : List (String × Hook)) (pr : String × Hook)
    (prs : List (String × Hook)) :
    unregCommands m (pr :: prs) =
      unregCommands
        (match alookup pr.1 m with
         | some k => if k.hid = pr.2.hid then adel pr.1 m else m
         | none => m)
        prs := rfl

theorem cmdDropFold_none (ids : List Nat) : cmdDropFold none ids = none := by
  induction ids with
  | nil => rfl
  | cons i ids ih => exact ih

theorem alookup_unregCommands {m : List (String × Hook)} (nd : NodupKeys m)
    (a : String) (prs : List (String × Hook)) :
    alookup a (unregCommands m prs) =
      cmdDropFold (alookup a m) ((keyAdds a prs).map Hook.hid) := by
  induction prs generalizing m with
  | nil => rfl
  | cons pr prs ih =>
    rw [unregCommands_cons, keyAdds_cons]
    have hstep :
        NodupKeys (match alookup pr.1 m with
          | some k => if k.hid = pr.2.hid then adel pr.1 m else m
          | none => m) := by
      cases alookup pr.1 m with
      | none => exact nd
      | some k =>
        by_cases hh : k.hid = pr.2.hid
        · simp only [hh, if_true]
          exact nodupKeys_adel nd _
        · simp only [hh, if_false]
          exact nd
    by_cases hk : pr.1 = a
    · subst hk
      rw [if_pos rfl, List.map_cons, ih hstep]
      cases hm : alookup pr.1 m with
      | none => simp [cmdDropFold, cmdDropFold_none, hm]
      | some k =>
        by_cases hh : k.hid = pr.2.hid
        · simp only [hm, hh, if_true]
          rw [alookup_adel_self nd]
          simp [cmdDropFold, hh]
        · simp only [hm, hh, if_false]
          simp [cmdDropFold, hh, hm]
    · rw [if_neg hk, ih hstep]
      cases hm : alookup pr.1 m with
      | none => rfl
      | some k =>
        by_cases hh : k.hid = pr.2.hid
        · simp only [hm, hh, if_true]
          rw [alookup_adel_ne (fun hh2 => hk hh2.symm)]
        · simp only [hm, hh, if_false]

theorem keysOf_unregCommands_sublist (m : List (String × Hook))
    (prs : List (String × Hook)) :
    List.Sublist (keysOf (unregCommands m prs)) (keysOf m) := by
  induction prs generalizing m with
  | nil => exact List.Sublist.refl _
  | cons pr prs ih =>
    rw [unregCommands_cons]
    refine (ih _).trans ?_
    cases alookup pr.1 m with
    | none => exact List.Sublist.refl _
    | some k =>
      by_cases hh : k.hid = pr.2.hid
      · simp only [hh, if_true]
        rw [keysOf_adel]
        exact List.erase_sublist _ _
      · simp only [hh, if_false]
        exact List.Sublist.refl _

theorem nodupKeys_unregCommands {m : List (String × Hook)} (nd : NodupKeys m)
    (prs : List (String × Hook)) : NodupKeys (unregCommands m prs) := by
  induction prs generalizing m with
  | nil => exact nd
  | cons pr prs ih =>
    rw [unregCommands_cons]
    apply ih
    cases alookup pr.1 m with
    | none => exact nd
    | some k =>
      by_cases hh : k.hid = pr.2.hid
      · simp only [hh, if_true]
        exact nodupKeys_adel nd _
      · simp only [hh, if_false]
        exact nd

end Commands

/-! ## Round-trip lemmas: appending fresh elements, stably sorting, erasing -/

section Restore

variable {α : Type _} {ι : Type _} [DecidableEq ι]

theorem sublist_eraseP_of_not {p : α → Bool} :
    ∀ {S M : List α}, List.Sublist S M → (∀ a ∈ S, ¬ p a) → List.Sublist S (M.eraseP p) := by
  intro S M h
  induction h with
  | slnil =>
    intro _
    exact List.nil_sublist _
  | cons a h ih =>
    intro hnot
    by_cases hp : p a
    · rw [List.eraseP_cons_of_pos hp]
      exact h
    · rw [List.eraseP_cons_of_neg (by simpa using hp)]
      exact List.Sublist.cons a (ih hnot)
  | cons₂ a h ih =>
    intro hnot
    rw [List.eraseP_cons_of_neg (by simpa using hnot a (List.mem_cons_self a _))]
    exact List.Sublist.cons₂ a (ih (fun b hb => hnot b (List.mem_cons_of_mem a hb)))

theorem restore_step (idf : α → ι) {L N2 M : List α} {n : α}
    (hsub : List.Sublist L M) (hperm : M.Perm (L ++ n :: N2))
    (hfreshL : ∀ g ∈ L, idf g ≠ idf n) (hfreshN : ∀ g ∈ N2, idf g ≠ idf n) :
    List.Sublist L (eraseById idf M (idf n)) ∧ (eraseById idf M (idf n)).Perm (L ++ N2) := by
  have hmem : n ∈ M := hperm.mem_iff.mpr (by simp)
  obtain ⟨a2, M1, M2, hM1, hpa, hMeq, hErase⟩ :=
    @List.exists_of_eraseP _ (fun x => decide (idf x = idf n)) M n hmem (by simp)
  have ha2 : a2 = n := by
    have ha2mem : a2 ∈ M := by
      rw [hMeq]
      simp
    have hmem2 : a2 ∈ L ++ n :: N2 := hperm.mem_iff.mp ha2mem
    rw [List.mem_append, List.mem_cons] at hmem2
    rcases hmem2 with hL | hn | hN
    · exact absurd (of_decide_eq_true hpa) (hfreshL a2 hL)
    · exact hn
    · exact absurd (of_decide_eq_true hpa) (hfreshN a2 hN)
  constructor
  · exact sublist_eraseP_of_not hsub (fun a ha => by simpa using hfreshL a ha)
  · show (M.eraseP fun x => decide (idf x = idf n)).Perm (L ++ N2)
    rw [hErase]
    have hMperm : M.Perm (n :: (M1 ++ M2)) := by
      rw [hMeq, ha2]
      exact List.perm_middle
    have h2 : (n :: (M1 ++ M2)).Perm (n :: (L ++ N2)) :=
      hMperm.symm.trans (hperm.trans List.perm_middle)
    exact h2.cons_inv

theorem eraseAllById_nil (idf : α → ι) (M : List α) : eraseAllById idf M [] = M := rfl

theorem eraseAllById_cons (idf : α → ι) (M : List α) (n : α) (N : List α) :
    eraseAllById idf M (n :: N) = eraseAllById idf (eraseById idf M (idf n)) N := rfl

theorem eraseAllById_restore (idf : α → ι) :
    ∀ {N L M : List α}, List.Sublist L M → M.Perm (L ++ N) →
      (∀ g ∈ L, ∀ n ∈ N, idf g ≠ idf n) → (N.map idf).Nodup →
      eraseAllById idf M N = L := by
  intro N
  induction N with
  | nil =>
    intro L M hsub hperm _ _
    rw [eraseAllById_nil]
    exact (hsub.eq_of_length (by simpa using hperm.length_eq.symm)).symm
  | cons n N ih =>
    intro L M hsub hperm hfresh hnodup
    rw [eraseAllById_cons]
    rw [List.map_cons, List.nodup_cons] at hnodup
    have hfreshN : ∀ g ∈ N, idf g ≠ idf n := by
      intro g hg hh
      exact hnodup.1 (hh ▸ List.mem_map_of_mem idf hg)
    obtain ⟨hsub2, hperm2⟩ := restore_step idf hsub hperm
      (fun g hg => hfresh g hg n (List.mem_cons_self n N)) hfreshN
    exact ih hsub2 hperm2
      (fun g hg m hm => hfresh g hg m (List.mem_cons_of_mem n hm)) hnodup.2

theorem eraseAllById_sort_restore (idf : α → ι) (r : α → α → Prop) [DecidableRel r]
    {L N : List α} (hs : L.Pairwise r)
    (hfresh : ∀ g ∈ L, ∀ n ∈ N, idf g ≠ idf n) (hnodup : (N.map idf).Nodup) :
    eraseAllById idf (List.insertionSort r (L ++ N)) N = L :=
  eraseAllById_restore idf
    (List.sublist_insertionSort hs (List.sublist_append_left L N))
    ((List.perm_insertionSort r (L ++ N)).trans (List.Perm.refl _)) hfresh hnodup

theorem eraseHook_eq_eraseById (l : List Hook) (i : Nat) :
    eraseHook l i = eraseById Hook.hid l i := rfl

theorem eraseHooks_eq_eraseAllById (l hs : List Hook) :
    eraseHooks l hs = eraseAllById Hook.hid l hs := rfl

theorem eraseRegexes_eq_eraseAllById (l prs : List (Nat × Hook)) :
    eraseRegexes l prs = eraseAllById rxId l prs := rfl

theorem dropFold_restore :
    ∀ {N L M : List Hook}, List.Sublist L M → M.Perm (L ++ N) →
      (∀ g ∈ L, ∀ n ∈ N, g.hid ≠ n.hid) → (N.map Hook.hid).Nodup → L ≠ [] →
      dropFold (some M) (N.map Hook.hid) = some L := by
  intro N
  induction N with
  | nil =>
    intro L M hsub hperm _ _ _
    rw [List.map_nil]
    have hML : M = L := hsub.eq_of_length (by simpa using hperm.length_eq.symm) |>.symm
    rw [hML]
    rfl
  | cons n N ih =>
    intro L M hsub hperm hfresh hnodup hne
    rw [List.map_cons, dropFold_some_cons, eraseHook_eq_eraseById]
    rw [List.map_cons, List.nodup_cons] at hnodup
    have hfreshN : ∀ g ∈ N, g.hid ≠ n.hid := by
      intro g hg hh
      exact hnodup.1 (hh ▸ List.mem_map_of_mem Hook.hid hg)
    obtain ⟨hsub2, hperm2⟩ := restore_step Hook.hid hsub hperm
      (fun g hg => hfresh g hg n (List.mem_cons_self n N)) hfreshN
    have hne2 : ¬ ((eraseById Hook.hid M n.hid).isEmpty = true) := by
      rw [List.isEmpty_iff]
      intro hempty
      rw [hempty] at hsub2
      exact hne (List.sublist_nil.mp hsub2)
    rw [if_neg hne2]
    exact ih hsub2 hperm2
      (fun g hg m hm => hfresh g hg m (List.mem_cons_of_mem n hm)) hnodup.2 hne

theorem dropFold_toNone :
    ∀ {N M : List Hook}, M.Perm N → (N.map Hook.hid).Nodup → N ≠ [] →
      dropFold (some M) (N.map Hook.hid) = none := by
  intro N
  induction N with
  | nil =>
    intro M _ _ hne
    exact absurd rfl hne
  | cons n N ih =>
    intro M hperm hnodup _
    rw [List.map_cons, dropFold_some_cons, eraseHook_eq_eraseById]
    rw [List.map_cons, List.nodup_cons] at hnodup
    have hfreshN : ∀ g ∈ N, g.hid ≠ n.hid := by
      intro g hg hh
      exact hnodup.1 (hh ▸ List.mem_map_of_mem Hook.hid hg)
    obtain ⟨hsubE, hperm2⟩ := restore_step Hook.hid (List.nil_sublist M)
      (by simpa using hperm) (by simp) hfreshN
    simp only [List.nil_append] at hperm2
    cases N with
    | nil =>
      have hMe : eraseById Hook.hid M n.hid = [] := hperm2.eq_nil
      rw [hMe]
      rfl
    | cons m N2 =>
      have hne2 : ¬ ((eraseById Hook.hid M n.hid).isEmpty = true) := by
        rw [List.isEmpty_iff]
        intro hempty
        rw [hempty] at hperm2
        exact List.cons_ne_nil m N2 hperm2.nil_eq.symm
      rw [if_neg hne2]
      exact ih hperm2 hnodup.2 (List.cons_ne_nil m N2)

theorem keepFold_some (M : List Hook) (N : List Hook) :
    keepFold (some M) (N.map Hook.hid) = some (eraseAllById Hook.hid M N) := by
  induction N generalizing M with
  | nil => rfl
  | cons n N ih => exact ih (eraseById Hook.hid M n.hid)

theorem filter_eraseP (p q : α → Bool) (h : ∀ a, p a = true → q a = false) :
    ∀ l : List α, (l.eraseP p).filter q = l.filter q := by
  intro l
  induction l with
  | nil => rfl
  | cons a l ih =>
    by_cases hp : p a
    · rw [List.eraseP_cons_of_pos hp, List.filter_cons, if_neg (by simp [h a hp])]
    · rw [List.eraseP_cons_of_neg (by simpa using hp), List.filter_cons, List.filter_cons]
      by_cases hq : q a
      · rw [if_pos (by simpa using hq), if_pos (by simpa using hq), ih]
      · rw [if_neg (by simpa using hq), if_neg (by simpa using hq), ih]

theorem filter_eraseAllById (idf : α → ι) (q : α → Bool) :
    ∀ (N : List α) (M : List α), (∀ a : α, (∃ n ∈ N, idf a = idf n) → q a = false) →
      (eraseAllById idf M N).filter q = M.filter q := by
  intro N
  induction N with
  | nil =>
    intro M _
    rfl
  | cons n N ih =>
    intro M hq
    rw [eraseAllById_cons, ih _ (fun a ha => hq a (by
      obtain ⟨m, hm, hh⟩ := ha
      exact ⟨m, List.mem_cons_of_mem n hm, hh⟩))]
    exact filter_eraseP _ q
      (fun a ha => hq a ⟨n, List.mem_cons_self n N, of_decide_eq_true ha⟩) M

theorem pairwise_eraseAllById (idf : α → ι) (r : α → α → Prop) :
    ∀ (N M : List α), M.Pairwise r → (eraseAllById idf M N).Pairwise r := by
  intro N
  induction N with
  | nil =>
    intro M h
    exact h
  | cons n N ih =>
    intro M h
    rw [eraseAllById_cons]
    exact ih _ (h.sublist (List.eraseP_sublist M))

end Restore

/-! ## Index-level round-trip lemmas -/

section IndexRoundTrip

theorem sortHooks_idem (l : List Hook) : sortHooks (sortHooks l) = sortHooks l :=
  (List.sorted_insertionSort hookle l).insertionSort_eq

theorem sortHooks_of_sorted {l : List Hook} (h : l.Pairwise hookle) : sortHooks l = l :=
  List.Sorted.insertionSort_eq h

theorem sortRegexes_of_sorted {l : List (Nat × Hook)} (h : l.Pairwise rxle) :
    sortRegexes l = l :=
  List.Sorted.insertionSort_eq h

theorem list_roundtrip {L N : List Hook} (hs : L.Pairwise hookle)
    (hfresh : ∀ g ∈ L, ∀ n ∈ N, g.hid ≠ n.hid) (hnodup : (N.map Hook.hid).Nodup) :
    eraseHooks (sortHooks (L ++ N)) N = L := by
  rw [eraseHooks_eq_eraseAllById]
  exact eraseAllById_sort_restore Hook.hid hookle hs hfresh hnodup

theorem list_roundtrip2 {L N : List Hook} (hs : L.Pairwise hookle)
    (hfresh : ∀ g ∈ L, ∀ n ∈ N, g.hid ≠ n.hid) (hnodup : (N.map Hook.hid).Nodup) :
    eraseHooks (sortHooks (sortHooks (L ++ N))) N = L := by
  rw [sortHooks_idem]
  exact list_roundtrip hs hfresh hnodup

theorem regex_roundtrip {L N : List (Nat × Hook)} (hs : L.Pairwise rxle)
    (hfresh : ∀ g ∈ L, ∀ n ∈ N, rxId g ≠ rxId n) (hnodup : (N.map rxId).Nodup) :
    eraseRegexes (sortRegexes (L ++ N)) N = L := by
  rw [eraseRegexes_eq_eraseAllById]
  exact eraseAllById_sort_restore rxId rxle hs hfresh hnodup

theorem mem_keysOf_iff [DecidableEq κ] {k : κ} {m : List (κ × β)} :
    k ∈ keysOf m ↔ (alookup k m).isSome := by
  constructor
  · exact alookup_isSome_of_mem
  · intro h
    rw [Option.isSome_iff_exists] at h
    obtain ⟨v, hv⟩ := h
    exact mem_keysOf_of_alookup hv

theorem sublist_eq_of_mem_iff {γ : Type _} :
    ∀ {L S T : List γ}, L.Nodup → List.Sublist S L → List.Sublist T L →
      (∀ x, x ∈ S ↔ x ∈ T) → S = T := by
  intro L
  induction L with
  | nil =>
    intro S T _ hS hT _
    rw [List.sublist_nil.mp hS, List.sublist_nil.mp hT]
  | cons a L ih =>
    intro S T hnd hS hT hmem
    rw [List.nodup_cons] at hnd
    have hSL : a ∈ S → ∃ S2, S = a :: S2 ∧ List.Sublist S2 L := by
      intro haS
      cases hS with
      | cons _ hS2 => exact absurd (hS2.mem haS) hnd.1
      | cons₂ _ hS2 =>
        exact ⟨_, rfl, hS2⟩
    have hTL : a ∈ T → ∃ T2, T = a :: T2 ∧ List.Sublist T2 L := by
      intro haT
      cases hT with
      | cons _ hT2 => exact absurd (hT2.mem haT) hnd.1
      | cons₂ _ hT2 =>
        exact ⟨_, rfl, hT2⟩
    have hSL2 : a ∉ S → List.Sublist S L := by
      intro haS
      cases hS with
      | cons _ hS2 => exact hS2
      | cons₂ _ hS2 => exact absurd (List.mem_cons_self a _) haS
    have hTL2 : a ∉ T → List.Sublist T L := by
      intro haT
      cases hT with
      | cons _ hT2 => exact hT2
      | cons₂ _ hT2 => exact absurd (List.mem_cons_self a _) haT
    by_cases ha : a ∈ S
    · obtain ⟨S2, hS2eq, hS2⟩ := hSL ha
      obtain ⟨T2, hT2eq, hT2⟩ := hTL ((hmem a).mp ha)
      subst hS2eq
      subst hT2eq
      have : S2 = T2 := by
        refine ih hnd.2 hS2 hT2 (fun x => ?_)
        constructor
        · intro hx
          have hxa : x ≠ a := by
            intro hh
            exact hnd.1 (hh ▸ hS2.mem hx)
          have := (hmem x).mp (List.mem_cons_of_mem a hx)
          rw [List.mem_cons] at this
          exact this.resolve_left hxa
        · intro hx
          have hxa : x ≠ a := by
            intro hh
            exact hnd.1 (hh ▸ hT2.mem hx)
          have := (hmem x).mpr (List.mem_cons_of_mem a hx)
          rw [List.mem_cons] at this
          exact this.resolve_left hxa
      rw [this]
    · have haT : a ∉ T := fun hh => ha ((hmem a).mpr hh)
      exact ih hnd.2 (hSL2 ha) (hTL2 haT) hmem

theorem alookup_mapSortValues [DecidableEq κ] (k : κ) (m : List (κ × List Hook)) :
    alookup k (mapSortValues m) = (alookup k m).map sortHooks := by
  induction m with
  | nil => rfl
  | cons kv rest ih =>
    show alookup k ((kv.1, sortHooks kv.2) :: mapSortValues rest) = _
    rw [alookup_cons, alookup_cons]
    by_cases hk : kv.1 = k
    · rw [if_pos hk, if_pos hk]
      rfl
    · rw [if_neg hk, if_neg hk]
      exact ih

theorem keysOf_mapSortValues [DecidableEq κ] (m : List (κ × List Hook)) :
    keysOf (mapSortValues m) = keysOf m := by
  induction m with
  | nil => rfl
  | cons kv rest ih =>
    show keysOf ((kv.1, sortHooks kv.2) :: mapSortValues rest) = _
    rw [keysOf_cons, keysOf_cons, ih]

theorem nodupKeys_mapSortValues [DecidableEq κ] {m : List (κ × List Hook)}
    (nd : NodupKeys m) : NodupKeys (mapSortValues m) := by
  unfold NodupKeys
  rw [keysOf_mapSortValues]
  exact nd

theorem mapSorted_mapSortValues [DecidableEq κ] (m : List (κ × List Hook)) :
    mapSorted (mapSortValues m) := by
  intro k l hl
  rw [alookup_mapSortValues] at hl
  cases hm : alookup k m with
  | none =>
    rw [hm] at hl
    cases hl
  | some l0 =>
    rw [hm] at hl
    cases hl
    exact List.sorted_insertionSort hookle l0

theorem keyAdds_mem_pairs [DecidableEq κ] {k : κ} {n : Hook} {prs : List (κ × Hook)}
    (h : n ∈ keyAdds k prs) : (k, n) ∈ prs := by
  unfold keyAdds at h
  rw [List.mem_filterMap] at h
  obtain ⟨pr, hpr, hif⟩ := h
  by_cases hk : pr.1 = k
  · rw [if_pos hk] at hif
    cases hif
    cases pr
    cases hk
    exact hpr
  · rw [if_neg hk] at hif
    cases hif

/-- Round trip of the plain dict-of-list indexes (`raw_triggers`,
`event_type_hooks`): register, sort all values, unregister with
empty-entry deletion — the dict is restored exactly. -/
theorem dropmap_roundtrip {m : List (String × List Hook)} {prs : List (String × Hook)}
    (nd : NodupKeys m) (hsorted : mapSorted m) (hne : mapNonempty m)
    (hfresh : ∀ k l, alookup k m = some l → ∀ g ∈ l, ∀ pr ∈ prs, g.hid ≠ pr.2.hid)
    (hnodup : ∀ k, ((keyAdds k prs).map Hook.hid).Nodup) :
    dropPairs (mapSortValues (addPairs m prs)) prs = m := by
  have ndA : NodupKeys (addPairs m prs) := nodupKeys_addPairs nd prs
  have ndS : NodupKeys (mapSortValues (addPairs m prs)) := nodupKeys_mapSortValues ndA
  have hlook : ∀ k, alookup k (dropPairs (mapSortValues (addPairs m prs)) prs)
      = alookup k m := by
    intro k
    rw [alookup_dropPairs ndS, alookup_mapSortValues]
    by_cases hadds : keyAdds k prs = []
    · rw [alookup_addPairs_nil hadds, hadds]
      cases hm : alookup k m with
      | none => rfl
      | some l =>
        show some (sortHooks l) = some l
        rw [sortHooks_of_sorted (hsorted k l hm)]
    · rw [alookup_addPairs_cons hadds]
      cases hm : alookup k m with
      | none =>
        show dropFold (some (sortHooks ([] ++ keyAdds k prs))) _ = none
        rw [List.nil_append]
        exact dropFold_toNone (List.perm_insertionSort hookle _) (hnodup k) hadds
      | some L =>
        show dropFold (some (sortHooks (L ++ keyAdds k prs))) _ = some L
        refine dropFold_restore
          (List.sublist_insertionSort (hsorted k L hm) (List.sublist_append_left L _))
          (List.perm_insertionSort hookle _) ?_ (hnodup k) (hne k L hm)
        intro g hg n hn
        exact hfresh k L hm g hg _ (keyAdds_mem_pairs hn)
  have hkeysS : keysOf (mapSortValues (addPairs m prs)) = keysOf (addPairs m prs) :=
    keysOf_mapSortValues _
  obtain ⟨ks, hks, hksfresh⟩ := keysOf_addPairs m prs
  have hsub1 : List.Sublist (keysOf (dropPairs (mapSortValues (addPairs m prs)) prs))
      (keysOf m ++ ks) := by
    rw [← hks, ← hkeysS]
    exact keysOf_dropPairs_sublist _ prs
  have hnodupKS : (keysOf m ++ ks).Nodup := by
    rw [← hks]
    exact ndA
  refine alist_ext (nodupKeys_dropPairs ndS prs) ?_ hlook
  refine sublist_eq_of_mem_iff hnodupKS hsub1 (List.sublist_append_left _ _) (fun x => ?_)
  rw [mem_keysOf_iff, mem_keysOf_iff, hlook x]

/-- Round trip of the capability maps: register (no sorting!), unregister
with empty-entry deletion — the dict is restored exactly, whatever the
value order. -/
theorem capmap_roundtrip {m : List (String × List Hook)} {prs : List (String × Hook)}
    (nd : NodupKeys m) (hne : mapNonempty m)
    (hfresh : ∀ k l, alookup k m = some l → ∀ g ∈ l, ∀ pr ∈ prs, g.hid ≠ pr.2.hid)
    (hnodup : ∀ k, ((keyAdds k prs).map Hook.hid).Nodup) :
    dropPairs (addPairs m prs) prs = m := by
  have ndA : NodupKeys (addPairs m prs) := nodupKeys_addPairs nd prs
  have hlook : ∀ k, alookup k (dropPairs (addPairs m prs) prs) = alookup k m := by
    intro k
    rw [alookup_dropPairs ndA]
    by_cases hadds : keyAdds k prs = []
    · rw [alookup_addPairs_nil hadds, hadds]
      rfl
    · rw [alookup_addPairs_cons hadds]
      cases hm : alookup k m with
      | none =>
        show dropFold (some ([] ++ keyAdds k prs)) _ = none
        rw [List.nil_append]
        exact dropFold_toNone (List.Perm.refl _) (hnodup k) hadds
      | some L =>
        show dropFold (some (L ++ keyAdds k prs)) _ = some L
        refine dropFold_restore (List.sublist_append_left L _) (List.Perm.refl _)
          ?_ (hnodup k) (hne k L hm)
        intro g hg n hn
        exact hfresh k L hm g hg _ (keyAdds_mem_pairs hn)
  obtain ⟨ks, hks, hksfresh⟩ := keysOf_addPairs m prs
  have hsub1 : List.Sublist (keysOf (dropPairs (addPairs m prs) prs)) (keysOf m ++ ks) := by
    rw [← hks]
    exact keysOf_dropPairs_sublist _ prs
  have hnodupKS : (keysOf m ++ ks).Nodup := by
    rw [← hks]
    exact ndA
  refine alist_ext (nodupKeys_dropPairs ndA prs) ?_ hlook
  refine sublist_eq_of_mem_iff hnodupKS hsub1 (List.sublist_append_left _ _) (fun x => ?_)
  rw [mem_keysOf_iff, mem_keysOf_iff, hlook x]

/-- Round trip of the `defaultdict` indexes (`perm_hooks`, `hook_hooks`):
every lookup (with the defaultdict default `[]`) is restored, though
emptied keys stay behind. -/
theorem keepmap_lookup_roundtrip {m : List (String × List Hook)} {prs : List (String × Hook)}
    (hsorted : mapSorted m)
    (hfresh : ∀ k l, alookup k m = some l → ∀ g ∈ l, ∀ pr ∈ prs, g.hid ≠ pr.2.hid)
    (hnodup : ∀ k, ((keyAdds k prs).map Hook.hid).Nodup) (k : String) :
    (alookup k (keepPairs (mapSortValues (addPairs m prs)) prs)).getD []
      = (alookup k m).getD [] := by
  rw [alookup_keepPairs, alookup_mapSortValues]
  by_cases hadds : keyAdds k prs = []
  · rw [alookup_addPairs_nil hadds, hadds]
    cases hm : alookup k m with
    | none => rfl
    | some l =>
      show (some (sortHooks l)).getD [] = _
      rw [sortHooks_of_sorted (hsorted k l hm)]
  · rw [alookup_addPairs_cons hadds]
    have hbase : ((alookup k m).getD []).Pairwise hookle := by
      cases hm : alookup k m with
      | none => exact List.Pairwise.nil
      | some l =>
        exact hsorted k l hm
    have hfreshB : ∀ g ∈ (alookup k m).getD [], ∀ n ∈ keyAdds k prs, g.hid ≠ n.hid := by
      cases hm : alookup k m with
      | none => simp
      | some l =>
        intro g hg n hn
        exact hfresh k l hm g (by simpa using hg) _ (keyAdds_mem_pairs hn)
    show (keepFold (some (sortHooks ((alookup k m).getD [] ++ keyAdds k prs))) _).getD [] = _
    rw [keepFold_some]
    show (eraseAllById Hook.hid
      (List.insertionSort hookle ((alookup k m).getD [] ++ keyAdds k prs)) _) = _
    rw [eraseAllById_sort_restore Hook.hid hookle hbase hfreshB (hnodup k)]

/-- Round trip of the command map: first-registrant-wins registration then
identity-guarded unregistration restores the dict exactly. -/
theorem commands_roundtrip {m : List (String × Hook)} {prs : List (String × Hook)}
    (nd : NodupKeys m)
    (hfresh : ∀ a h, alookup a m = some h → ∀ pr ∈ prs, h.hid ≠ pr.2.hid) :
    unregCommands (regCommands m prs).1 prs = m := by
  have ndR : NodupKeys (regCommands m prs).1 := nodupKeys_regCommands nd prs
  have hlook : ∀ a, alookup a (unregCommands (regCommands m prs).1 prs) = alookup a m := by
    intro a
    rw [alookup_unregCommands ndR, alookup_regCommands]
    cases hm : alookup a m with
    | some h =>
      show cmdDropFold (some h) _ = some h
      have hmem : ∀ i ∈ (keyAdds a prs).map Hook.hid, h.hid ≠ i := by
        intro i hi
        rw [List.mem_map] at hi
        obtain ⟨n, hn, hh⟩ := hi
        exact hh ▸ hfresh a h hm _ (keyAdds_mem_pairs hn)
      clear hm
      revert hmem
      generalize (keyAdds a prs).map Hook.hid = ids
      induction ids with
      | nil =>
        intro _
        rfl
      | cons i ids ih =>
        intro hmem
        show cmdDropFold (if h.hid = i then none else some h) ids = some h
        rw [if_neg (hmem i (List.mem_cons_self i ids))]
        exact ih (fun j hj => hmem j (List.mem_cons_of_mem i hj))
    | none =>
      cases hadds : keyAdds a prs with
      | nil => rfl
      | cons h0 rest =>
        show cmdDropFold (some h0) (h0.hid :: rest.map Hook.hid) = none
        show cmdDropFold (if h0.hid = h0.hid then none else some h0) (rest.map Hook.hid) = none
        rw [if_pos rfl]
        exact cmdDropFold_none _
  obtain ⟨ks, hks, hksfresh⟩ := keysOf_regCommands m prs
  have hsub1 : List.Sublist (keysOf (unregCommands (regCommands m prs).1 prs))
      (keysOf m ++ ks) := by
    rw [← hks]
    exact keysOf_unregCommands_sublist _ prs
  have hnodupKS : (keysOf m ++ ks).Nodup := by
    rw [← hks]
    exact ndR
  refine alist_ext (nodupKeys_unregCommands ndR prs) ?_ hlook
  refine sublist_eq_of_mem_iff hnodupKS hsub1 (List.sublist_append_left _ _) (fun x => ?_)
  rw [mem_keysOf_iff, mem_keysOf_iff, hlook x]

end IndexRoundTrip

/-! ## Dispatch frame: `launch` never touches the registry indices -/

section DispatchFrameLemmas

theorem adel_aset_fresh {κ : Type _} {β : Type _} [DecidableEq κ] {k : κ} {m : List (κ × β)}
    (h : k ∉ keysOf m) (v : β) : adel k (aset k v m) = m := by
  induction m with
  | nil => simp [aset, adel]
  | cons kv rest ih =>
    rw [keysOf_cons, List.mem_cons] at h
    push_neg at h
    have hne : ¬ kv.1 = k := fun hh => h.1 hh.symm
    show adel k (if kv.1 = k then (kv.1, v) :: rest else kv :: aset k v rest) = kv :: rest
    rw [if_neg hne]
    show (if kv.1 = k then aset k v rest else kv :: adel k (aset k v rest)) = kv :: rest
    rw [if_neg hne, ih h.2]

theorem dispatchFrame_refl (st : PM) : DispatchFrame st st :=
  ⟨rfl, rfl, rfl, rfl, rfl, rfl, rfl, rfl, rfl, rfl, rfl, rfl, ensuredPost_refl _, rfl, rfl⟩

theorem dispatchFrame_trans {st st1 st2 : PM} (h1 : DispatchFrame st st1)
    (h2 : DispatchFrame st1 st2) : DispatchFrame st st2 := by
  obtain ⟨a1, b1, c1, d1, e1, f1, g1, h1', i1, j1, k1, l1, m1, n1, o1⟩ := h1
  obtain ⟨a2, b2, c2, d2, e2, f2, g2, h2', i2, j2, k2, l2, m2, n2, o2⟩ := h2
  exact ⟨a2.trans a1, b2.trans b1, c2.trans c1, d2.trans d1, e2.trans e1, f2.trans f1,
    g2.trans g1, h2'.trans h1', i2.trans i1, j2.trans j1, k2.trans k1, l2.trans l1,
    ensuredPost_trans m1 m2, n2.trans n1, o2.trans o1⟩

theorem dispatchFrame_ensurePost (st : PM) : DispatchFrame st (ensurePost st) :=
  ⟨rfl, rfl, rfl, rfl, rfl, rfl, rfl, rfl, rfl, rfl, rfl, rfl, Or.inr rfl, rfl, rfl⟩

theorem sieveChain_frame : ∀ (ss : List Hook) (st : PM) (ev : Nat) (tgt : Hook),
    DispatchFrame st (sieveChain st ss ev tgt).1 := by
  intro ss
  induction ss with
  | nil =>
    intro st ev tgt
    exact dispatchFrame_refl st
  | cons s ss ih =>
    intro st ev tgt
    show DispatchFrame st (match (sieveOne st s ev tgt).2.1 with
      | none => ((sieveOne st s ev tgt).1, none, (sieveOne st s ev tgt).2.2)
      | some ev1 =>
        ((sieveChain (sieveOne st s ev tgt).1 ss ev1 tgt).1,
         (sieveChain (sieveOne st s ev tgt).1 ss ev1 tgt).2.1,
         (sieveOne st s ev tgt).2.2 ++ (sieveChain (sieveOne st s ev tgt).1 ss ev1 tgt).2.2)).1
    cases (sieveOne st s ev tgt).2.1 with
    | none => exact dispatchFrame_ensurePost st
    | some ev1 => exact dispatchFrame_trans (dispatchFrame_ensurePost st) (ih _ ev1 tgt)

theorem executeHook_state (st : PM) (h : Hook) (ev : Nat) :
    (executeHook st h ev).1 = ensurePost st := rfl

theorem executeHook_ok (st : PM) (h : Hook) (ev : Nat) :
    (executeHook st h ev).2.1 = (internalLaunch h ev).1 := rfl

theorem launchRest_frame (st : PM) (h : Hook) (ev : Nat) (tr0 : List TEv)
    (hq : alookup (hookKey h) st.hook_waiting_queues = none) :
    ∃ out, launchRest st h ev tr0 = some out ∧ DispatchFrame st out.1
      ∧ out.2.1 = (internalLaunch h ev).1 := by
  unfold launchRest
  by_cases hs : h.single_thread
  · rw [if_pos hs, hq]
    have hnotin : hookKey h ∉ keysOf st.hook_waiting_queues := by
      rw [mem_keysOf_iff, hq]
      simp
    refine ⟨_, rfl, ?_, rfl⟩
    unfold serAcquire serRelease
    rw [hq]
    show DispatchFrame st
      { ensurePost { st with hook_waiting_queues := aset (hookKey h) none st.hook_waiting_queues }
        with hook_waiting_queues := _ }
    rw [executeHook_state]
    show DispatchFrame st _
    refine ⟨rfl, rfl, rfl, rfl, rfl, rfl, rfl, rfl, rfl, rfl, rfl, rfl, Or.inr rfl, rfl, ?_⟩
    show (match alookup (hookKey h) (aset (hookKey h) none st.hook_waiting_queues) with
      | none => (aset (hookKey h) none st.hook_waiting_queues, none)
      | some none => (adel (hookKey h) (aset (hookKey h) none st.hook_waiting_queues), none)
      | some (some []) => (adel (hookKey h) (aset (hookKey h) none st.hook_waiting_queues), none)
      | some (some (t :: ts)) =>
        (aset (hookKey h) (some ts) (aset (hookKey h) none st.hook_waiting_queues), some t)).1
      = st.hook_waiting_queues
    rw [alookup_aset_self]
    exact adel_aset_fresh hnotin none
  · rw [if_neg hs]
    exact ⟨_, rfl, dispatchFrame_ensurePost st, rfl⟩

theorem launch_skip_frame (st : PM) (h : Hook) (ev : Nat)
    (htype : h.type = "on_start" ∨ h.type = "on_stop" ∨ h.type = "periodic")
    (hq : alookup (hookKey h) st.hook_waiting_queues = none) :
    ∃ out, launch st h ev = some out ∧ DispatchFrame st out.1
      ∧ out.2.1 = (internalLaunch h ev).1 := by
  unfold launch
  rw [if_pos htype]
  exact launchRest_frame st h ev [] hq

theorem dispatchFrame_queues {st st2 : PM} (h : DispatchFrame st st2) :
    st2.hook_waiting_queues = st.hook_waiting_queues :=
  h.2.2.2.2.2.2.2.2.2.2.2.2.2.2

theorem launch_frame (st : PM) (h : Hook) (ev : Nat)
    (hq : st.hook_waiting_queues = []) :
    ∃ out, launch st h ev = some out ∧ DispatchFrame st out.1 := by
  unfold launch
  by_cases htype : h.type = "on_start" ∨ h.type = "on_stop" ∨ h.type = "periodic"
  · rw [if_pos htype]
    obtain ⟨out, h1, h2, _⟩ := launchRest_frame st h ev [] (by rw [hq]; rfl)
    exact ⟨out, h1, h2⟩
  · rw [if_neg htype]
    have hframe := sieveChain_frame st.sieves st ev h
    show ∃ out, (match (sieveChain st st.sieves ev h).2.1 with
      | none => some ((sieveChain st st.sieves ev h).1, false, (sieveChain st st.sieves ev h).2.2)
      | some ev1 => launchRest (sieveChain st st.sieves ev h).1 h ev1
          (sieveChain st st.sieves ev h).2.2) = some out ∧ DispatchFrame st out.1
    cases hres : (sieveChain st st.sieves ev h).2.1 with
    | none => exact ⟨_, rfl, hframe⟩
    | some ev1 =>
      have hq1 : alookup (hookKey h) (sieveChain st st.sieves ev h).1.hook_waiting_queues
          = none := by
        rw [dispatchFrame_queues hframe, hq]
        rfl
      obtain ⟨out, h1, h2, _⟩ := launchRest_frame _ h ev1 _ hq1
      exact ⟨out, h1, dispatchFrame_trans hframe h2⟩

theorem runOnStart_cons (st : PM) (h : Hook) (hs : List Hook) (tr : List TEv) :
    runOnStart st (h :: hs) tr =
      match launch st h 0 with
      | none => none
      | some r =>
        if r.2.1 then runOnStart r.1 hs (tr ++ r.2.2) else some (r.1, false, tr ++ r.2.2) := rfl

theorem runOnStop_cons (st : PM) (h : Hook) (hs : List Hook) :
    runOnStop st (h :: hs) =
      match launch st h 0 with
      | none => none
      | some r =>
        match runOnStop r.1 hs with
        | none => none
        | some r2 => some (r2.1, r.2.2 ++ r2.2) := rfl

theorem runOnStart_frame :
    ∀ (hs : List Hook) (st : PM) (tr : List TEv),
      (∀ h ∈ hs, h.type = "on_start") → st.hook_waiting_queues = [] →
      ∃ r, runOnStart st hs tr = some r ∧ DispatchFrame st r.1
        ∧ (r.2.1 = true ↔ ∀ h ∈ hs, (internalLaunch h 0).1 = true) := by
  intro hs
  induction hs with
  | nil =>
    intro st tr _ _
    exact ⟨(st, true, tr), rfl, dispatchFrame_refl st, by simp⟩
  | cons h hs ih =>
    intro st tr htypes hq
    obtain ⟨out, hout, hframe, hok⟩ :=
      launch_skip_frame st h 0 (Or.inl (htypes h (List.mem_cons_self h hs)))
        (by rw [hq]; rfl)
    have hq2 : out.1.hook_waiting_queues = [] := by
      rw [dispatchFrame_queues hframe, hq]
    rw [runOnStart_cons, hout]
    by_cases hsucc : out.2.1
    · show ∃ r, (if out.2.1 = true then runOnStart out.1 hs (tr ++ out.2.2)
          else some (out.1, false, tr ++ out.2.2)) = some r ∧ _
      rw [if_pos hsucc]
      obtain ⟨r, hr, hrframe, hriff⟩ :=
        ih out.1 (tr ++ out.2.2) (fun g hg => htypes g (List.mem_cons_of_mem h hg)) hq2
      refine ⟨r, hr, dispatchFrame_trans hframe hrframe, ?_⟩
      rw [hriff]
      constructor
      · intro hall g hg
        rw [List.mem_cons] at hg
        cases hg with
        | inl hg => exact hg ▸ (hok ▸ hsucc)
        | inr hg => exact hall g hg
      · intro hall g hg
        exact hall g (List.mem_cons_of_mem h hg)
    · show ∃ r, (if out.2.1 = true then runOnStart out.1 hs (tr ++ out.2.2)
          else some (out.1, false, tr ++ out.2.2)) = some r ∧ _
      rw [if_neg hsucc]
      refine ⟨(out.1, false, tr ++ out.2.2), rfl, hframe, ?_⟩
      simp only [Bool.false_eq_true, false_iff]
      intro hall
      exact hsucc (hok ▸ hall h (List.mem_cons_self h hs))

theorem runOnStop_frame :
    ∀ (hs : List Hook) (st : PM),
      (∀ h ∈ hs, h.type = "on_stop") → st.hook_waiting_queues = [] →
      ∃ r, runOnStop st hs = some r ∧ DispatchFrame st r.1 := by
  intro hs
  induction hs with
  | nil =>
    intro st _ _
    exact ⟨(st, []), rfl, dispatchFrame_refl st⟩
  | cons h hs ih =>
    intro st htypes hq
    obtain ⟨out, hout, hframe, _⟩ :=
      launch_skip_frame st h 0 (Or.inr (Or.inl (htypes h (List.mem_cons_self h hs))))
        (by rw [hq]; rfl)
    have hq2 : out.1.hook_waiting_queues = [] := by
      rw [dispatchFrame_queues hframe, hq]
    obtain ⟨r, hr, hrframe⟩ :=
      ih out.1 (fun g hg => htypes g (List.mem_cons_of_mem h hg)) hq2
    rw [runOnStop_cons, hout]
    show ∃ r2, (match runOnStop out.1 hs with
      | none => none
      | some r3 => some (r3.1, out.2.2 ++ r3.2)) = some r2 ∧ _
    rw [hr]
    exact ⟨_, rfl, dispatchFrame_trans hframe hrframe⟩

end DispatchFrameLemmas

/-! ## Glue: freshness and nodup facts for a loaded plugin -/

section Glue

variable {κ : Type _} [DecidableEq κ]

theorem hidsOfMap_mem {m : List (κ × List Hook)} {k : κ} {l : List Hook} {g : Hook}
    (hm : alookup k m = some l) (hg : g ∈ l) : g.hid ∈ hidsOfMap m := by
  unfold hidsOfMap
  rw [List.mem_flatten]
  exact ⟨l.map Hook.hid, List.mem_map_of_mem _ (alookup_entry_mem hm),
    List.mem_map_of_mem _ hg⟩

theorem keyPairs_mem {keyf : Hook → List κ} {hs : List Hook} {pr : κ × Hook}
    (h : pr ∈ keyPairs keyf hs) : pr.2 ∈ hs ∧ pr.1 ∈ keyf pr.2 := by
  unfold keyPairs at h
  rw [List.mem_flatten] at h
  obtain ⟨l, hl, hpr⟩ := h
  rw [List.mem_map] at hl
  obtain ⟨g, hg, hgl⟩ := hl
  subst hgl
  rw [List.mem_map] at hpr
  obtain ⟨k2, hk2, hk2eq⟩ := hpr
  cases hk2eq
  exact ⟨hg, hk2⟩

theorem regexPairs_mem {hs : List Hook} {pr : Nat × Hook}
    (h : pr ∈ regexPairs hs) : pr.2 ∈ hs ∧ pr.1 ∈ pr.2.regexes := by
  unfold regexPairs at h
  rw [List.mem_flatten] at h
  obtain ⟨l, hl, hpr⟩ := h
  rw [List.mem_map] at hl
  obtain ⟨g, hg, hgl⟩ := hl
  subst hgl
  rw [List.mem_map] at hpr
  obtain ⟨rx, hrx, hrxeq⟩ := hpr
  cases hrxeq
  exact ⟨hg, hrx⟩

theorem filterMap_if_eq_nil {k : κ} {h : Hook} {ks : List κ} (hk : k ∉ ks) :
    ks.filterMap (fun k2 => if k2 = k then some h else none) = [] := by
  induction ks with
  | nil => rfl
  | cons a ks ih =>
    rw [List.mem_cons] at hk
    push_neg at hk
    rw [List.filterMap_cons, if_neg (fun hh => hk.1 hh.symm)]
    exact ih hk.2

theorem filterMap_if_singleton {k : κ} {h : Hook} {ks : List κ} (hnd : ks.Nodup) :
    ks.filterMap (fun k2 => if k2 = k then some h else none) =
      if k ∈ ks then [h] else [] := by
  induction ks with
  | nil => rfl
  | cons a ks ih =>
    rw [List.nodup_cons] at hnd
    rw [List.filterMap_cons]
    by_cases ha : a = k
    · subst ha
      rw [if_pos rfl, if_pos (List.mem_cons_self a ks), filterMap_if_eq_nil hnd.1]
    · rw [if_neg ha, ih hnd.2]
      have : (k ∈ a :: ks) ↔ (k ∈ ks) := by
        rw [List.mem_cons]
        exact or_iff_right (fun hh => ha hh.symm)
      by_cases hm : k ∈ ks
      · rw [if_pos hm, if_pos (this.mpr hm)]
      · rw [if_neg hm, if_neg (fun hh => hm (this.mp hh))]

theorem keyAdds_keyPairs {keyf : Hook → List κ} {hs : List Hook} (k : κ)
    (hnd : ∀ h ∈ hs, (keyf h).Nodup) :
    keyAdds k (keyPairs keyf hs) = hs.filter (fun h => decide (k ∈ keyf h)) := by
  induction hs with
  | nil => rfl
  | cons h hs ih =>
    have hsplit : keyPairs keyf (h :: hs) =
        (keyf h).map (fun k2 => (k2, h)) ++ keyPairs keyf hs := by
      unfold keyPairs
      rw [List.map_cons, List.flatten_cons]
    rw [hsplit]
    unfold keyAdds
    rw [List.filterMap_append]
    show ((keyf h).map (fun k2 => (k2, h))).filterMap _ ++ keyAdds k (keyPairs keyf hs) = _
    rw [List.filterMap_map, ih (fun g hg => hnd g (List.mem_cons_of_mem h hg)),
      List.filter_cons]
    have hfm : ((keyf h).filterMap
        ((fun pr : κ × Hook => if pr.1 = k then some pr.2 else none) ∘ fun k2 => (k2, h)))
        = (keyf h).filterMap (fun k2 => if k2 = k then some h else none) := rfl
    rw [hfm, filterMap_if_singleton (hnd h (List.mem_cons_self h hs))]
    by_cases hm : k ∈ keyf h
    · rw [if_pos hm, if_pos (by simpa using hm)]
      rfl
    · rw [if_neg hm, if_neg (by simpa using hm)]
      rfl

theorem keyAdds_hid_nodup {keyf : Hook → List κ} {hs : List Hook} (k : κ)
    (hnd : ∀ h ∈ hs, (keyf h).Nodup) (hh : (hs.map Hook.hid).Nodup) :
    ((keyAdds k (keyPairs keyf hs)).map Hook.hid).Nodup := by
  rw [keyAdds_keyPairs k hnd]
  exact hh.sublist ((List.filter_sublist hs).map Hook.hid)

theorem regexPairs_rxId_nodup {hs : List Hook}
    (hnd : ∀ h ∈ hs, h.regexes.Nodup) (hh : (hs.map Hook.hid).Nodup) :
    ((regexPairs hs).map rxId).Nodup := by
  induction hs with
  | nil => exact List.nodup_nil
  | cons h hs ih =>
    have hsplit : regexPairs (h :: hs) =
        h.regexes.map (fun rx => (rx, h)) ++ regexPairs hs := by
      unfold regexPairs
      rw [List.map_cons, List.flatten_cons]
    rw [hsplit, List.map_append, List.nodup_append]
    rw [List.map_cons, List.nodup_cons] at hh
    refine ⟨?_, ih (fun g hg => hnd g (List.mem_cons_of_mem h hg)) hh.2, ?_⟩
    · rw [List.map_map]
      have : (rxId ∘ fun rx => (rx, h)) = fun rx => (rx, h.hid) := rfl
      rw [this]
      exact (hnd h (List.mem_cons_self h hs)).map
        (fun a b hab => congrArg Prod.fst hab)
    · intro x hx hy
      rw [List.map_map, List.mem_map] at hx
      obtain ⟨rx, _, hrx⟩ := hx
      rw [List.mem_map] at hy
      obtain ⟨pr, hpr, hpry⟩ := hy
      apply hh.1
      have h2 : pr.2 ∈ hs := (regexPairs_mem hpr).1
      have hsnd : h.hid = pr.2.hid :=
        (congrArg Prod.snd hrx).trans (congrArg Prod.snd hpry).symm
      rw [hsnd]
      exact List.mem_map_of_mem _ h2

theorem mem_pluginHooks_iff (p : Plugin) (n : Hook) :
    n ∈ pluginHooks p ↔
      n ∈ p.hooks_on_start ∨ n ∈ p.hooks_on_stop ∨ n ∈ p.hooks_periodic
        ∨ n ∈ p.hooks_on_cap_available ∨ n ∈ p.hooks_on_cap_ack ∨ n ∈ p.hooks_command
        ∨ n ∈ p.hooks_irc_raw ∨ n ∈ p.hooks_event ∨ n ∈ p.hooks_regex
        ∨ n ∈ p.hooks_sieve ∨ n ∈ p.hooks_on_connect ∨ n ∈ p.hooks_irc_out
        ∨ n ∈ p.hooks_post_hook ∨ n ∈ p.hooks_perm_check := by
  unfold pluginHooks
  simp only [List.mem_append]
  tauto

theorem mem_pluginHids (p : Plugin) {n : Hook} (h : n ∈ pluginHooks p) :
    n.hid ∈ pluginHids p := List.mem_map_of_mem Hook.hid h

/-- A bundle of the per-list nodup facts that follow from global hook-object
distinctness. -/
theorem plug_hid_nodups (p : Plugin) (h : (pluginHids p).Nodup) :
    (p.hooks_on_start.map Hook.hid).Nodup ∧ (p.hooks_on_stop.map Hook.hid).Nodup
      ∧ (p.hooks_periodic.map Hook.hid).Nodup
      ∧ (p.hooks_on_cap_available.map Hook.hid).Nodup
      ∧ (p.hooks_on_cap_ack.map Hook.hid).Nodup ∧ (p.hooks_command.map Hook.hid).Nodup
      ∧ (p.hooks_irc_raw.map Hook.hid).Nodup ∧ (p.hooks_event.map Hook.hid).Nodup
      ∧ (p.hooks_regex.map Hook.hid).Nodup ∧ (p.hooks_sieve.map Hook.hid).Nodup
      ∧ (p.hooks_on_connect.map Hook.hid).Nodup ∧ (p.hooks_irc_out.map Hook.hid).Nodup
      ∧ (p.hooks_post_hook.map Hook.hid).Nodup
      ∧ (p.hooks_perm_check.map Hook.hid).Nodup := by
  unfold pluginHids pluginHooks at h
  simp only [List.map_append, List.nodup_append] at h
  tauto

end Glue

/-! ## Membership in the manager's hook-identity pool -/

section PmHids

theorem pmHids_commands {st : PM} {a : String} {h : Hook}
    (hm : alookup a st.commands = some h) : h.hid ∈ pmHids st := by
  have hmem : h.hid ∈ st.commands.map (fun kv => kv.2.hid) :=
    List.mem_map_of_mem _ (alookup_entry_mem hm)
  unfold pmHids
  simp only [List.mem_append]
  tauto

theorem pmHids_raw {st : PM} {k : String} {l : List Hook} {g : Hook}
    (hm : alookup k st.raw_triggers = some l) (hg : g ∈ l) : g.hid ∈ pmHids st := by
  have hmem := hidsOfMap_mem hm hg
  unfold pmHids
  simp only [List.mem_append]
  tauto

theorem pmHids_catch {st : PM} {g : Hook} (hg : g ∈ st.catch_all_triggers) :
    g.hid ∈ pmHids st := by
  have hmem : g.hid ∈ st.catch_all_triggers.map Hook.hid := List.mem_map_of_mem _ hg
  unfold pmHids
  simp only [List.mem_append]
  tauto

theorem pmHids_event {st : PM} {k : String} {l : List Hook} {g : Hook}
    (hm : alookup k st.event_type_hooks = some l) (hg : g ∈ l) : g.hid ∈ pmHids st := by
  have hmem := hidsOfMap_mem hm hg
  unfold pmHids
  simp only [List.mem_append]
  tauto

theorem pmHids_regex {st : PM} {pr : Nat × Hook} (hg : pr ∈ st.regex_hooks) :
    pr.2.hid ∈ pmHids st := by
  have hmem : pr.2.hid ∈ st.regex_hooks.map (fun q => q.2.hid) :=
    List.mem_map_of_mem _ hg
  unfold pmHids
  simp only [List.mem_append]
  tauto

theorem pmHids_sieves {st : PM} {g : Hook} (hg : g ∈ st.sieves) : g.hid ∈ pmHids st := by
  have hmem : g.hid ∈ st.sieves.map Hook.hid := List.mem_map_of_mem _ hg
  unfold pmHids
  simp only [List.mem_append]
  tauto

theorem pmHids_capA {st : PM} {k : String} {l : List Hook} {g : Hook}
    (hm : alookup k st.cap_hooks_available = some l) (hg : g ∈ l) : g.hid ∈ pmHids st := by
  have hmem := hidsOfMap_mem hm hg
  unfold pmHids
  simp only [List.mem_append]
  tauto

theorem pmHids_capK {st : PM} {k : String} {l : List Hook} {g : Hook}
    (hm : alookup k st.cap_hooks_ack = some l) (hg : g ∈ l) : g.hid ∈ pmHids st := by
  have hmem := hidsOfMap_mem hm hg
  unfold pmHids
  simp only [List.mem_append]
  tauto

theorem pmHids_connect {st : PM} {g : Hook} (hg : g ∈ st.connect_hooks) :
    g.hid ∈ pmHids st := by
  have hmem : g.hid ∈ st.connect_hooks.map Hook.hid := List.mem_map_of_mem _ hg
  unfold pmHids
  simp only [List.mem_append]
  tauto

theorem pmHids_out {st : PM} {g : Hook} (hg : g ∈ st.out_sieves) : g.hid ∈ pmHids st := by
  have hmem : g.hid ∈ st.out_sieves.map Hook.hid := List.mem_map_of_mem _ hg
  unfold pmHids
  simp only [List.mem_append]
  tauto

theorem pmHids_hook {st : PM} {k : String} {l : List Hook} {g : Hook}
    (hm : alookup k st.hook_hooks = some l) (hg : g ∈ l) : g.hid ∈ pmHids st := by
  have hmem := hidsOfMap_mem hm hg
  unfold pmHids
  simp only [List.mem_append]
  tauto

theorem pmHids_perm {st : PM} {k : String} {l : List Hook} {g : Hook}
    (hm : alookup k st.perm_hooks = some l) (hg : g ∈ l) : g.hid ∈ pmHids st := by
  have hmem := hidsOfMap_mem hm hg
  unfold pmHids
  simp only [List.mem_append]
  tauto

end PmHids

/-! ## DispatchFrame accessors -/

section FrameAccess

variable {st st2 : PM}

theorem dispatchFrame_plugins (h : DispatchFrame st st2) : st2.plugins = st.plugins := h.1

theorem dispatchFrame_name_map (h : DispatchFrame st st2) :
    st2.plugin_name_map = st.plugin_name_map := h.2.1

theorem dispatchFrame_commands (h : DispatchFrame st st2) : st2.commands = st.commands :=
  h.2.2.1

theorem dispatchFrame_raw (h : DispatchFrame st st2) : st2.raw_triggers = st.raw_triggers :=
  h.2.2.2.1

theorem dispatchFrame_catch (h : DispatchFrame st st2) :
    st2.catch_all_triggers = st.catch_all_triggers := h.2.2.2.2.1

theorem dispatchFrame_event (h : DispatchFrame st st2) :
    st2.event_type_hooks = st.event_type_hooks := h.2.2.2.2.2.1

theorem dispatchFrame_regex (h : DispatchFrame st st2) : st2.regex_hooks = st.regex_hooks :=
  h.2.2.2.2.2.2.1

theorem dispatchFrame_sieves (h : DispatchFrame st st2) : st2.sieves = st.sieves :=
  h.2.2.2.2.2.2.2.1

theorem dispatchFrame_capA (h : DispatchFrame st st2) :
    st2.cap_hooks_available = st.cap_hooks_available := h.2.2.2.2.2.2.2.2.1

theorem dispatchFrame_capK (h : DispatchFrame st st2) :
    st2.cap_hooks_ack = st.cap_hooks_ack := h.2.2.2.2.2.2.2.2.2.1

theorem dispatchFrame_connect (h : DispatchFrame st st2) :
    st2.connect_hooks = st.connect_hooks := h.2.2.2.2.2.2.2.2.2.2.1

theorem dispatchFrame_out (h : DispatchFrame st st2) : st2.out_sieves = st.out_sieves :=
  h.2.2.2.2.2.2.2.2.2.2.2.1

theorem dispatchFrame_hook (h : DispatchFrame st st2) :
    EnsuredPost st.hook_hooks st2.hook_hooks := h.2.2.2.2.2.2.2.2.2.2.2.2.1

theorem dispatchFrame_perm (h : DispatchFrame st st2) : st2.perm_hooks = st.perm_hooks :=
  h.2.2.2.2.2.2.2.2.2.2.2.2.2.1

theorem ensuredPost_getD {m m2 : List (String × List Hook)} (h : EnsuredPost m m2)
    (k : String) : (alookup k m2).getD [] = (alookup k m).getD [] := by
  cases h with
  | inl h => rw [h]
  | inr h => rw [h, getD_alookup_ddEnsure]

theorem ensuredPost_mapSorted {m m2 : List (String × List Hook)} (h : EnsuredPost m m2)
    (hs : mapSorted m) : mapSorted m2 := by
  cases h with
  | inl h => exact h ▸ hs
  | inr h => exact h ▸ mapSorted_ddEnsure hs _

theorem alookup_ddEnsure_of_mem {m : List (String × List Hook)} {k k1 : String}
    {l : List Hook} {g : Hook} (hm : alookup k1 (ddEnsure m k) = some l) (hg : g ∈ l) :
    alookup k1 m = some l := by
  unfold ddEnsure at hm
  cases hmk : alookup k m with
  | some l0 =>
    rw [hmk] at hm
    exact hm
  | none =>
    rw [hmk] at hm
    by_cases hk : k1 = k
    · subst hk
      rw [alookup_aset_self] at hm
      cases hm
      cases hg
    · rw [alookup_aset_ne hk] at hm
      exact hm

theorem ensuredPost_entry_mem {m m2 : List (String × List Hook)} (h : EnsuredPost m m2)
    {k : String} {l : List Hook} {g : Hook} (hm : alookup k m2 = some l) (hg : g ∈ l) :
    alookup k m = some l := by
  cases h with
  | inl h => exact h ▸ hm
  | inr h => exact alookup_ddEnsure_of_mem (h ▸ hm) hg

end FrameAccess

/-! ## Shape of `load_plugin` and `unload_plugin` runs -/

section LoadShape

theorem flatten_map_singleton {α β : Type _} (f : α → β) (hs : List α) :
    (hs.map (fun h => [f h])).flatten = hs.map f := by
  induction hs with
  | nil => rfl
  | cons h hs ih => simp [ih]

theorem postPairs_eq (hs : List Hook) :
    hs.map (fun h => (("post" : String), h)) = keyPairs (fun _ => ["post"]) hs := by
  induction hs with
  | nil => rfl
  | cons h hs ih =>
    show ("post", h) :: hs.map (fun h => (("post" : String), h))
      = ("post", h) :: keyPairs (fun _ => ["post"]) hs
    rw [ih]

theorem loadPlugin_success (st : PM) (p : Plugin)
    (hq : st.hook_waiting_queues = [])
    (hstart : ∀ h ∈ p.hooks_on_start, h.type = "on_start")
    (hfp : alookup p.file_path st.plugins = none)
    (hsucc : ∀ h ∈ p.hooks_on_start, (internalLaunch h 0).1 = true) :
    ∃ (E : PM) (tr0 : List TEv), DispatchFrame st E ∧
      loadPlugin st p = some (LoadOut.mk (loadedState E p) ()
        (
        tr0 ++ (registerPhase
          { E with
              plugins := aset p.file_path (storedPlugin p) E.plugins
              plugin_name_map := aset p.title p.file_path E.plugin_name_map } p).2)) := by
  obtain ⟨r, hr, hframe, hiff⟩ :=
    runOnStart_frame p.hooks_on_start st [TEv.tablesCreated p.title] hstart hq
  refine ⟨r.1, r.2.2, hframe, ?_⟩
  unfold loadPlugin
  rw [hfp]
  show (match runOnStart st p.hooks_on_start ([] ++ [TEv.tablesCreated p.title]) with
    | none => none
    | some r =>
      if r.2.1 then
        some (LoadOut.mk (loadedState r.1 p) ()
          (r.2.2 ++ (registerPhase
            { r.1 with
                plugins := aset p.file_path (storedPlugin p) r.1.plugins
                plugin_name_map := aset p.title p.file_path r.1.plugin_name_map } p).2))
      else some (LoadOut.mk r.1 ()
        (r.2.2 ++ [TEv.warnOnStartFailed p.title, TEv.tablesDropped p.title])))
    = _
  rw [List.nil_append, hr]
  dsimp only
  rw [if_pos (hiff.mpr hsucc)]

theorem loadPlugin_failure (st : PM) (p : Plugin)
    (hq : st.hook_waiting_queues = [])
    (hstart : ∀ h ∈ p.hooks_on_start, h.type = "on_start")
    (hfp : alookup p.file_path st.plugins = none)
    (hfail : ¬ ∀ h ∈ p.hooks_on_start, (internalLaunch h 0).1 = true) :
    ∃ (E : PM) (tr0 : List TEv), DispatchFrame st E ∧
      loadPlugin st p = some (LoadOut.mk E ()
        (tr0 ++ [TEv.warnOnStartFailed p.title, TEv.tablesDropped p.title])) := by
  obtain ⟨r, hr, hframe, hiff⟩ :=
    runOnStart_frame p.hooks_on_start st [TEv.tablesCreated p.title] hstart hq
  refine ⟨r.1, r.2.2, hframe, ?_⟩
  unfold loadPlugin
  rw [hfp]
  show (match runOnStart st p.hooks_on_start ([] ++ [TEv.tablesCreated p.title]) with
    | none => none
    | some r =>
      if r.2.1 then
        some (LoadOut.mk (loadedState r.1 p) ()
          (r.2.2 ++ (registerPhase
            { r.1 with
                plugins := aset p.file_path (storedPlugin p) r.1.plugins
                plugin_name_map := aset p.title p.file_path r.1.plugin_name_map } p).2))
      else some (LoadOut.mk r.1 ()
        (r.2.2 ++ [TEv.warnOnStartFailed p.title, TEv.tablesDropped p.title])))
    = _
  rw [List.nil_append, hr]
  dsimp only
  rw [if_neg (fun hh => hfail (hiff.mp hh))]

theorem unloadPlugin_state (st : PM) (fp : String) (p : Plugin)
    (hp : alookup fp st.plugins = some p)
    (hq : st.hook_waiting_queues = [])
    (hstop : ∀ h ∈ p.hooks_on_stop, h.type = "on_stop") :
    ∃ (E2 : PM) (tr : List TEv), DispatchFrame (unregPhase st p) E2 ∧
      unloadPlugin st fp =
        some ({ E2 with plugins := adel p.file_path E2.plugins }, true, tr) := by
  have hq2 : (unregPhase st p).hook_waiting_queues = [] := hq
  obtain ⟨r, hr, hframe⟩ := runOnStop_frame p.hooks_on_stop (unregPhase st p) hstop hq2
  refine ⟨r.1, r.2 ++ [TEv.tablesDropped p.title], hframe, ?_⟩
  unfold unloadPlugin
  rw [hp]
  show (match runOnStop (unregPhase st p) p.hooks_on_stop with
    | none => none
    | some r =>
      some ({ r.1 with plugins := adel p.file_path r.1.plugins }, true,
        r.2 ++ [TEv.tablesDropped p.title])) = _
  rw [hr]

end LoadShape

/-! ## Claim C1 -/

/-- C1 (amended): for a well-formed registry state and a fresh well-formed
module, `load(M)` followed immediately by `unload(M.identity)` restores the
command-alias map, raw-trigger map, catch-all list, event-category map,
regex list, capability-available map, capability-ack map, sieve list,
connect-hook list and outbound-filter list to exactly their previous
states; the post-notify table and the permission-check map are restored up
to lookups (every key's hook list, with the defaultdict default `[]`, is
as before), but may retain keys mapping to empty lists.  The original
claim's "every derived index in exactly the state it was in" fails for the
latter two maps — see the counterexample. -/
theorem load_unload_roundtrip_amended (st : PM) (p : Plugin)
    (wf : PMWF st) (pw : PlugWF p) (fr : FreshFor st p) :
    ∃ out res,
      loadPlugin st p = some out ∧ unloadPlugin out.st p.file_path = some res ∧
      res.1.commands = st.commands ∧
      res.1.raw_triggers = st.raw_triggers ∧
      res.1.catch_all_triggers = st.catch_all_triggers ∧
      res.1.event_type_hooks = st.event_type_hooks ∧
      res.1.regex_hooks = st.regex_hooks ∧
      res.1.sieves = st.sieves ∧
      res.1.cap_hooks_available = st.cap_hooks_available ∧
      res.1.cap_hooks_ack = st.cap_hooks_ack ∧
      res.1.connect_hooks = st.connect_hooks ∧
      res.1.out_sieves = st.out_sieves ∧
      (∀ k, (alookup k res.1.hook_hooks).getD [] = (alookup k st.hook_hooks).getD []) ∧
      (∀ k, (alookup k res.1.perm_hooks).getD [] = (alookup k st.perm_hooks).getD []) := by
  obtain ⟨nd1, nd2, nd3, nd4, nd5, nd6, nd7, nd8, nd9, nd10, nd11, nd12, nd13, nd14⟩ :=
    plug_hid_nodups p pw.nodup_hids
  have freshHid : ∀ n : Hook, n ∈ pluginHooks p → n.hid ∉ pmHids st := by
    intro n hn
    exact fr.1 n.hid (mem_pluginHids p hn)
  by_cases hsucc : ∀ h ∈ p.hooks_on_start, (internalLaunch h 0).1 = true
  · obtain ⟨E, tr0, hframe, hload⟩ :=
      loadPlugin_success st p wf.queues_empty pw.start_types fr.2.1 hsucc
    have hlookS : alookup p.file_path (loadedState E p).plugins = some (storedPlugin p) := by
      show alookup p.file_path (aset p.file_path (storedPlugin p) E.plugins) = _
      exact alookup_aset_self _ _ _
    have hqS : (loadedState E p).hook_waiting_queues = [] := by
      show E.hook_waiting_queues = []
      rw [dispatchFrame_queues hframe, wf.queues_empty]
    obtain ⟨E2, tr2, hframe2, hunload⟩ :=
      unloadPlugin_state (loadedState E p) p.file_path (storedPlugin p) hlookS hqS
        pw.stop_types
    refine ⟨_, _, hload, hunload, ?_, ?_, ?_, ?_, ?_, ?_, ?_, ?_, ?_, ?_, ?_, ?_⟩
    · show E2.commands = st.commands
      rw [dispatchFrame_commands hframe2]
      show unregCommands (regCommands E.commands (cmdPairs p)).1 (cmdPairs p) = st.commands
      rw [dispatchFrame_commands hframe]
      refine commands_roundtrip wf.ndk_commands ?_
      intro a h hm pr hpr heq
      have h1 : pr.2 ∈ p.hooks_command := (keyPairs_mem hpr).1
      exact freshHid pr.2 ((mem_pluginHooks_iff p pr.2).mpr (by tauto))
        (heq ▸ pmHids_commands hm)
    · show E2.raw_triggers = st.raw_triggers
      rw [dispatchFrame_raw hframe2]
      show dropPairs (mapSortValues (addPairs E.raw_triggers (rawPairs p.hooks_irc_raw)))
        (rawPairs p.hooks_irc_raw) = st.raw_triggers
      rw [dispatchFrame_raw hframe]
      refine dropmap_roundtrip wf.ndk_raw wf.sorted_raw wf.ne_raw ?_ ?_
      · intro k l hm g hg pr hpr heq
        have h1 : pr.2 ∈ p.hooks_irc_raw := List.mem_of_mem_filter (keyPairs_mem hpr).1
        exact freshHid pr.2 ((mem_pluginHooks_iff p pr.2).mpr (by tauto))
          (heq ▸ pmHids_raw hm hg)
      · intro k
        exact keyAdds_hid_nodup k
          (fun h hh => pw.nodup_triggers h (List.mem_of_mem_filter hh))
          (nd7.sublist ((List.filter_sublist _).map Hook.hid))
    · show E2.catch_all_triggers = st.catch_all_triggers
      rw [dispatchFrame_catch hframe2]
      show eraseHooks (sortHooks (E.catch_all_triggers
          ++ p.hooks_irc_raw.filter (fun h => h.catch_all)))
        (p.hooks_irc_raw.filter (fun h => h.catch_all)) = st.catch_all_triggers
      rw [dispatchFrame_catch hframe]
      refine list_roundtrip wf.sorted_catch ?_
        (nd7.sublist ((List.filter_sublist _).map Hook.hid))
      intro g hg n hn heq
      have h1 : n ∈ p.hooks_irc_raw := List.mem_of_mem_filter hn
      exact freshHid n ((mem_pluginHooks_iff p n).mpr (by tauto)) (heq ▸ pmHids_catch hg)
    · show E2.event_type_hooks = st.event_type_hooks
      rw [dispatchFrame_event hframe2]
      show dropPairs (mapSortValues (addPairs E.event_type_hooks (etypePairs p.hooks_event)))
        (etypePairs p.hooks_event) = st.event_type_hooks
      rw [dispatchFrame_event hframe]
      refine dropmap_roundtrip wf.ndk_event wf.sorted_event wf.ne_event ?_ ?_
      · intro k l hm g hg pr hpr heq
        have h1 : pr.2 ∈ p.hooks_event := (keyPairs_mem hpr).1
        exact freshHid pr.2 ((mem_pluginHooks_iff p pr.2).mpr (by tauto))
          (heq ▸ pmHids_event hm hg)
      · intro k
        exact keyAdds_hid_nodup k pw.nodup_etypes nd8
    · show E2.regex_hooks = st.regex_hooks
      rw [dispatchFrame_regex hframe2]
      show eraseRegexes (sortRegexes (E.regex_hooks ++ regexPairs p.hooks_regex))
        (regexPairs p.hooks_regex) = st.regex_hooks
      rw [dispatchFrame_regex hframe]
      refine regex_roundtrip wf.sorted_regex ?_
        (regexPairs_rxId_nodup pw.nodup_regexes nd9)
      intro g hg n hn heq
      have h1 : n.2 ∈ p.hooks_regex := (regexPairs_mem hn).1
      have h2 : g.2.hid = n.2.hid := congrArg Prod.snd heq
      exact freshHid n.2 ((mem_pluginHooks_iff p n.2).mpr (by tauto))
        (h2 ▸ pmHids_regex hg)
    · show E2.sieves = st.sieves
      rw [dispatchFrame_sieves hframe2]
      show eraseHooks (sortHooks (sortHooks (E.sieves ++ p.hooks_sieve))) p.hooks_sieve
        = st.sieves
      rw [dispatchFrame_sieves hframe]
      refine list_roundtrip2 wf.sorted_sieves ?_ nd10
      intro g hg n hn heq
      exact freshHid n ((mem_pluginHooks_iff p n).mpr (by tauto)) (heq ▸ pmHids_sieves hg)
    · show E2.cap_hooks_available = st.cap_hooks_available
      rw [dispatchFrame_capA hframe2]
      show dropPairs (addPairs E.cap_hooks_available (capPairs p.hooks_on_cap_available))
        (capPairs p.hooks_on_cap_available) = st.cap_hooks_available
      rw [dispatchFrame_capA hframe]
      refine capmap_roundtrip wf.ndk_capA wf.ne_capA ?_ ?_
      · intro k l hm g hg pr hpr heq
        have h1 : pr.2 ∈ p.hooks_on_cap_available := (keyPairs_mem hpr).1
        exact freshHid pr.2 ((mem_pluginHooks_iff p pr.2).mpr (by tauto))
          (heq ▸ pmHids_capA hm hg)
      · intro k
        exact keyAdds_hid_nodup k pw.nodup_capsA nd4
    · show E2.cap_hooks_ack = st.cap_hooks_ack
      rw [dispatchFrame_capK hframe2]
      show dropPairs (addPairs E.cap_hooks_ack (capPairs p.hooks_on_cap_ack))
        (capPairs p.hooks_on_cap_ack) = st.cap_hooks_ack
      rw [dispatchFrame_capK hframe]
      refine capmap_roundtrip wf.ndk_capK wf.ne_capK ?_ ?_
      · intro k l hm g hg pr hpr heq
        have h1 : pr.2 ∈ p.hooks_on_cap_ack := (keyPairs_mem hpr).1
        exact freshHid pr.2 ((mem_pluginHooks_iff p pr.2).mpr (by tauto))
          (heq ▸ pmHids_capK hm hg)
      · intro k
        exact keyAdds_hid_nodup k pw.nodup_capsK nd5
    · show E2.connect_hooks = st.connect_hooks
      rw [dispatchFrame_connect hframe2]
      show eraseHooks (sortHooks (sortHooks (E.connect_hooks ++ p.hooks_on_connect)))
        p.hooks_on_connect = st.connect_hooks
      rw [dispatchFrame_connect hframe]
      refine list_roundtrip2 wf.sorted_connect ?_ nd11
      intro g hg n hn heq
      exact freshHid n ((mem_pluginHooks_iff p n).mpr (by tauto)) (heq ▸ pmHids_connect hg)
    · show E2.out_sieves = st.out_sieves
      rw [dispatchFrame_out hframe2]
      show eraseHooks (sortHooks (E.out_sieves ++ p.hooks_irc_out)) p.hooks_irc_out
        = st.out_sieves
      rw [dispatchFrame_out hframe]
      refine list_roundtrip wf.sorted_out ?_ nd12
      intro g hg n hn heq
      exact freshHid n ((mem_pluginHooks_iff p n).mpr (by tauto)) (heq ▸ pmHids_out hg)
    · intro k
      show (alookup k E2.hook_hooks).getD [] = _
      rw [ensuredPost_getD (dispatchFrame_hook hframe2) k]
      show (alookup k (keepPairs
          (mapSortValues (addPairs E.hook_hooks
            (p.hooks_post_hook.map (fun h => (("post" : String), h)))))
          (p.hooks_post_hook.map (fun h => (("post" : String), h))))).getD [] = _
      have hfreshH : ∀ k2 l, alookup k2 E.hook_hooks = some l → ∀ g ∈ l,
          ∀ pr ∈ p.hooks_post_hook.map (fun h => (("post" : String), h)),
            g.hid ≠ pr.2.hid := by
        intro k2 l hm g hg pr hpr heq
        rw [List.mem_map] at hpr
        obtain ⟨h2, hh2, hpr2⟩ := hpr
        have hmz : alookup k2 st.hook_hooks = some l :=
          ensuredPost_entry_mem (dispatchFrame_hook hframe) hm hg
        have h1 : pr.2 ∈ p.hooks_post_hook := by
          rw [← hpr2]
          exact hh2
        exact freshHid pr.2 ((mem_pluginHooks_iff p pr.2).mpr (by tauto))
          (heq ▸ pmHids_hook hmz hg)
      have hnodupH : ∀ k2, ((keyAdds k2
          (p.hooks_post_hook.map (fun h => (("post" : String), h)))).map Hook.hid).Nodup := by
        intro k2
        rw [postPairs_eq]
        exact keyAdds_hid_nodup k2 (fun h hh => List.nodup_singleton "post") nd13
      rw [keepmap_lookup_roundtrip
        (ensuredPost_mapSorted (dispatchFrame_hook hframe) wf.sorted_hook) hfreshH hnodupH k]
      exact ensuredPost_getD (dispatchFrame_hook hframe) k
    · intro k
      show (alookup k E2.perm_hooks).getD [] = _
      rw [dispatchFrame_perm hframe2]
      show (alookup k (keepPairs
          (mapSortValues (addPairs E.perm_hooks (permPairs p.hooks_perm_check)))
          (permPairs p.hooks_perm_check))).getD [] = _
      rw [dispatchFrame_perm hframe]
      refine keepmap_lookup_roundtrip wf.sorted_perm ?_ ?_ k
      · intro k2 l hm g hg pr hpr heq
        have h1 : pr.2 ∈ p.hooks_perm_check := (keyPairs_mem hpr).1
        exact freshHid pr.2 ((mem_pluginHooks_iff p pr.2).mpr (by tauto))
          (heq ▸ pmHids_perm hm hg)
      · intro k2
        exact keyAdds_hid_nodup k2 pw.nodup_perms nd14
  · obtain ⟨E, tr0, hframe, hload⟩ :=
      loadPlugin_failure st p wf.queues_empty pw.start_types fr.2.1 hsucc
    have hlookE : alookup p.file_path E.plugins = none := by
      rw [dispatchFrame_plugins hframe]
      exact fr.2.1
    have hunload : unloadPlugin E p.file_path = some (E, false, []) := by
      unfold unloadPlugin
      rw [hlookE]
    refine ⟨_, _, hload, hunload, dispatchFrame_commands hframe, dispatchFrame_raw hframe,
      dispatchFrame_catch hframe, dispatchFrame_event hframe, dispatchFrame_regex hframe,
      dispatchFrame_sieves hframe, dispatchFrame_capA hframe, dispatchFrame_capK hframe,
      dispatchFrame_connect hframe, dispatchFrame_out hframe, ?_, ?_⟩
    · intro k
      exact ensuredPost_getD (dispatchFrame_hook hframe) k
    · intro k
      rw [dispatchFrame_perm hframe]

/-! ## Dispatch-pipeline characterization -/

section DispatchSpec

theorem internalLaunch_trace (h : Hook) (ev : Nat) :
    (internalLaunch h ev).2.2 = [runEvOf h ev] := by
  unfold internalLaunch runEvOf
  cases h.fn ev <;> rfl

theorem stopsPost_iff (p : Hook) (ev : Nat) :
    ((internalLaunch p ev).1 = true ∧ (internalLaunch p ev).2.1 = Val.vfalse)
      ↔ stopsPost p ev = true := by
  unfold internalLaunch stopsPost
  cases hf : p.fn ev with
  | raises => simp
  | rets v => simp

theorem postChain_eq (ps : List Hook) (ev : Nat) :
    postChain ps ev = (specPostHooks ps ev).map (fun p2 => runEvOf p2 ev) := by
  induction ps with
  | nil => rfl
  | cons p ps ih =>
    show (if (internalLaunch p ev).1 = true ∧ (internalLaunch p ev).2.1 = Val.vfalse
        then (internalLaunch p ev).2.2
        else (internalLaunch p ev).2.2 ++ postChain ps ev)
      = (specPostHooks (p :: ps) ev).map (fun p2 => runEvOf p2 ev)
    by_cases hstop : stopsPost p ev
    · rw [if_pos ((stopsPost_iff p ev).mpr hstop), internalLaunch_trace]
      show _ = ((p :: (if stopsPost p ev then [] else specPostHooks ps ev)).map
        (fun p2 => runEvOf p2 ev))
      rw [if_pos hstop]
      rfl
    · rw [if_neg (fun hh => hstop ((stopsPost_iff p ev).mp hh)), internalLaunch_trace, ih]
      show _ = ((p :: (if stopsPost p ev then [] else specPostHooks ps ev)).map
        (fun p2 => runEvOf p2 ev))
      rw [if_neg hstop]
      rfl

theorem specPostHooks_front : ∀ (ps : List Hook) (ev : Nat),
    ∃ suf, ps = specPostHooks ps ev ++ suf := by
  intro ps
  induction ps with
  | nil =>
    intro ev
    exact ⟨[], rfl⟩
  | cons p ps ih =>
    intro ev
    show ∃ suf, p :: ps = (p :: (if stopsPost p ev then [] else specPostHooks ps ev)) ++ suf
    by_cases hstop : stopsPost p ev
    · rw [if_pos hstop]
      exact ⟨ps, rfl⟩
    · rw [if_neg hstop]
      obtain ⟨suf, hsuf⟩ := ih ev
      refine ⟨suf, ?_⟩
      rw [List.cons_append, ← hsuf]

theorem specPostHooks_all : ∀ (ps : List Hook) (ev : Nat),
    (∀ x ∈ ps, stopsPost x ev = false) → specPostHooks ps ev = ps := by
  intro ps
  induction ps with
  | nil =>
    intro ev _
    rfl
  | cons p ps ih =>
    intro ev hall
    show (p :: (if stopsPost p ev then [] else specPostHooks ps ev)) = p :: ps
    rw [if_neg (by rw [hall p (List.mem_cons_self p ps)]; simp),
      ih ev (fun x hx => hall x (List.mem_cons_of_mem p hx))]

theorem specPostHooks_cut : ∀ (pre : List Hook) (q : Hook) (suf : List Hook) (ev : Nat),
    (∀ x ∈ pre, stopsPost x ev = false) → stopsPost q ev = true →
    specPostHooks (pre ++ q :: suf) ev = pre ++ [q] := by
  intro pre
  induction pre with
  | nil =>
    intro q suf ev _ hq
    show (q :: (if stopsPost q ev then [] else specPostHooks suf ev)) = [q]
    rw [if_pos hq]
  | cons p pre ih =>
    intro q suf ev hall hq
    show (p :: (if stopsPost p ev then [] else specPostHooks (pre ++ q :: suf) ev))
      = p :: (pre ++ [q])
    rw [if_neg (by rw [hall p (List.mem_cons_self p pre)]; simp),
      ih q suf ev (fun x hx => hall x (List.mem_cons_of_mem p hx)) hq]

theorem sieveEvsOf_append (tr1 tr2 : List TEv) :
    sieveEvsOf (tr1 ++ tr2) = sieveEvsOf tr1 ++ sieveEvsOf tr2 :=
  List.filterMap_append tr1 tr2 _

theorem runsOf_append (i : Nat) (tr1 tr2 : List TEv) :
    runsOf i (tr1 ++ tr2) = runsOf i tr1 ++ runsOf i tr2 := by
  unfold runsOf
  exact List.filter_append tr1 tr2

theorem acquiresOf_append (k : SKey) (tr1 tr2 : List TEv) :
    acquiresOf k (tr1 ++ tr2) = acquiresOf k tr1 ++ acquiresOf k tr2 := by
  unfold acquiresOf
  exact List.filter_append tr1 tr2

theorem sieveEvsOf_runEv (h : Hook) (ev : Nat) : sieveEvsOf [runEvOf h ev] = [] := by
  unfold runEvOf sieveEvsOf
  by_cases ht : h.threaded
  · rw [if_pos ht]
    rfl
  · rw [if_neg ht]
    rfl

theorem sieveEvsOf_mapRun (l : List Hook) (ev : Nat) :
    sieveEvsOf (l.map (fun p2 => runEvOf p2 ev)) = [] := by
  induction l with
  | nil => rfl
  | cons p l ih =>
    rw [List.map_cons, show (runEvOf p ev :: l.map (fun p2 => runEvOf p2 ev))
      = [runEvOf p ev] ++ l.map (fun p2 => runEvOf p2 ev) from rfl, sieveEvsOf_append,
      sieveEvsOf_runEv, ih]
    rfl

theorem runsOf_runEv_ne {i : Nat} {h : Hook} (hne : h.hid ≠ i) (ev : Nat) :
    runsOf i [runEvOf h ev] = [] := by
  unfold runEvOf runsOf
  by_cases ht : h.threaded
  · rw [if_pos ht]
    simp [hne]
  · rw [if_neg ht]
    simp [hne]

theorem runsOf_mapRun {i : Nat} {l : List Hook} (hni : i ∉ l.map Hook.hid) (ev : Nat) :
    runsOf i (l.map (fun p2 => runEvOf p2 ev)) = [] := by
  induction l with
  | nil => rfl
  | cons p l ih =>
    rw [List.map_cons, List.mem_cons] at hni
    push_neg at hni
    rw [List.map_cons, show (runEvOf p ev :: l.map (fun p2 => runEvOf p2 ev))
      = [runEvOf p ev] ++ l.map (fun p2 => runEvOf p2 ev) from rfl, runsOf_append,
      runsOf_runEv_ne (fun hh => hni.1 hh.symm) ev, ih hni.2]
    rfl

theorem acquiresOf_runEv (k : SKey) (h : Hook) (ev : Nat) :
    acquiresOf k [runEvOf h ev] = [] := by
  unfold runEvOf acquiresOf
  by_cases ht : h.threaded
  · rw [if_pos ht]
    rfl
  · rw [if_neg ht]
    rfl

theorem acquiresOf_mapRun (k : SKey) (l : List Hook) (ev : Nat) :
    acquiresOf k (l.map (fun p2 => runEvOf p2 ev)) = [] := by
  induction l with
  | nil => rfl
  | cons p l ih =>
    rw [List.map_cons, show (runEvOf p ev :: l.map (fun p2 => runEvOf p2 ev))
      = [runEvOf p ev] ++ l.map (fun p2 => runEvOf p2 ev) from rfl, acquiresOf_append,
      acquiresOf_runEv, ih]
    rfl

theorem postsOf_ensurePost (st : PM) : postsOf (ensurePost st) = postsOf st :=
  getD_alookup_ddEnsure st.hook_hooks "post" "post"

theorem executeHook_eq (st : PM) (h : Hook) (ev : Nat) :
    executeHook st h ev = (ensurePost st, (internalLaunch h ev).1,
      (internalLaunch h ev).2.2 ++ postChain (postsOf (ensurePost st)) ev) := rfl

theorem sieveOne_eq (st : PM) (s : Hook) (ev : Nat) (tgt : Hook) :
    sieveOne st s ev tgt = (ensurePost st, sieveStep s ev tgt.hid,
      (if s.threaded then TEv.sieveT s.hid ev tgt.hid else TEv.sieveS s.hid ev tgt.hid)
        :: postChain (postsOf (ensurePost st)) ev) := rfl

theorem sieveChain_cons (st : PM) (s : Hook) (ss : List Hook) (ev : Nat) (tgt : Hook) :
    sieveChain st (s :: ss) ev tgt =
      match (sieveOne st s ev tgt).2.1 with
      | none => ((sieveOne st s ev tgt).1, none, (sieveOne st s ev tgt).2.2)
      | some ev1 =>
        ((sieveChain (sieveOne st s ev tgt).1 ss ev1 tgt).1,
         (sieveChain (sieveOne st s ev tgt).1 ss ev1 tgt).2.1,
         (sieveOne st s ev tgt).2.2 ++ (sieveChain (sieveOne st s ev tgt).1 ss ev1 tgt).2.2)
      := rfl

theorem specChain_cons (s : Hook) (ss : List Hook) (ev t : Nat) :
    specChain (s :: ss) ev t =
      match sieveStep s ev t with
      | none => none
      | some ev1 => specChain ss ev1 t := rfl

theorem specSieveTrace_cons (s : Hook) (ss : List Hook) (ev t : Nat) :
    specSieveTrace (s :: ss) ev t =
      (s.hid, ev) :: match sieveStep s ev t with
        | none => []
        | some ev1 => specSieveTrace ss ev1 t := rfl

theorem sieveChain_spec : ∀ (ss : List Hook) (st : PM) (ev : Nat) (tgt : Hook),
    (sieveChain st ss ev tgt).2.1 = specChain ss ev tgt.hid ∧
    sieveEvsOf (sieveChain st ss ev tgt).2.2 = specSieveTrace ss ev tgt.hid ∧
    (∀ i, i ∉ (postsOf st).map Hook.hid → runsOf i (sieveChain st ss ev tgt).2.2 = []) ∧
    (∀ k, acquiresOf k (sieveChain st ss ev tgt).2.2 = []) := by
  intro ss
  induction ss with
  | nil =>
    intro st ev tgt
    exact ⟨rfl, rfl, fun i _ => rfl, fun k => rfl⟩
  | cons s ss ih =>
    intro st ev tgt
    rw [sieveChain_cons, sieveOne_eq]
    have hposts : postsOf (ensurePost st) = postsOf st := postsOf_ensurePost st
    have hsub : ∀ i, i ∉ (postsOf st).map Hook.hid →
        i ∉ (specPostHooks (postsOf st) ev).map Hook.hid := by
      intro i hi hmem
      obtain ⟨suf, hsuf⟩ := specPostHooks_front (postsOf st) ev
      apply hi
      rw [List.mem_map] at hmem
      obtain ⟨p2, hp2, hp2e⟩ := hmem
      rw [hsuf]
      exact hp2e ▸ List.mem_map_of_mem Hook.hid (List.mem_append_left _ hp2)
    have hsevT : ∀ i, i ∉ (postsOf st).map Hook.hid →
        runsOf i ((if s.threaded then TEv.sieveT s.hid ev tgt.hid
          else TEv.sieveS s.hid ev tgt.hid) :: postChain (postsOf (ensurePost st)) ev)
          = [] := by
      intro i hi
      rw [hposts, postChain_eq]
      by_cases ht : s.threaded
      · rw [if_pos ht]
        show runsOf i (List.map (fun p2 => runEvOf p2 ev) (specPostHooks (postsOf st) ev)) = []
        exact runsOf_mapRun (hsub i hi) ev
      · rw [if_neg ht]
        show runsOf i (List.map (fun p2 => runEvOf p2 ev) (specPostHooks (postsOf st) ev)) = []
        exact runsOf_mapRun (hsub i hi) ev
    have hsevA : ∀ k, acquiresOf k ((if s.threaded then TEv.sieveT s.hid ev tgt.hid
        else TEv.sieveS s.hid ev tgt.hid) :: postChain (postsOf (ensurePost st)) ev)
        = [] := by
      intro k
      rw [hposts, postChain_eq]
      by_cases ht : s.threaded
      · rw [if_pos ht]
        show acquiresOf k (List.map (fun p2 => runEvOf p2 ev)
          (specPostHooks (postsOf st) ev)) = []
        exact acquiresOf_mapRun k _ ev
      · rw [if_neg ht]
        show acquiresOf k (List.map (fun p2 => runEvOf p2 ev)
          (specPostHooks (postsOf st) ev)) = []
        exact acquiresOf_mapRun k _ ev
    have hsevS : sieveEvsOf ((if s.threaded then TEv.sieveT s.hid ev tgt.hid
        else TEv.sieveS s.hid ev tgt.hid) :: postChain (postsOf (ensurePost st)) ev)
        = [(s.hid, ev)] := by
      rw [hposts, postChain_eq]
      by_cases ht : s.threaded
      · rw [if_pos ht]
        show (s.hid, ev) :: sieveEvsOf (List.map (fun p2 => runEvOf p2 ev)
          (specPostHooks (postsOf st) ev)) = [(s.hid, ev)]
        rw [sieveEvsOf_mapRun]
      · rw [if_neg ht]
        show (s.hid, ev) :: sieveEvsOf (List.map (fun p2 => runEvOf p2 ev)
          (specPostHooks (postsOf st) ev)) = [(s.hid, ev)]
        rw [sieveEvsOf_mapRun]
    cases hstep : sieveStep s ev tgt.hid with
    | none =>
      refine ⟨?_, ?_, ?_, ?_⟩
      · show (none : Option Nat) = specChain (s :: ss) ev tgt.hid
        rw [specChain_cons, hstep]
      · show sieveEvsOf ((if s.threaded then TEv.sieveT s.hid ev tgt.hid
          else TEv.sieveS s.hid ev tgt.hid) :: postChain (postsOf (ensurePost st)) ev)
          = specSieveTrace (s :: ss) ev tgt.hid
        rw [hsevS, specSieveTrace_cons, hstep]
      · intro i hi
        exact hsevT i hi
      · intro k
        exact hsevA k
    | some ev1 =>
      obtain ⟨ih1, ih2, ih3, ih4⟩ := ih (ensurePost st) ev1 tgt
      refine ⟨?_, ?_, ?_, ?_⟩
      · show (sieveChain (ensurePost st) ss ev1 tgt).2.1 = specChain (s :: ss) ev tgt.hid
        rw [specChain_cons, hstep, ih1]
      · rw [sieveEvsOf_append, hsevS, ih2, specSieveTrace_cons, hstep]
        rfl
      · intro i hi
        rw [runsOf_append, hsevT i hi, ih3 i (by rw [postsOf_ensurePost]; exact hi)]
        rfl
      · intro k
        rw [acquiresOf_append, hsevA k, ih4 k]
        rfl

theorem specSieveTrace_front : ∀ (ss : List Hook) (ev t : Nat),
    ∃ pre suf, ss = pre ++ suf
      ∧ (specSieveTrace ss ev t).map Prod.fst = pre.map Hook.hid := by
  intro ss
  induction ss with
  | nil =>
    intro ev t
    exact ⟨[], [], rfl, rfl⟩
  | cons s ss ih =>
    intro ev t
    rw [specSieveTrace_cons]
    cases hstep : sieveStep s ev t with
    | none => exact ⟨[s], ss, rfl, rfl⟩
    | some ev1 =>
      obtain ⟨pre, suf, hps, htr⟩ := ih ev1 t
      refine ⟨s :: pre, suf, by rw [List.cons_append, ← hps], ?_⟩
      rw [List.map_cons, List.map_cons, htr]

theorem sieveEvsOf_exec (st : PM) (h : Hook) (ev : Nat) :
    sieveEvsOf (executeHook st h ev).2.2 = [] := by
  rw [show (executeHook st h ev).2.2
    = (internalLaunch h ev).2.2 ++ postChain (postsOf (ensurePost st)) ev from rfl,
    sieveEvsOf_append, internalLaunch_trace, sieveEvsOf_runEv, postsOf_ensurePost,
    postChain_eq, sieveEvsOf_mapRun]
  rfl

theorem acquiresOf_exec (st : PM) (h : Hook) (ev : Nat) (k : SKey) :
    acquiresOf k (executeHook st h ev).2.2 = [] := by
  rw [show (executeHook st h ev).2.2
    = (internalLaunch h ev).2.2 ++ postChain (postsOf (ensurePost st)) ev from rfl,
    acquiresOf_append, internalLaunch_trace, acquiresOf_runEv, postsOf_ensurePost,
    postChain_eq, acquiresOf_mapRun]
  rfl

theorem launchRest_trace (st : PM) (h : Hook) (ev : Nat) (tr0 : List TEv)
    (out : PM × Bool × List TEv) (hout : launchRest st h ev tr0 = some out) :
    sieveEvsOf out.2.2 = sieveEvsOf tr0 := by
  unfold launchRest at hout
  by_cases hs : h.single_thread
  · rw [if_pos hs] at hout
    cases hq : alookup (hookKey h) st.hook_waiting_queues with
    | some q =>
      rw [hq] at hout
      exact Option.noConfusion hout
    | none =>
      rw [hq] at hout
      have hval := Option.some.inj hout
      rw [← hval]
      show sieveEvsOf (tr0 ++ [TEv.acquire (hookKey h)] ++ _ ++ [TEv.release (hookKey h)]) = _
      rw [sieveEvsOf_append, sieveEvsOf_append, sieveEvsOf_append, sieveEvsOf_exec]
      show sieveEvsOf tr0 ++ [] ++ [] ++ [] = sieveEvsOf tr0
      simp
  · rw [if_neg hs] at hout
    have hval := Option.some.inj hout
    rw [← hval]
    show sieveEvsOf (tr0 ++ (executeHook st h ev).2.2) = _
    rw [sieveEvsOf_append, sieveEvsOf_exec]
    simp

theorem launch_eq_of_type (st : PM) (h : Hook) (ev : Nat)
    (htype : ¬(h.type = "on_start" ∨ h.type = "on_stop" ∨ h.type = "periodic")) :
    launch st h ev =
      match (sieveChain st st.sieves ev h).2.1 with
      | none => some ((sieveChain st st.sieves ev h).1, false,
          (sieveChain st st.sieves ev h).2.2)
      | some ev1 => launchRest (sieveChain st st.sieves ev h).1 h ev1
          (sieveChain st st.sieves ev h).2.2 := by
  unfold launch
  rw [if_neg htype]

end DispatchSpec

/-! ## Claim C3 -/

/-- C3: Unless the hook type is `on_start`, `on_stop` or `periodic`,
`launch` runs every registered sieve over the event in list order — each
through `_sieve`, so each sieve invocation is visible in the trace — until
one rejects; the sieve invocations follow the spec-side chain
`specSieveTrace` exactly, so they happen in ascending priority order (the
sieves consulted form a prefix of the sorted `sieves` list).  If some sieve
returns `None`, the dispatch is abandoned: `launch` returns `False` and the
target hook is never invoked (no run event with its identity appears,
provided the target is not itself registered as a post hook).  For the
three exempt types the sieve chain is skipped entirely. -/
theorem launch_sieve_chain_spec (st : PM) (h : Hook) (ev : Nat)
    (hsort : st.sieves.Pairwise hookle) :
    ((h.type = "on_start" ∨ h.type = "on_stop" ∨ h.type = "periodic") →
      ∀ out, launch st h ev = some out → sieveEvsOf out.2.2 = []) ∧
    (¬(h.type = "on_start" ∨ h.type = "on_stop" ∨ h.type = "periodic") →
      (∀ out, launch st h ev = some out →
        sieveEvsOf out.2.2 = specSieveTrace st.sieves ev h.hid) ∧
      (specChain st.sieves ev h.hid = none →
        launch st h ev = some ((sieveChain st st.sieves ev h).1, false,
          (sieveChain st st.sieves ev h).2.2) ∧
        (h.hid ∉ (postsOf st).map Hook.hid →
          runsOf h.hid (sieveChain st st.sieves ev h).2.2 = []))) ∧
    (∃ pre suf, st.sieves = pre ++ suf ∧ pre.Pairwise hookle ∧
      (specSieveTrace st.sieves ev h.hid).map Prod.fst = pre.map Hook.hid) := by
  obtain ⟨hc1, hc2, hc3, _⟩ := sieveChain_spec st.sieves st ev h
  refine ⟨?_, ?_, ?_⟩
  · intro htype out hout
    unfold launch at hout
    rw [if_pos htype] at hout
    exact (launchRest_trace st h ev [] out hout).trans rfl
  · intro htype
    constructor
    · intro out hout
      rw [launch_eq_of_type st h ev htype] at hout
      cases hres : (sieveChain st st.sieves ev h).2.1 with
      | none =>
        rw [hres] at hout
        have hval := Option.some.inj hout
        rw [← hval]
        exact hc2
      | some ev1 =>
        rw [hres] at hout
        exact (launchRest_trace _ h ev1 _ out hout).trans hc2
    · intro hnone
      have hr : (sieveChain st st.sieves ev h).2.1 = none := hc1.trans hnone
      constructor
      · rw [launch_eq_of_type st h ev htype, hr]
      · intro hni
        exact hc3 h.hid hni
  · obtain ⟨pre, suf, hps, htr⟩ := specSieveTrace_front st.sieves ev h.hid
    refine ⟨pre, suf, hps, ?_, htr⟩
    exact List.Pairwise.sublist (by rw [hps]; exact List.sublist_append_left pre suf) hsort

/-! ## Claim C4 -/

/-- C4: `_execute_hook` runs the hook and then the `"post"` chain: the
trace is the hook's own run followed by one run event per consulted post
hook in list order (ascending priority, since the list of consulted posts
is a prefix of the sorted post list); the chain stops early exactly when a
post invocation succeeds with result `False` (a raising post does not stop
it, and absent any stopper every post runs); the return value is the target
hook's own success flag, unaffected by the posts. -/
theorem post_chain_spec (st : PM) (h : Hook) (ev : Nat)
    (hsort : (postsOf st).Pairwise hookle) :
    (executeHook st h ev).2.1 = (internalLaunch h ev).1 ∧
    (executeHook st h ev).2.2
      = (internalLaunch h ev).2.2
        ++ (specPostHooks (postsOf st) ev).map (fun p2 => runEvOf p2 ev) ∧
    ((∀ x ∈ postsOf st, stopsPost x ev = false) →
      specPostHooks (postsOf st) ev = postsOf st) ∧
    (∀ pre q suf, postsOf st = pre ++ q :: suf →
      (∀ x ∈ pre, stopsPost x ev = false) → stopsPost q ev = true →
      specPostHooks (postsOf st) ev = pre ++ [q]) ∧
    (specPostHooks (postsOf st) ev).Pairwise hookle := by
  refine ⟨rfl, ?_, ?_, ?_, ?_⟩
  · show (internalLaunch h ev).2.2 ++ postChain (postsOf (ensurePost st)) ev = _
    rw [postsOf_ensurePost, postChain_eq]
  · intro hall
    exact specPostHooks_all _ ev hall
  · intro pre q suf hps hpre hq
    rw [hps]
    exact specPostHooks_cut pre q suf ev hpre hq
  · obtain ⟨suf, hsuf⟩ := specPostHooks_front (postsOf st) ev
    have hsub : (specPostHooks (postsOf st) ev).Sublist (postsOf st) := by
      conv_rhs => rw [hsuf]
      exact List.sublist_append_left _ suf
    exact List.Pairwise.sublist hsub hsort

/-! ## Claim C9 -/

/-- C9 (corrected): Post hooks launched from inside `_execute_hook`
and `_sieve` go through `internal_launch` directly: each consulted post
produces exactly one run event, executed with its own `threaded` mode
(executor thread or coroutine), and the serialization queue is bypassed
entirely — the trace contains no acquire event for any key, and the
waiting-queue table is untouched — even for posts marked
`single_thread`.  (The spec's claim that every hook launch, including post
hooks, serializes per `(plugin, function)` when `single_thread` is set is
therefore wrong for post hooks; the counterexample exhibits an exclusive
post hook running with no admission.) -/
theorem post_hook_dispatch_amended (st : PM) (h : Hook) (ev : Nat) :
    (executeHook st h ev).2.2
      = (internalLaunch h ev).2.2
        ++ (specPostHooks (postsOf st) ev).map (fun p2 => runEvOf p2 ev) ∧
    (∀ p2 : Hook, runEvOf p2 ev
      = if p2.threaded then TEv.runT p2.hid ev else TEv.runS p2.hid ev) ∧
    (∀ k, acquiresOf k (executeHook st h ev).2.2 = []) ∧
    (executeHook st h ev).1.hook_waiting_queues = st.hook_waiting_queues := by
  refine ⟨?_, fun p2 => rfl, ?_, rfl⟩
  · show (internalLaunch h ev).2.2 ++ postChain (postsOf (ensurePost st)) ev = _
    rw [postsOf_ensurePost, postChain_eq]
  · intro k
    exact acquiresOf_exec st h ev k

/-! ## Claim C2 -/

section LoadFailure

theorem aset_append_of_not_mem {κ : Type _} {β : Type _} [DecidableEq κ] {k : κ}
    {m : List (κ × β)} (h : alookup k m = none) (v : β) : aset k v m = m ++ [(k, v)] := by
  induction m with
  | nil => rfl
  | cons kv rest ih =>
    show (if kv.1 = k then (kv.1, v) :: rest else kv :: aset k v rest) = (kv :: rest) ++ [(k, v)]
    by_cases hk : kv.1 = k
    · rw [show alookup k (kv :: rest) = (if kv.1 = k then some kv.2 else alookup k rest)
        from rfl, if_pos hk] at h
      exact Option.noConfusion h
    · rw [show alookup k (kv :: rest) = (if kv.1 = k then some kv.2 else alookup k rest)
        from rfl, if_neg hk] at h
      rw [if_neg hk, ih h]
      rfl

theorem hidsOfMap_append {κ : Type _} (m1 m2 : List (κ × List Hook)) :
    hidsOfMap (m1 ++ m2) = hidsOfMap m1 ++ hidsOfMap m2 := by
  unfold hidsOfMap
  rw [List.map_append, List.flatten_append]

theorem hidsOfMap_ddEnsure (m : List (String × List Hook)) (k : String) :
    hidsOfMap (ddEnsure m k) = hidsOfMap m := by
  unfold ddEnsure
  cases hmk : alookup k m with
  | some l => rfl
  | none =>
    rw [aset_append_of_not_mem hmk, hidsOfMap_append,
      show hidsOfMap [((k : String), ([] : List Hook))] = [] from rfl, List.append_nil]

theorem ensuredPost_hids {m m2 : List (String × List Hook)} (h : EnsuredPost m m2) :
    hidsOfMap m2 = hidsOfMap m := by
  cases h with
  | inl h => rw [h]
  | inr h => rw [h, hidsOfMap_ddEnsure]

theorem dispatchFrame_pmHids {st st2 : PM} (h : DispatchFrame st st2) :
    pmHids st2 = pmHids st := by
  unfold pmHids
  rw [dispatchFrame_commands h, dispatchFrame_raw h, dispatchFrame_catch h,
    dispatchFrame_event h, dispatchFrame_regex h, dispatchFrame_sieves h,
    dispatchFrame_capA h, dispatchFrame_capK h, dispatchFrame_connect h,
    dispatchFrame_out h, ensuredPost_hids (dispatchFrame_hook h), dispatchFrame_perm h]

end LoadFailure

/-- C2 (corrected):  When an `on_start` hook of the module fails,
`load_plugin` aborts: the module's tables are released
(`TEv.tablesDropped`), a warning is logged, the plugin is not inserted into
`plugins` (and `find_plugin` cannot see it), none of its hooks is
registered in any index, and every registry index is left as it was (the
post-hook table up to lookups).  But no failure is returned to the caller:
the function's return value is the same `None` (here `()`) as on success —
the original claim's "returns the failure to the caller" is refuted by the
counterexample. -/
theorem load_failure_aborts_amended (st : PM) (p : Plugin)
    (wf : PMWF st) (pw : PlugWF p) (fr : FreshFor st p)
    (hfail : ¬ ∀ h ∈ p.hooks_on_start, (internalLaunch h 0).1 = true) :
    ∃ out, loadPlugin st p = some out ∧
      out.ret = () ∧
      TEv.warnOnStartFailed p.title ∈ out.tr ∧
      TEv.tablesDropped p.title ∈ out.tr ∧
      out.st.plugins = st.plugins ∧
      findPlugin out.st p.title = none ∧
      out.st.commands = st.commands ∧
      out.st.raw_triggers = st.raw_triggers ∧
      out.st.catch_all_triggers = st.catch_all_triggers ∧
      out.st.event_type_hooks = st.event_type_hooks ∧
      out.st.regex_hooks = st.regex_hooks ∧
      out.st.sieves = st.sieves ∧
      out.st.cap_hooks_available = st.cap_hooks_available ∧
      out.st.cap_hooks_ack = st.cap_hooks_ack ∧
      out.st.connect_hooks = st.connect_hooks ∧
      out.st.out_sieves = st.out_sieves ∧
      out.st.perm_hooks = st.perm_hooks ∧
      (∀ k, (alookup k out.st.hook_hooks).getD [] = (alookup k st.hook_hooks).getD []) ∧
      (∀ i ∈ pluginHids p, i ∉ pmHids out.st) := by
  obtain ⟨E, tr0, hframe, hload⟩ :=
    loadPlugin_failure st p wf.queues_empty pw.start_types fr.2.1 hfail
  refine ⟨_, hload, rfl, ?_, ?_, dispatchFrame_plugins hframe, ?_,
    dispatchFrame_commands hframe, dispatchFrame_raw hframe, dispatchFrame_catch hframe,
    dispatchFrame_event hframe, dispatchFrame_regex hframe, dispatchFrame_sieves hframe,
    dispatchFrame_capA hframe, dispatchFrame_capK hframe, dispatchFrame_connect hframe,
    dispatchFrame_out hframe, dispatchFrame_perm hframe, ?_, ?_⟩
  · exact List.mem_append_right tr0 (by simp)
  · exact List.mem_append_right tr0 (by simp)
  · unfold findPlugin
    rw [dispatchFrame_name_map hframe, fr.2.2]
  · intro k
    exact ensuredPost_getD (dispatchFrame_hook hframe) k
  · intro i hi
    rw [dispatchFrame_pmHids hframe]
    exact fr.1 i hi

/-! ## Claim C5 -/

section AliasConflict

theorem alookup_aset_isSome {κ : Type _} {β : Type _} [DecidableEq κ] {a : κ}
    {m : List (κ × β)} (h : (alookup a m).isSome = true) (k : κ) (v : β) :
    (alookup a (aset k v m)).isSome = true := by
  by_cases hk : a = k
  · subst hk
    rw [alookup_aset_self]
    rfl
  · rw [alookup_aset_ne hk]
    exact h

theorem regCommands_cons (m : List (String × Hook)) (pr : String × Hook)
    (prs : List (String × Hook)) :
    regCommands m (pr :: prs) =
      match alookup pr.1 m with
      | some _ => ((regCommands m prs).1,
          TEv.logConflict pr.2.plugin_title pr.1 :: (regCommands m prs).2)
      | none => regCommands (aset pr.1 pr.2 m) prs := rfl

theorem regCommands_logs : ∀ (prs : List (String × Hook)) (m : List (String × Hook))
    (pre : List (String × Hook)) (pr : String × Hook) (suf : List (String × Hook)),
    prs = pre ++ pr :: suf →
    ((alookup pr.1 m).isSome = true ∨ ∃ q ∈ pre, q.1 = pr.1) →
    TEv.logConflict pr.2.plugin_title pr.1 ∈ (regCommands m prs).2 := by
  intro prs
  induction prs with
  | nil =>
    intro m pre pr suf hps _
    exact absurd hps (List.append_ne_nil_of_right_ne_nil pre (List.cons_ne_nil pr suf)).symm
  | cons q prs ih =>
    intro m pre pr suf hps htaken
    cases pre with
    | nil =>
      rw [List.nil_append] at hps
      obtain ⟨hq, hsuf⟩ := List.cons.inj hps
      cases htaken with
      | inl hsome =>
        rw [regCommands_cons, ← hq]
        cases hm : alookup q.1 m with
        | some h0 =>
          exact List.mem_cons_self _ _
        | none =>
          rw [← hq, hm] at hsome
          cases hsome
      | inr hex =>
        obtain ⟨q2, hq2, _⟩ := hex
        cases hq2
    | cons q0 pre =>
      rw [List.cons_append] at hps
      obtain ⟨hq, hps'⟩ := List.cons.inj hps
      subst hq
      have htaken' : ∀ m2 : List (String × Hook),
          ((alookup pr.1 m).isSome = true → (alookup pr.1 m2).isSome = true) →
          (q.1 = pr.1 → (alookup pr.1 m2).isSome = true) →
          ((alookup pr.1 m2).isSome = true ∨ ∃ q2 ∈ pre, q2.1 = pr.1) := by
        intro m2 hkeep hhead
        cases htaken with
        | inl hsome => exact Or.inl (hkeep hsome)
        | inr hex =>
          obtain ⟨q2, hq2, hq2e⟩ := hex
          rw [List.mem_cons] at hq2
          cases hq2 with
          | inl hq2h => exact Or.inl (hhead (hq2h ▸ hq2e))
          | inr hq2t => exact Or.inr ⟨q2, hq2t, hq2e⟩
      rw [regCommands_cons]
      cases hm : alookup q.1 m with
      | some h0 =>
        refine List.mem_cons_of_mem _ (ih m pre pr suf hps' ?_)
        refine htaken' m (fun hh => hh) ?_
        intro hqe
        rw [← hqe, hm]
        rfl
      | none =>
        refine ih (aset q.1 q.2 m) pre pr suf hps' ?_
        refine htaken' (aset q.1 q.2 m) (fun hh => alookup_aset_isSome hh q.1 q.2) ?_
        intro hqe
        rw [← hqe, alookup_aset_self]
        rfl

end AliasConflict

/-- C5 (corrected): Command-alias conflict handling is per alias and
first-registrant-wins: for every alias, the final binding is the existing
one if the alias was already taken, and otherwise the first `(alias, hook)`
registration pair the loading module declares for it; every registration
pair whose alias is already taken — whether by a previously loaded module
or by an earlier hook (or earlier alias occurrence) of the same module —
is skipped with a conflict log entry.  The original claim's "none of the
hook's aliases are (re)registered" is wrong: each alias is decided
independently, so a hook whose first alias conflicts can still win its
other aliases (see the counterexample). -/
theorem alias_conflict_amended (st : PM) (p : Plugin)
    (wf : PMWF st) (pw : PlugWF p) (fr : FreshFor st p)
    (hsucc : ∀ h ∈ p.hooks_on_start, (internalLaunch h 0).1 = true) :
    ∃ out, loadPlugin st p = some out ∧
      (∀ a, alookup a out.st.commands
        = (alookup a st.commands).or (keyAdds a (cmdPairs p)).head?) ∧
      (∀ pre pr suf, cmdPairs p = pre ++ pr :: suf →
        ((alookup pr.1 st.commands).isSome = true ∨ ∃ q ∈ pre, q.1 = pr.1) →
        TEv.logConflict pr.2.plugin_title pr.1 ∈ out.tr) := by
  obtain ⟨E, tr0, hframe, hload⟩ :=
    loadPlugin_success st p wf.queues_empty pw.start_types fr.2.1 hsucc
  refine ⟨_, hload, ?_, ?_⟩
  · intro a
    show alookup a (loadedState E p).commands = _
    rw [show (loadedState E p).commands = (regCommands E.commands (cmdPairs p)).1 from rfl,
      alookup_regCommands, dispatchFrame_commands hframe]
  · intro pre pr suf hps htaken
    show TEv.logConflict pr.2.plugin_title pr.1
      ∈ tr0 ++ (registerPhase
        { E with
            plugins := aset p.file_path (storedPlugin p) E.plugins
            plugin_name_map := aset p.title p.file_path E.plugin_name_map } p).2
    refine List.mem_append_right tr0 ?_
    show TEv.logConflict pr.2.plugin_title pr.1
      ∈ (regCommands E.commands (cmdPairs p)).2
    refine regCommands_logs (cmdPairs p) E.commands pre pr suf hps ?_
    rw [dispatchFrame_commands hframe]
    exact htaken

/-! ## Claim C6 -/

section EmptyEntries

theorem dropFold_nonempty : ∀ (ids : List Nat) (o : Option (List Hook)),
    (∀ l0, o = some l0 → l0 ≠ []) → ∀ l, dropFold o ids = some l → l ≠ [] := by
  intro ids
  induction ids with
  | nil =>
    intro o ho l hl
    exact ho l hl
  | cons i ids ih =>
    intro o ho l hl
    rw [dropFold_cons] at hl
    refine ih _ ?_ l hl
    intro l0 h0
    cases o with
    | none => exact Option.noConfusion h0
    | some l1 =>
      change (if (eraseHook l1 i).isEmpty = true then none
        else some (eraseHook l1 i)) = some l0 at h0
      by_cases he : (eraseHook l1 i).isEmpty
      · rw [if_pos he] at h0
        exact Option.noConfusion h0
      · rw [if_neg he] at h0
        rw [← Option.some.inj h0]
        intro hnil
        exact he (by rw [hnil]; rfl)

theorem mapNonempty_dropPairs {κ : Type _} [DecidableEq κ] {m : List (κ × List Hook)}
    (nd : NodupKeys m) (hne : mapNonempty m) (prs : List (κ × Hook)) :
    mapNonempty (dropPairs m prs) := by
  intro k l hl
  rw [alookup_dropPairs nd] at hl
  exact dropFold_nonempty _ (alookup k m) (fun l0 h0 => hne k l0 h0) l hl

theorem ensuredPost_keys {m m2 : List (String × List Hook)} (h : EnsuredPost m m2) :
    ∀ k ∈ keysOf m, k ∈ keysOf m2 := by
  intro k hk
  cases h with
  | inl h => rw [h]; exact hk
  | inr h =>
    rw [h]
    unfold ddEnsure
    cases hmk : alookup "post" m with
    | some l => exact hk
    | none =>
      rw [aset_append_of_not_mem hmk]
      unfold keysOf
      rw [List.map_append]
      exact List.mem_append_left _ hk

end EmptyEntries

/-- C6 (corrected): Unloading a module removes each of its hooks from
the derived indices; the raw-trigger, event-category and both capability
maps delete a key whose hook list empties, so those four maps never map a
key to an empty list afterwards.  But the permission-check map and the
post-notify table never delete keys at all — every key they held before
the unload is still there afterwards, even if its list is now empty — so
the original claim's "no index retains an empty entry for a key" is
refuted by the counterexample. -/
theorem unload_empty_entries_amended (st : PM) (fp : String) (p : Plugin)
    (wf : PMWF st) (hp : alookup fp st.plugins = some p)
    (hstop : ∀ h ∈ p.hooks_on_stop, h.type = "on_stop") :
    ∃ res, unloadPlugin st fp = some res ∧ res.2.1 = true ∧
      mapNonempty res.1.raw_triggers ∧
      mapNonempty res.1.event_type_hooks ∧
      mapNonempty res.1.cap_hooks_available ∧
      mapNonempty res.1.cap_hooks_ack ∧
      (∀ k ∈ keysOf st.perm_hooks, k ∈ keysOf res.1.perm_hooks) ∧
      (∀ k ∈ keysOf st.hook_hooks, k ∈ keysOf res.1.hook_hooks) := by
  obtain ⟨E2, tr, hframe, hunl⟩ := unloadPlugin_state st fp p hp wf.queues_empty hstop
  refine ⟨_, hunl, rfl, ?_, ?_, ?_, ?_, ?_, ?_⟩
  · show mapNonempty E2.raw_triggers
    rw [dispatchFrame_raw hframe]
    exact mapNonempty_dropPairs wf.ndk_raw wf.ne_raw _
  · show mapNonempty E2.event_type_hooks
    rw [dispatchFrame_event hframe]
    exact mapNonempty_dropPairs wf.ndk_event wf.ne_event _
  · show mapNonempty E2.cap_hooks_available
    rw [dispatchFrame_capA hframe]
    exact mapNonempty_dropPairs wf.ndk_capA wf.ne_capA _
  · show mapNonempty E2.cap_hooks_ack
    rw [dispatchFrame_capK hframe]
    exact mapNonempty_dropPairs wf.ndk_capK wf.ne_capK _
  · intro k hk
    show k ∈ keysOf E2.perm_hooks
    rw [dispatchFrame_perm hframe]
    show k ∈ keysOf (keepPairs st.perm_hooks (permPairs p.hooks_perm_check))
    rw [keysOf_keepPairs]
    exact hk
  · intro k hk
    refine ensuredPost_keys (dispatchFrame_hook hframe) k ?_
    show k ∈ keysOf (keepPairs st.hook_hooks (p.hooks_post_hook.map (fun h => ("post", h))))
    rw [keysOf_keepPairs]
    exact hk

/-! ## Claim C7 -/

section SortedIndices

theorem dropFold_sorted : ∀ (ids : List Nat) (o : Option (List Hook)),
    (∀ l0, o = some l0 → l0.Pairwise hookle) →
    ∀ l, dropFold o ids = some l → l.Pairwise hookle := by
  intro ids
  induction ids with
  | nil =>
    intro o ho l hl
    exact ho l hl
  | cons i ids ih =>
    intro o ho l hl
    rw [dropFold_cons] at hl
    refine ih _ ?_ l hl
    intro l0 h0
    cases o with
    | none => exact Option.noConfusion h0
    | some l1 =>
      change (if (eraseHook l1 i).isEmpty = true then none
        else some (eraseHook l1 i)) = some l0 at h0
      by_cases he : (eraseHook l1 i).isEmpty
      · rw [if_pos he] at h0
        exact Option.noConfusion h0
      · rw [if_neg he] at h0
        rw [← Option.some.inj h0]
        exact (ho l1 rfl).sublist (List.eraseP_sublist l1)

theorem keepFold_cons2 (o : Option (List Hook)) (i : Nat) (ids : List Nat) :
    keepFold o (i :: ids) =
      keepFold
        (match o with
         | none => none
         | some l2 => some (eraseHook l2 i))
        ids := rfl

theorem keepFold_sorted : ∀ (ids : List Nat) (o : Option (List Hook)),
    (∀ l0, o = some l0 → l0.Pairwise hookle) →
    ∀ l, keepFold o ids = some l → l.Pairwise hookle := by
  intro ids
  induction ids with
  | nil =>
    intro o ho l hl
    exact ho l hl
  | cons i ids ih =>
    intro o ho l hl
    rw [keepFold_cons2] at hl
    refine ih _ ?_ l hl
    intro l0 h0
    cases o with
    | none => exact Option.noConfusion h0
    | some l1 =>
      change some (eraseHook l1 i) = some l0 at h0
      rw [← Option.some.inj h0]
      exact (ho l1 rfl).sublist (List.eraseP_sublist l1)

theorem mapSorted_dropPairs {κ : Type _} [DecidableEq κ] {m : List (κ × List Hook)}
    (nd : NodupKeys m) (hs : mapSorted m) (prs : List (κ × Hook)) :
    mapSorted (dropPairs m prs) := by
  intro k l hl
  rw [alookup_dropPairs nd] at hl
  exact dropFold_sorted _ (alookup k m) (fun l0 h0 => hs k l0 h0) l hl

theorem mapSorted_keepPairs {κ : Type _} [DecidableEq κ] {m : List (κ × List Hook)}
    (hs : mapSorted m) (prs : List (κ × Hook)) : mapSorted (keepPairs m prs) := by
  intro k l hl
  rw [alookup_keepPairs] at hl
  exact keepFold_sorted _ (alookup k m) (fun l0 h0 => hs k l0 h0) l hl

theorem getD_map_sortHooks (o : Option (List Hook)) :
    (o.map sortHooks).getD [] = sortHooks (o.getD []) := by
  cases o <;> rfl

theorem stable_map_value {κ : Type _} [DecidableEq κ] {m : List (κ × List Hook)} (k : κ)
    (hsorted : ∀ l, alookup k m = some l → l.Pairwise hookle)
    (prs : List (κ × Hook)) (c : List Hook) (hc : c.Pairwise hookle)
    (hsub : List.Sublist c ((alookup k m).getD [] ++ keyAdds k prs)) :
    List.Sublist c (sortHooks ((alookup k (addPairs m prs)).getD [])) := by
  by_cases hadds : keyAdds k prs = []
  · rw [alookup_addPairs_nil hadds]
    rw [hadds, List.append_nil] at hsub
    cases hm : alookup k m with
    | none =>
      rw [hm] at hsub
      exact hsub
    | some l =>
      rw [hm] at hsub
      show List.Sublist c (sortHooks l)
      rw [sortHooks_of_sorted (hsorted l hm)]
      exact hsub
  · rw [alookup_addPairs_cons hadds]
    exact List.sublist_insertionSort hc hsub

end SortedIndices

/-- C7 (corrected): After a successful load, the execution-order
indices are priority-sorted: the sieve, connect, outbound-filter and
catch-all lists, the regex pair list, and every value list of the
raw-trigger, event-category, permission and post-notify maps.  Equal
priorities keep their relative order (stability: any priority-sorted
selection of the pre-sort material — old index followed by the module's
registrations in declaration order — survives as a subsequence).  The
capability maps, however, are NOT sorted by the load-time sort block:
their value lists are exactly the old list followed by the new
registrations in declaration order, whatever the priorities (the original
claim's "all hook lists consulted in priority order" fails for them, see
the counterexample).  Unloading preserves sortedness of every sorted
index (removal never reorders). -/
theorem indices_sorted_amended (st : PM) (p : Plugin)
    (wf : PMWF st) (pw : PlugWF p) (fr : FreshFor st p)
    (hsucc : ∀ h ∈ p.hooks_on_start, (internalLaunch h 0).1 = true) :
    (∃ out, loadPlugin st p = some out ∧
      out.st.sieves.Pairwise hookle ∧
      out.st.connect_hooks.Pairwise hookle ∧
      out.st.out_sieves.Pairwise hookle ∧
      out.st.catch_all_triggers.Pairwise hookle ∧
      out.st.regex_hooks.Pairwise rxle ∧
      mapSorted out.st.raw_triggers ∧
      mapSorted out.st.event_type_hooks ∧
      mapSorted out.st.perm_hooks ∧
      mapSorted out.st.hook_hooks ∧
      (∀ c : List Hook, c.Pairwise hookle →
        List.Sublist c (st.sieves ++ p.hooks_sieve) → List.Sublist c out.st.sieves) ∧
      (∀ c : List Hook, c.Pairwise hookle →
        List.Sublist c (st.connect_hooks ++ p.hooks_on_connect) →
        List.Sublist c out.st.connect_hooks) ∧
      (∀ c : List Hook, c.Pairwise hookle →
        List.Sublist c (st.out_sieves ++ p.hooks_irc_out) →
        List.Sublist c out.st.out_sieves) ∧
      (∀ c : List Hook, c.Pairwise hookle →
        List.Sublist c (st.catch_all_triggers
          ++ p.hooks_irc_raw.filter (fun h => h.catch_all)) →
        List.Sublist c out.st.catch_all_triggers) ∧
      (∀ c : List (Nat × Hook), c.Pairwise rxle →
        List.Sublist c (st.regex_hooks ++ regexPairs p.hooks_regex) →
        List.Sublist c out.st.regex_hooks) ∧
      (∀ k (c : List Hook), c.Pairwise hookle →
        List.Sublist c ((alookup k st.raw_triggers).getD []
          ++ keyAdds k (rawPairs p.hooks_irc_raw)) →
        List.Sublist c ((alookup k out.st.raw_triggers).getD [])) ∧
      (∀ k (c : List Hook), c.Pairwise hookle →
        List.Sublist c ((alookup k st.event_type_hooks).getD []
          ++ keyAdds k (etypePairs p.hooks_event)) →
        List.Sublist c ((alookup k out.st.event_type_hooks).getD [])) ∧
      (∀ k (c : List Hook), c.Pairwise hookle →
        List.Sublist c ((alookup k st.perm_hooks).getD []
          ++ keyAdds k (permPairs p.hooks_perm_check)) →
        List.Sublist c ((alookup k out.st.perm_hooks).getD [])) ∧
      (∀ k (c : List Hook), c.Pairwise hookle →
        List.Sublist c ((alookup k st.hook_hooks).getD []
          ++ keyAdds k (p.hooks_post_hook.map (fun h => ("post", h)))) →
        List.Sublist c ((alookup k out.st.hook_hooks).getD [])) ∧
      (∀ k, keyAdds k (capPairs p.hooks_on_cap_available) ≠ [] →
        alookup k out.st.cap_hooks_available
          = some ((alookup k st.cap_hooks_available).getD []
            ++ keyAdds k (capPairs p.hooks_on_cap_available))) ∧
      (∀ k, keyAdds k (capPairs p.hooks_on_cap_available) = [] →
        alookup k out.st.cap_hooks_available = alookup k st.cap_hooks_available) ∧
      (∀ k, keyAdds k (capPairs p.hooks_on_cap_ack) ≠ [] →
        alookup k out.st.cap_hooks_ack
          = some ((alookup k st.cap_hooks_ack).getD []
            ++ keyAdds k (capPairs p.hooks_on_cap_ack))) ∧
      (∀ k, keyAdds k (capPairs p.hooks_on_cap_ack) = [] →
        alookup k out.st.cap_hooks_ack = alookup k st.cap_hooks_ack)) ∧
    (∀ fp q res, alookup fp st.plugins = some q →
      (∀ h ∈ q.hooks_on_stop, h.type = "on_stop") →
      unloadPlugin st fp = some res →
      res.1.sieves.Pairwise hookle ∧
      res.1.connect_hooks.Pairwise hookle ∧
      res.1.out_sieves.Pairwise hookle ∧
      res.1.catch_all_triggers.Pairwise hookle ∧
      res.1.regex_hooks.Pairwise rxle ∧
      mapSorted res.1.raw_triggers ∧
      mapSorted res.1.event_type_hooks ∧
      mapSorted res.1.perm_hooks ∧
      mapSorted res.1.hook_hooks) := by
  constructor
  · obtain ⟨E, tr0, hframe, hload⟩ :=
      loadPlugin_success st p wf.queues_empty pw.start_types fr.2.1 hsucc
    refine ⟨_, hload, ?_, ?_, ?_, ?_, ?_, ?_, ?_, ?_, ?_, ?_, ?_, ?_, ?_, ?_, ?_,
      ?_, ?_, ?_, ?_, ?_, ?_, ?_⟩
    · exact List.sorted_insertionSort hookle _
    · exact List.sorted_insertionSort hookle _
    · exact List.sorted_insertionSort hookle _
    · exact List.sorted_insertionSort hookle _
    · exact List.sorted_insertionSort rxle _
    · exact mapSorted_mapSortValues _
    · exact mapSorted_mapSortValues _
    · exact mapSorted_mapSortValues _
    · exact mapSorted_mapSortValues _
    · intro c hc hsub
      show List.Sublist c (sortHooks (sortHooks (E.sieves ++ p.hooks_sieve)))
      rw [dispatchFrame_sieves hframe]
      exact List.sublist_insertionSort hc (List.sublist_insertionSort hc hsub)
    · intro c hc hsub
      show List.Sublist c (sortHooks (sortHooks (E.connect_hooks ++ p.hooks_on_connect)))
      rw [dispatchFrame_connect hframe]
      exact List.sublist_insertionSort hc (List.sublist_insertionSort hc hsub)
    · intro c hc hsub
      show List.Sublist c (sortHooks (E.out_sieves ++ p.hooks_irc_out))
      rw [dispatchFrame_out hframe]
      exact List.sublist_insertionSort hc hsub
    · intro c hc hsub
      show List.Sublist c (sortHooks (E.catch_all_triggers
        ++ p.hooks_irc_raw.filter (fun h => h.catch_all)))
      rw [dispatchFrame_catch hframe]
      exact List.sublist_insertionSort hc hsub
    · intro c hc hsub
      show List.Sublist c (sortRegexes (E.regex_hooks ++ regexPairs p.hooks_regex))
      rw [dispatchFrame_regex hframe]
      exact List.sublist_insertionSort hc hsub
    · intro k c hc hsub
      show List.Sublist c ((alookup k (mapSortValues
        (addPairs E.raw_triggers (rawPairs p.hooks_irc_raw)))).getD [])
      rw [alookup_mapSortValues, getD_map_sortHooks]
      refine stable_map_value k ?_ _ c hc ?_
      · intro l hl
        rw [dispatchFrame_raw hframe] at hl
        exact wf.sorted_raw k l hl
      · rw [dispatchFrame_raw hframe]
        exact hsub
    · intro k c hc hsub
      show List.Sublist c ((alookup k (mapSortValues
        (addPairs E.event_type_hooks (etypePairs p.hooks_event)))).getD [])
      rw [alookup_mapSortValues, getD_map_sortHooks]
      refine stable_map_value k ?_ _ c hc ?_
      · intro l hl
        rw [dispatchFrame_event hframe] at hl
        exact wf.sorted_event k l hl
      · rw [dispatchFrame_event hframe]
        exact hsub
    · intro k c hc hsub
      show List.Sublist c ((alookup k (mapSortValues
        (addPairs E.perm_hooks (permPairs p.hooks_perm_check)))).getD [])
      rw [alookup_mapSortValues, getD_map_sortHooks]
      refine stable_map_value k ?_ _ c hc ?_
      · intro l hl
        rw [dispatchFrame_perm hframe] at hl
        exact wf.sorted_perm k l hl
      · rw [dispatchFrame_perm hframe]
        exact hsub
    · intro k c hc hsub
      show List.Sublist c ((alookup k (mapSortValues
        (addPairs E.hook_hooks (p.hooks_post_hook.map (fun h => ("post", h)))))).getD [])
      rw [alookup_mapSortValues, getD_map_sortHooks]
      refine stable_map_value k ?_ _ c hc ?_
      · intro l hl
        exact ensuredPost_mapSorted (dispatchFrame_hook hframe) wf.sorted_hook k l hl
      · rw [ensuredPost_getD (dispatchFrame_hook hframe)]
        exact hsub
    · intro k hadds
      show alookup k (addPairs E.cap_hooks_available
        (capPairs p.hooks_on_cap_available)) = _
      rw [alookup_addPairs_cons hadds, dispatchFrame_capA hframe]
    · intro k hadds
      show alookup k (addPairs E.cap_hooks_available
        (capPairs p.hooks_on_cap_available)) = _
      rw [alookup_addPairs_nil hadds, dispatchFrame_capA hframe]
    · intro k hadds
      show alookup k (addPairs E.cap_hooks_ack (capPairs p.hooks_on_cap_ack)) = _
      rw [alookup_addPairs_cons hadds, dispatchFrame_capK hframe]
    · intro k hadds
      show alookup k (addPairs E.cap_hooks_ack (capPairs p.hooks_on_cap_ack)) = _
      rw [alookup_addPairs_nil hadds, dispatchFrame_capK hframe]
  · intro fp q res hq hstop hres
    unfold unloadPlugin at hres
    cases hfp : alookup fp st.plugins with
    | none =>
      rw [hq] at hfp
      exact Option.noConfusion hfp
    | some q0 =>
      have hq0 : q0 = q := by
        rw [hq] at hfp
        exact (Option.some.inj hfp).symm
      subst hq0
      rw [hq] at hres
      obtain ⟨E2, tr, hframe, hunl⟩ :=
        unloadPlugin_state st fp q0 hq wf.queues_empty hstop
      unfold unloadPlugin at hunl
      rw [hq] at hunl
      rw [hres] at hunl
      have hval := Option.some.inj hunl
      rw [hval]
      refine ⟨?_, ?_, ?_, ?_, ?_, ?_, ?_, ?_, ?_⟩
      · show E2.sieves.Pairwise hookle
        rw [dispatchFrame_sieves hframe]
        show (eraseHooks st.sieves q0.hooks_sieve).Pairwise hookle
        rw [eraseHooks_eq_eraseAllById]
        exact pairwise_eraseAllById Hook.hid hookle _ _ wf.sorted_sieves
      · show E2.connect_hooks.Pairwise hookle
        rw [dispatchFrame_connect hframe]
        show (eraseHooks st.connect_hooks q0.hooks_on_connect).Pairwise hookle
        rw [eraseHooks_eq_eraseAllById]
        exact pairwise_eraseAllById Hook.hid hookle _ _ wf.sorted_connect
      · show E2.out_sieves.Pairwise hookle
        rw [dispatchFrame_out hframe]
        show (eraseHooks st.out_sieves q0.hooks_irc_out).Pairwise hookle
        rw [eraseHooks_eq_eraseAllById]
        exact pairwise_eraseAllById Hook.hid hookle _ _ wf.sorted_out
      · show E2.catch_all_triggers.Pairwise hookle
        rw [dispatchFrame_catch hframe]
        show (eraseHooks st.catch_all_triggers
          (q0.hooks_irc_raw.filter (fun h => h.catch_all))).Pairwise hookle
        rw [eraseHooks_eq_eraseAllById]
        exact pairwise_eraseAllById Hook.hid hookle _ _ wf.sorted_catch
      · show E2.regex_hooks.Pairwise rxle
        rw [dispatchFrame_regex hframe]
        show (eraseRegexes st.regex_hooks (regexPairs q0.hooks_regex)).Pairwise rxle
        rw [eraseRegexes_eq_eraseAllById]
        exact pairwise_eraseAllById rxId rxle _ _ wf.sorted_regex
      · show mapSorted E2.raw_triggers
        rw [dispatchFrame_raw hframe]
        exact mapSorted_dropPairs wf.ndk_raw wf.sorted_raw _
      · show mapSorted E2.event_type_hooks
        rw [dispatchFrame_event hframe]
        exact mapSorted_dropPairs wf.ndk_event wf.sorted_event _
      · show mapSorted E2.perm_hooks
        rw [dispatchFrame_perm hframe]
        exact mapSorted_keepPairs wf.sorted_perm _
      · show mapSorted E2.hook_hooks
        exact ensuredPost_mapSorted (dispatchFrame_hook hframe)
          (mapSorted_keepPairs wf.sorted_hook _)

/-! ## Claim C10 -/

section UnloadFrame

theorem cmdDropFold_cons (o : Option Hook) (i : Nat) (ids : List Nat) :
    cmdDropFold o (i :: ids) =
      cmdDropFold
        (match o with
         | none => none
         | some h => if h.hid = i then none else some h)
        ids := rfl

theorem cmdDropFold_keep {h : Hook} : ∀ (ids : List Nat),
    (∀ i ∈ ids, h.hid ≠ i) → cmdDropFold (some h) ids = some h := by
  intro ids
  induction ids with
  | nil =>
    intro _
    rfl
  | cons i ids ih =>
    intro hne
    rw [cmdDropFold_cons]
    change cmdDropFold (if h.hid = i then none else some h) ids = some h
    rw [if_neg (hne i (List.mem_cons_self i ids))]
    exact ih (fun j hj => hne j (List.mem_cons_of_mem i hj))

theorem cmdDropFold_none_mem {h : Hook} {ids : List Nat}
    (hnone : cmdDropFold (some h) ids ≠ some h) : h.hid ∈ ids := by
  by_contra hmem
  exact hnone (cmdDropFold_keep ids (fun i hi he => hmem (he ▸ hi)))

theorem dropFold_filter (q : Hook → Bool) : ∀ (ids : List Nat) (l : List Hook),
    (∀ a : Hook, a.hid ∈ ids → q a = false) →
    ((dropFold (some l) ids).getD []).filter q = l.filter q := by
  intro ids
  induction ids with
  | nil =>
    intro l _
    rfl
  | cons i ids ih =>
    intro l hq
    rw [dropFold_some_cons]
    have hfe : (eraseHook l i).filter q = l.filter q :=
      filter_eraseP _ q
        (fun a ha => hq a (by
          rw [of_decide_eq_true ha]
          exact List.mem_cons_self i ids)) l
    by_cases he : (eraseHook l i).isEmpty
    · rw [if_pos he, dropFold_none]
      show [].filter q = l.filter q
      rw [← hfe, List.isEmpty_iff.mp he]
    · rw [if_neg he, ih (eraseHook l i) (fun a ha => hq a (List.mem_cons_of_mem i ha)), hfe]

theorem keepFold_filter (q : Hook → Bool) : ∀ (ids : List Nat) (l : List Hook),
    (∀ a : Hook, a.hid ∈ ids → q a = false) →
    ((keepFold (some l) ids).getD []).filter q = l.filter q := by
  intro ids
  induction ids with
  | nil =>
    intro l _
    rfl
  | cons i ids ih =>
    intro l hq
    rw [keepFold_cons2]
    change ((keepFold (some (eraseHook l i)) ids).getD []).filter q = l.filter q
    rw [ih (eraseHook l i) (fun a ha => hq a (List.mem_cons_of_mem i ha))]
    exact filter_eraseP _ q
      (fun a ha => hq a (by
        rw [of_decide_eq_true ha]
        exact List.mem_cons_self i ids)) l

theorem keyAdds_keyPairs_mem {κ : Type _} [DecidableEq κ] {keyf : Hook → List κ}
    {hs : List Hook} {k : κ} {n : Hook} (h : n ∈ keyAdds k (keyPairs keyf hs)) :
    n ∈ hs := (keyPairs_mem (keyAdds_mem_pairs h)).1

end UnloadFrame

/-- C10: `unload_plugin` removes exactly the target module's hooks:
every hook whose identity is not one of the module's survives in place —
each plain list and each map entry keeps its foreign hooks in order
(stated as: filtering out the module's identities commutes with the
unload), and a command alias is deleted only when it currently maps to one
of the module's own hooks (an alias the module lost to an earlier
registrant is left untouched). -/
theorem unload_frame (st : PM) (fp : String) (p : Plugin)
    (wf : PMWF st) (hp : alookup fp st.plugins = some p)
    (hstop : ∀ h ∈ p.hooks_on_stop, h.type = "on_stop") :
    ∃ res, unloadPlugin st fp = some res ∧ res.2.1 = true ∧
      (∀ a hk, alookup a st.commands = some hk → hk.hid ∉ pluginHids p →
        alookup a res.1.commands = some hk) ∧
      (∀ a hk, alookup a st.commands = some hk → alookup a res.1.commands ≠ some hk →
        hk.hid ∈ pluginHids p) ∧
      res.1.sieves.filter (fun h => decide (h.hid ∉ pluginHids p))
        = st.sieves.filter (fun h => decide (h.hid ∉ pluginHids p)) ∧
      res.1.connect_hooks.filter (fun h => decide (h.hid ∉ pluginHids p))
        = st.connect_hooks.filter (fun h => decide (h.hid ∉ pluginHids p)) ∧
      res.1.out_sieves.filter (fun h => decide (h.hid ∉ pluginHids p))
        = st.out_sieves.filter (fun h => decide (h.hid ∉ pluginHids p)) ∧
      res.1.catch_all_triggers.filter (fun h => decide (h.hid ∉ pluginHids p))
        = st.catch_all_triggers.filter (fun h => decide (h.hid ∉ pluginHids p)) ∧
      res.1.regex_hooks.filter (fun pr => decide (pr.2.hid ∉ pluginHids p))
        = st.regex_hooks.filter (fun pr => decide (pr.2.hid ∉ pluginHids p)) ∧
      (∀ k, ((alookup k res.1.raw_triggers).getD []).filter
          (fun h => decide (h.hid ∉ pluginHids p))
        = ((alookup k st.raw_triggers).getD []).filter
          (fun h => decide (h.hid ∉ pluginHids p))) ∧
      (∀ k, ((alookup k res.1.event_type_hooks).getD []).filter
          (fun h => decide (h.hid ∉ pluginHids p))
        = ((alookup k st.event_type_hooks).getD []).filter
          (fun h => decide (h.hid ∉ pluginHids p))) ∧
      (∀ k, ((alookup k res.1.cap_hooks_available).getD []).filter
          (fun h => decide (h.hid ∉ pluginHids p))
        = ((alookup k st.cap_hooks_available).getD []).filter
          (fun h => decide (h.hid ∉ pluginHids p))) ∧
      (∀ k, ((alookup k res.1.cap_hooks_ack).getD []).filter
          (fun h => decide (h.hid ∉ pluginHids p))
        = ((alookup k st.cap_hooks_ack).getD []).filter
          (fun h => decide (h.hid ∉ pluginHids p))) ∧
      (∀ k, ((alookup k res.1.perm_hooks).getD []).filter
          (fun h => decide (h.hid ∉ pluginHids p))
        = ((alookup k st.perm_hooks).getD []).filter
          (fun h => decide (h.hid ∉ pluginHids p))) ∧
      (∀ k, ((alookup k res.1.hook_hooks).getD []).filter
          (fun h => decide (h.hid ∉ pluginHids p))
        = ((alookup k st.hook_hooks).getD []).filter
          (fun h => decide (h.hid ∉ pluginHids p))) := by
  obtain ⟨E2, tr, hframe, hunl⟩ := unloadPlugin_state st fp p hp wf.queues_empty hstop
  have hcmdids : ∀ (a : String) (i : Nat),
      i ∈ (keyAdds a (cmdPairs p)).map Hook.hid → i ∈ pluginHids p := by
    intro a i hi
    rw [List.mem_map] at hi
    obtain ⟨n, hn, hneq⟩ := hi
    rw [← hneq]
    unfold cmdPairs at hn
    exact mem_pluginHids p ((mem_pluginHooks_iff p n).mpr
      (Or.inr (Or.inr (Or.inr (Or.inr (Or.inr (Or.inl (keyAdds_keyPairs_mem hn))))))))
  have hcmd : ∀ a hk, alookup a st.commands = some hk → hk.hid ∉ pluginHids p →
      alookup a E2.commands = some hk := by
    intro a hk hahk hnot
    rw [dispatchFrame_commands hframe]
    show alookup a (unregCommands st.commands (cmdPairs p)) = some hk
    rw [alookup_unregCommands wf.ndk_commands, hahk]
    exact cmdDropFold_keep _ (fun i hi he => hnot (he ▸ hcmdids a i hi))
  refine ⟨_, hunl, rfl, hcmd, ?_, ?_, ?_, ?_, ?_, ?_, ?_, ?_, ?_, ?_, ?_, ?_⟩
  · intro a hk hahk hne
    by_contra hnin
    exact hne (hcmd a hk hahk hnin)
  · show E2.sieves.filter _ = _
    rw [dispatchFrame_sieves hframe]
    show (eraseHooks st.sieves p.hooks_sieve).filter _ = _
    rw [eraseHooks_eq_eraseAllById]
    refine filter_eraseAllById Hook.hid _ p.hooks_sieve st.sieves ?_
    intro a ha
    obtain ⟨n, hn, he⟩ := ha
    refine decide_eq_false (fun hcontra => hcontra ?_)
    rw [he]
    exact mem_pluginHids p ((mem_pluginHooks_iff p n).mpr
      (Or.inr (Or.inr (Or.inr (Or.inr (Or.inr (Or.inr (Or.inr (Or.inr (Or.inr
        (Or.inl hn)))))))))))
  · show E2.connect_hooks.filter _ = _
    rw [dispatchFrame_connect hframe]
    show (eraseHooks st.connect_hooks p.hooks_on_connect).filter _ = _
    rw [eraseHooks_eq_eraseAllById]
    refine filter_eraseAllById Hook.hid _ p.hooks_on_connect st.connect_hooks ?_
    intro a ha
    obtain ⟨n, hn, he⟩ := ha
    refine decide_eq_false (fun hcontra => hcontra ?_)
    rw [he]
    exact mem_pluginHids p ((mem_pluginHooks_iff p n).mpr
      (Or.inr (Or.inr (Or.inr (Or.inr (Or.inr (Or.inr (Or.inr (Or.inr (Or.inr
        (Or.inr (Or.inl hn))))))))))))
  · show E2.out_sieves.filter _ = _
    rw [dispatchFrame_out hframe]
    show (eraseHooks st.out_sieves p.hooks_irc_out).filter _ = _
    rw [eraseHooks_eq_eraseAllById]
    refine filter_eraseAllById Hook.hid _ p.hooks_irc_out st.out_sieves ?_
    intro a ha
    obtain ⟨n, hn, he⟩ := ha
    refine decide_eq_false (fun hcontra => hcontra ?_)
    rw [he]
    exact mem_pluginHids p ((mem_pluginHooks_iff p n).mpr
      (Or.inr (Or.inr (Or.inr (Or.inr (Or.inr (Or.inr (Or.inr (Or.inr (Or.inr
        (Or.inr (Or.inr (Or.inl hn)))))))))))))
  · show E2.catch_all_triggers.filter _ = _
    rw [dispatchFrame_catch hframe]
    show (eraseHooks st.catch_all_triggers
      (p.hooks_irc_raw.filter (fun h => h.catch_all))).filter _ = _
    rw [eraseHooks_eq_eraseAllById]
    refine filter_eraseAllById Hook.hid _ _ st.catch_all_triggers ?_
    intro a ha
    obtain ⟨n, hn, he⟩ := ha
    refine decide_eq_false (fun hcontra => hcontra ?_)
    rw [he]
    exact mem_pluginHids p ((mem_pluginHooks_iff p n).mpr
      (Or.inr (Or.inr (Or.inr (Or.inr (Or.inr (Or.inr (Or.inl
        (List.mem_of_mem_filter hn)))))))))
  · show E2.regex_hooks.filter _ = _
    rw [dispatchFrame_regex hframe]
    show (eraseRegexes st.regex_hooks (regexPairs p.hooks_regex)).filter _ = _
    rw [eraseRegexes_eq_eraseAllById]
    refine filter_eraseAllById rxId _ _ st.regex_hooks ?_
    intro a ha
    obtain ⟨n, hn, he⟩ := ha
    refine decide_eq_false (fun hcontra => hcontra ?_)
    have h2 : a.2.hid = n.2.hid := congrArg Prod.snd he
    rw [h2]
    exact mem_pluginHids p ((mem_pluginHooks_iff p n.2).mpr
      (Or.inr (Or.inr (Or.inr (Or.inr (Or.inr (Or.inr (Or.inr (Or.inr
        (Or.inl (regexPairs_mem hn).1))))))))))
  · intro k
    show ((alookup k E2.raw_triggers).getD []).filter _ = _
    rw [dispatchFrame_raw hframe]
    show ((alookup k (dropPairs st.raw_triggers (rawPairs p.hooks_irc_raw))).getD []).filter _
      = _
    rw [alookup_dropPairs wf.ndk_raw]
    cases hm : alookup k st.raw_triggers with
    | none => rw [dropFold_none]
    | some l =>
      refine dropFold_filter _ _ l ?_
      intro a ha
      refine decide_eq_false (fun hcontra => hcontra ?_)
      rw [List.mem_map] at ha
      obtain ⟨n, hn, hneq⟩ := ha
      rw [← hneq]
      unfold rawPairs at hn
      exact mem_pluginHids p ((mem_pluginHooks_iff p n).mpr
        (Or.inr (Or.inr (Or.inr (Or.inr (Or.inr (Or.inr (Or.inl
          (List.mem_of_mem_filter (keyAdds_keyPairs_mem hn))))))))))
  · intro k
    show ((alookup k E2.event_type_hooks).getD []).filter _ = _
    rw [dispatchFrame_event hframe]
    show ((alookup k (dropPairs st.event_type_hooks
      (etypePairs p.hooks_event))).getD []).filter _ = _
    rw [alookup_dropPairs wf.ndk_event]
    cases hm : alookup k st.event_type_hooks with
    | none => rw [dropFold_none]
    | some l =>
      refine dropFold_filter _ _ l ?_
      intro a ha
      refine decide_eq_false (fun hcontra => hcontra ?_)
      rw [List.mem_map] at ha
      obtain ⟨n, hn, hneq⟩ := ha
      rw [← hneq]
      unfold etypePairs at hn
      exact mem_pluginHids p ((mem_pluginHooks_iff p n).mpr
        (Or.inr (Or.inr (Or.inr (Or.inr (Or.inr (Or.inr (Or.inr (Or.inl
          (keyAdds_keyPairs_mem hn))))))))))
  · intro k
    show ((alookup k E2.cap_hooks_available).getD []).filter _ = _
    rw [dispatchFrame_capA hframe]
    show ((alookup k (dropPairs st.cap_hooks_available
      (capPairs p.hooks_on_cap_available))).getD []).filter _ = _
    rw [alookup_dropPairs wf.ndk_capA]
    cases hm : alookup k st.cap_hooks_available with
    | none => rw [dropFold_none]
    | some l =>
      refine dropFold_filter _ _ l ?_
      intro a ha
      refine decide_eq_false (fun hcontra => hcontra ?_)
      rw [List.mem_map] at ha
      obtain ⟨n, hn, hneq⟩ := ha
      rw [← hneq]
      unfold capPairs at hn
      exact mem_pluginHids p ((mem_pluginHooks_iff p n).mpr
        (Or.inr (Or.inr (Or.inr (Or.inl (keyAdds_keyPairs_mem hn))))))
  · intro k
    show ((alookup k E2.cap_hooks_ack).getD []).filter _ = _
    rw [dispatchFrame_capK hframe]
    show ((alookup k (dropPairs st.cap_hooks_ack
      (capPairs p.hooks_on_cap_ack))).getD []).filter _ = _
    rw [alookup_dropPairs wf.ndk_capK]
    cases hm : alookup k st.cap_hooks_ack with
    | none => rw [dropFold_none]
    | some l =>
      refine dropFold_filter _ _ l ?_
      intro a ha
      refine decide_eq_false (fun hcontra => hcontra ?_)
      rw [List.mem_map] at ha
      obtain ⟨n, hn, hneq⟩ := ha
      rw [← hneq]
      unfold capPairs at hn
      exact mem_pluginHids p ((mem_pluginHooks_iff p n).mpr
        (Or.inr (Or.inr (Or.inr (Or.inr (Or.inl (keyAdds_keyPairs_mem hn)))))))
  · intro k
    show ((alookup k E2.perm_hooks).getD []).filter _ = _
    rw [dispatchFrame_perm hframe]
    show ((alookup k (keepPairs st.perm_hooks
      (permPairs p.hooks_perm_check))).getD []).filter _ = _
    rw [alookup_keepPairs]
    cases hm : alookup k st.perm_hooks with
    | none => rw [keepFold_none]
    | some l =>
      refine keepFold_filter _ _ l ?_
      intro a ha
      refine decide_eq_false (fun hcontra => hcontra ?_)
      rw [List.mem_map] at ha
      obtain ⟨n, hn, hneq⟩ := ha
      rw [← hneq]
      unfold permPairs at hn
      exact mem_pluginHids p ((mem_pluginHooks_iff p n).mpr
        (Or.inr (Or.inr (Or.inr (Or.inr (Or.inr (Or.inr (Or.inr (Or.inr (Or.inr
          (Or.inr (Or.inr (Or.inr (Or.inr (keyAdds_keyPairs_mem hn)))))))))))))))
  · intro k
    show ((alookup k E2.hook_hooks).getD []).filter _ = _
    rw [ensuredPost_getD (dispatchFrame_hook hframe) k]
    show ((alookup k (keepPairs st.hook_hooks
      (p.hooks_post_hook.map (fun h => ("post", h))))).getD []).filter _ = _
    rw [alookup_keepPairs]
    cases hm : alookup k st.hook_hooks with
    | none => rw [keepFold_none]
    | some l =>
      refine keepFold_filter _ _ l ?_
      intro a ha
      refine decide_eq_false (fun hcontra => hcontra ?_)
      rw [List.mem_map] at ha
      obtain ⟨n, hn, hneq⟩ := ha
      rw [← hneq]
      rw [postPairs_eq] at hn
      exact mem_pluginHids p ((mem_pluginHooks_iff p n).mpr
        (Or.inr (Or.inr (Or.inr (Or.inr (Or.inr (Or.inr (Or.inr (Or.inr (Or.inr
          (Or.inr (Or.inr (Or.inr (Or.inl (keyAdds_keyPairs_mem hn)))))))))))))))

/-! ## Claim C8: the serialization queue -/

section SerQueue

theorem wake_cons (tok : Nat) (u : TaskT) (ts : List TaskT) :
    wake (some tok) (u :: ts)
      = (if u.phase = Phase.waiting tok then { u with phase := Phase.running } else u)
        :: wake (some tok) ts := rfl

theorem runCount_cons (k : SKey) (u : TaskT) (ts : List TaskT) :
    runCount k (u :: ts) = runCount k ts
      + (if u.key = k ∧ u.phase = Phase.running then 1 else 0) := by
  unfold runCount
  rw [List.countP_cons]
  by_cases h : u.key = k ∧ u.phase = Phase.running
  · simp [h]
  · simp [h]

theorem waitToks_cons (k : SKey) (u : TaskT) (ts : List TaskT) :
    waitToks k (u :: ts)
      = (match u.phase with
         | Phase.waiting tok => if u.key = k then [tok] else []
         | _ => []) ++ waitToks k ts := by
  unfold waitToks
  rw [List.filterMap_cons]
  cases hph : u.phase with
  | waiting tok =>
    by_cases hk : u.key = k
    · simp [hk]
    · simp [hk]
  | ready => rfl
  | running => rfl
  | done => rfl

theorem allToks_cons (u : TaskT) (ts : List TaskT) :
    allToks (u :: ts)
      = (match u.phase with
         | Phase.waiting tok => [tok]
         | _ => []) ++ allToks ts := by
  unfold allToks
  rw [List.filterMap_cons]
  cases hph : u.phase with
  | waiting tok => rfl
  | ready => rfl
  | running => rfl
  | done => rfl

theorem runCount_append (k : SKey) (l1 l2 : List TaskT) :
    runCount k (l1 ++ l2) = runCount k l1 + runCount k l2 := by
  unfold runCount
  exact List.countP_append _ _ _

theorem waitToks_append (k : SKey) (l1 l2 : List TaskT) :
    waitToks k (l1 ++ l2) = waitToks k l1 ++ waitToks k l2 := by
  unfold waitToks
  exact List.filterMap_append _ _ _

theorem allToks_append (l1 l2 : List TaskT) :
    allToks (l1 ++ l2) = allToks l1 ++ allToks l2 := by
  unfold allToks
  exact List.filterMap_append _ _ _

theorem runCount_wake (k : SKey) (tok : Nat) : ∀ ts : List TaskT,
    runCount k (wake (some tok) ts)
      = runCount k ts + (waitToks k ts).count tok := by
  intro ts
  induction ts with
  | nil => rfl
  | cons u ts ih =>
    rw [wake_cons, runCount_cons, runCount_cons, waitToks_cons, ih, List.count_append]
    cases hph : u.phase with
    | waiting tok2 =>
      by_cases ht : tok2 = tok
      · subst ht
        rw [if_pos rfl]
        by_cases hk : u.key = k
        · simp [hph, hk] <;> omega
        · simp [hph, hk] <;> omega
      · rw [if_neg (fun hh => ht (Phase.waiting.inj hh))]
        by_cases hk : u.key = k
        · simp [hph, hk, ht, List.count_cons] <;> omega
        · simp [hph, hk] <;> omega
    | ready =>
      rw [if_neg (fun hh => Phase.noConfusion hh)]
      simp [hph] <;> omega
    | running =>
      rw [if_neg (fun hh => Phase.noConfusion hh)]
      simp [hph] <;> omega
    | done =>
      rw [if_neg (fun hh => Phase.noConfusion hh)]
      simp [hph] <;> omega

theorem wake_none (ts : List TaskT) : wake none ts = ts := rfl

theorem waitToks_wake (k : SKey) (tok : Nat) : ∀ ts : List TaskT,
    waitToks k (wake (some tok) ts)
      = (waitToks k ts).filter (fun x => decide (x ≠ tok)) := by
  intro ts
  induction ts with
  | nil => rfl
  | cons u ts ih =>
    rw [wake_cons, waitToks_cons, waitToks_cons, ih, List.filter_append]
    cases hph : u.phase with
    | waiting tok2 =>
      by_cases ht : tok2 = tok
      · subst ht
        rw [if_pos rfl]
        by_cases hk : u.key = k
        · simp [hph, hk]
        · simp [hph, hk]
      · rw [if_neg (fun hh => ht (Phase.waiting.inj hh))]
        by_cases hk : u.key = k
        · simp [hph, hk, ht]
        · simp [hph, hk]
    | ready =>
      rw [if_neg (fun hh => Phase.noConfusion hh)]
      simp [hph]
    | running =>
      rw [if_neg (fun hh => Phase.noConfusion hh)]
      simp [hph]
    | done =>
      rw [if_neg (fun hh => Phase.noConfusion hh)]
      simp [hph]

theorem allToks_wake (tok : Nat) : ∀ ts : List TaskT,
    allToks (wake (some tok) ts)
      = (allToks ts).filter (fun x => decide (x ≠ tok)) := by
  intro ts
  induction ts with
  | nil => rfl
  | cons u ts ih =>
    rw [wake_cons, allToks_cons, allToks_cons, ih, List.filter_append]
    cases hph : u.phase with
    | waiting tok2 =>
      by_cases ht : tok2 = tok
      · subst ht
        rw [if_pos rfl]
        simp [hph]
      · rw [if_neg (fun hh => ht (Phase.waiting.inj hh))]
        simp [hph, ht]
    | ready =>
      rw [if_neg (fun hh => Phase.noConfusion hh)]
      simp [hph]
    | running =>
      rw [if_neg (fun hh => Phase.noConfusion hh)]
      simp [hph]
    | done =>
      rw [if_neg (fun hh => Phase.noConfusion hh)]
      simp [hph]

theorem waitToks_sublist_allToks (k : SKey) : ∀ ts : List TaskT,
    List.Sublist (waitToks k ts) (allToks ts) := by
  intro ts
  induction ts with
  | nil => exact List.Sublist.refl _
  | cons u ts ih =>
    rw [waitToks_cons, allToks_cons]
    cases hph : u.phase with
    | waiting tok =>
      show ((if u.key = k then [tok] else []) ++ waitToks k ts).Sublist ([tok] ++ allToks ts)
      by_cases hk : u.key = k
      · rw [if_pos hk]
        exact ih.cons₂ tok
      · rw [if_neg hk]
        exact ih.cons tok
    | ready => exact ih
    | running => exact ih
    | done => exact ih

theorem waitToks_disjoint {k k2 : SKey} {t : Nat} (hne : k2 ≠ k) :
    ∀ ts : List TaskT, (allToks ts).Nodup →
      t ∈ waitToks k ts → t ∉ waitToks k2 ts := by
  intro ts
  induction ts with
  | nil =>
    intro _ hmem
    cases hmem
  | cons u ts ih =>
    intro hnd hmem hmem2
    rw [allToks_cons] at hnd
    rw [waitToks_cons] at hmem hmem2
    cases hph : u.phase with
    | waiting tok =>
      simp only [hph] at hnd hmem hmem2
      rw [List.nodup_append] at hnd
      have htokfresh : tok ∉ allToks ts :=
        fun hh => hnd.2.2 (List.mem_singleton_self tok) hh
      by_cases hk : u.key = k
      · rw [if_pos hk] at hmem
        have hk2 : ¬ u.key = k2 := fun hh => hne (by rw [← hh, hk])
        rw [if_neg hk2, List.nil_append] at hmem2
        rw [List.mem_append] at hmem
        cases hmem with
        | inl hl =>
          rw [List.mem_singleton] at hl
          subst hl
          exact htokfresh ((waitToks_sublist_allToks k2 ts).subset hmem2)
        | inr hr => exact ih hnd.2.1 hr hmem2
      · rw [if_neg hk, List.nil_append] at hmem
        by_cases hk2 : u.key = k2
        · rw [if_pos hk2] at hmem2
          rw [List.mem_append] at hmem2
          cases hmem2 with
          | inl hl =>
            rw [List.mem_singleton] at hl
            subst hl
            exact htokfresh ((waitToks_sublist_allToks k ts).subset hmem)
          | inr hr => exact ih hnd.2.1 hmem hr
        · rw [if_neg hk2, List.nil_append] at hmem2
          exact ih hnd.2.1 hmem hmem2
    | ready =>
      simp only [hph] at hnd hmem hmem2
      rw [List.nil_append] at hmem hmem2
      rw [List.nil_append] at hnd
      exact ih hnd hmem hmem2
    | running =>
      simp only [hph] at hnd hmem hmem2
      rw [List.nil_append] at hmem hmem2
      rw [List.nil_append] at hnd
      exact ih hnd hmem hmem2
    | done =>
      simp only [hph] at hnd hmem hmem2
      rw [List.nil_append] at hmem hmem2
      rw [List.nil_append] at hnd
      exact ih hnd hmem hmem2

theorem filter_ne_of_not_mem {t : Nat} {l : List Nat} (h : t ∉ l) :
    l.filter (fun x => decide (x ≠ t)) = l :=
  List.filter_eq_self.mpr (fun a ha => decide_eq_true (fun he => h (he ▸ ha)))

theorem keyInv_none {s : Sys} {k : SKey} (h : alookup k s.queues = none) :
    KeyInv s k ↔ (runCount k s.tasks = 0 ∧ waitToks k s.tasks = []) := by
  unfold KeyInv
  rw [h]

theorem keyInv_marker {s : Sys} {k : SKey} (h : alookup k s.queues = some none) :
    KeyInv s k ↔ (runCount k s.tasks = 1 ∧ waitToks k s.tasks = []) := by
  unfold KeyInv
  rw [h]

theorem keyInv_queue {s : Sys} {k : SKey} {q0 : List Nat}
    (h : alookup k s.queues = some (some q0)) :
    KeyInv s k ↔ (runCount k s.tasks = 1 ∧ q0.Perm (waitToks k s.tasks)
      ∧ q0.Pairwise (· < ·)) := by
  unfold KeyInv
  rw [h]

theorem runCount_mid_ready (k2 k : SKey) (pre post : List TaskT) :
    runCount k2 (pre ++ (⟨k, Phase.ready⟩ : TaskT) :: post)
      = runCount k2 pre + runCount k2 post := by
  rw [runCount_append, runCount_cons]
  simp

theorem runCount_mid_done (k2 k : SKey) (pre post : List TaskT) :
    runCount k2 (pre ++ (⟨k, Phase.done⟩ : TaskT) :: post)
      = runCount k2 pre + runCount k2 post := by
  rw [runCount_append, runCount_cons]
  simp

theorem runCount_mid_wait (k2 k : SKey) (n : Nat) (pre post : List TaskT) :
    runCount k2 (pre ++ (⟨k, Phase.waiting n⟩ : TaskT) :: post)
      = runCount k2 pre + runCount k2 post := by
  rw [runCount_append, runCount_cons]
  simp

theorem runCount_mid_run (k2 k : SKey) (pre post : List TaskT) :
    runCount k2 (pre ++ (⟨k, Phase.running⟩ : TaskT) :: post)
      = runCount k2 pre + runCount k2 post + (if k = k2 then 1 else 0) := by
  rw [runCount_append, runCount_cons]
  by_cases hk : k = k2
  · simp [hk] <;> omega
  · simp [hk] <;> omega

theorem waitToks_mid_ready (k2 k : SKey) (pre post : List TaskT) :
    waitToks k2 (pre ++ (⟨k, Phase.ready⟩ : TaskT) :: post)
      = waitToks k2 pre ++ waitToks k2 post := by
  rw [waitToks_append, waitToks_cons]
  rfl

theorem waitToks_mid_done (k2 k : SKey) (pre post : List TaskT) :
    waitToks k2 (pre ++ (⟨k, Phase.done⟩ : TaskT) :: post)
      = waitToks k2 pre ++ waitToks k2 post := by
  rw [waitToks_append, waitToks_cons]
  rfl

theorem waitToks_mid_run (k2 k : SKey) (pre post : List TaskT) :
    waitToks k2 (pre ++ (⟨k, Phase.running⟩ : TaskT) :: post)
      = waitToks k2 pre ++ waitToks k2 post := by
  rw [waitToks_append, waitToks_cons]
  rfl

theorem waitToks_mid_wait (k2 k : SKey) (n : Nat) (pre post : List TaskT) :
    waitToks k2 (pre ++ (⟨k, Phase.waiting n⟩ : TaskT) :: post)
      = waitToks k2 pre ++ ((if k = k2 then [n] else []) ++ waitToks k2 post) := by
  rw [waitToks_append, waitToks_cons]

theorem allToks_mid_ready (k : SKey) (pre post : List TaskT) :
    allToks (pre ++ (⟨k, Phase.ready⟩ : TaskT) :: post) = allToks pre ++ allToks post := by
  rw [allToks_append, allToks_cons]
  rfl

theorem allToks_mid_done (k : SKey) (pre post : List TaskT) :
    allToks (pre ++ (⟨k, Phase.done⟩ : TaskT) :: post) = allToks pre ++ allToks post := by
  rw [allToks_append, allToks_cons]
  rfl

theorem allToks_mid_run (k : SKey) (pre post : List TaskT) :
    allToks (pre ++ (⟨k, Phase.running⟩ : TaskT) :: post) = allToks pre ++ allToks post := by
  rw [allToks_append, allToks_cons]
  rfl

theorem allToks_mid_wait (k : SKey) (n : Nat) (pre post : List TaskT) :
    allToks (pre ++ (⟨k, Phase.waiting n⟩ : TaskT) :: post)
      = allToks pre ++ ([n] ++ allToks post) := by
  rw [allToks_append, allToks_cons]

theorem keyInv_congr {s s2 : Sys} (k : SKey)
    (hq : alookup k s2.queues = alookup k s.queues)
    (hrc : runCount k s2.tasks = runCount k s.tasks)
    (hwt : waitToks k s2.tasks = waitToks k s.tasks)
    (h : KeyInv s k) : KeyInv s2 k := by
  unfold KeyInv at h ⊢
  rw [hq]
  cases hl : alookup k s.queues with
  | none =>
    rw [hl] at h
    exact ⟨by rw [hrc]; exact h.1, by rw [hwt]; exact h.2⟩
  | some o =>
    rw [hl] at h
    cases o with
    | none => exact ⟨by rw [hrc]; exact h.1, by rw [hwt]; exact h.2⟩
    | some q0 =>
      exact ⟨by rw [hrc]; exact h.1, by rw [hwt]; exact h.2.1, h.2.2⟩

end SerQueue

/-- C8: The serialization queue of `launch` behaves as specified: on
admission, an absent key is claimed with the running marker (`None`) and
the dispatch proceeds immediately; a present key makes the dispatch
enqueue a fresh waiter token and suspend (converting a marker into a
one-element queue).  On release, a marker or empty queue deletes the key;
a non-empty queue dequeues its head token FIFO and wakes exactly that
waiter, keeping the entry.  Consequently, under the interleaving
semantics `SStep`, the system invariant is preserved: per key, at most one
dispatch runs at a time, the key is present in the dict exactly while
dispatches are running or queued, and the queue lists the waiter tokens in
FIFO arrival order. -/
theorem serialization_state_machine :
    (∀ (m : List (SKey × Option (List Nat))) (k : SKey) (tok : Nat),
        alookup k m = none → serAcquire m k tok = (aset k none m, true)) ∧
    (∀ (m : List (SKey × Option (List Nat))) (k : SKey) (tok : Nat),
        alookup k m = some none →
        serAcquire m k tok = (aset k (some [tok]) m, false)) ∧
    (∀ (m : List (SKey × Option (List Nat))) (k : SKey) (tok : Nat) (q0 : List Nat),
        alookup k m = some (some q0) →
        serAcquire m k tok = (aset k (some (q0 ++ [tok])) m, false)) ∧
    (∀ (m : List (SKey × Option (List Nat))) (k : SKey),
        alookup k m = some none → serRelease m k = (adel k m, none)) ∧
    (∀ (m : List (SKey × Option (List Nat))) (k : SKey),
        alookup k m = some (some []) → serRelease m k = (adel k m, none)) ∧
    (∀ (m : List (SKey × Option (List Nat))) (k : SKey) (t : Nat) (ts : List Nat),
        alookup k m = some (some (t :: ts)) →
        serRelease m k = (aset k (some ts) m, some t)) ∧
    (∀ s s2 : Sys, SysInv s → SStep s s2 → SysInv s2) := by
  refine ⟨?_, ?_, ?_, ?_, ?_, ?_, ?_⟩
  · intro m k tok h
    unfold serAcquire
    rw [h]
  · intro m k tok h
    unfold serAcquire
    rw [h]
  · intro m k tok q0 h
    unfold serAcquire
    rw [h]
  · intro m k h
    unfold serRelease
    rw [h]
  · intro m k h
    unfold serRelease
    rw [h]
  · intro m k t ts h
    unfold serRelease
    rw [h]
  · intro s s2 hinv hstep
    obtain ⟨hkey, htok, hnodup, hndq⟩ := hinv
    cases hstep with
    | start q n pre post k =>
      rw [allToks_mid_ready] at hnodup
      cases hq : alookup k q with
      | none =>
        have h0 := (@keyInv_none ⟨q, pre ++ (⟨k, Phase.ready⟩ : TaskT) :: post, n⟩ _ hq).mp (hkey k)
        obtain ⟨h01, h02⟩ := h0
        rw [runCount_mid_ready] at h01
        rw [waitToks_mid_ready] at h02
        obtain ⟨hw1, hw2⟩ := List.append_eq_nil.mp h02
        have hsr : startResult q n pre post k
            = ⟨aset k none q, pre ++ (⟨k, Phase.running⟩ : TaskT) :: post, n + 1⟩ := by
          unfold startResult
          rw [show serAcquire q k n = (aset k none q, true) from by
            unfold serAcquire; rw [hq]]
          rfl
        rw [hsr]
        refine ⟨?_, ?_, ?_, nodupKeys_aset hndq k none⟩
        · intro k2
          by_cases hk2 : k2 = k
          · subst hk2
            refine (@keyInv_marker ⟨aset k2 none q, pre ++ (⟨k2, Phase.running⟩ : TaskT) :: post, n + 1⟩ _
              (alookup_aset_self k2 none q)).mpr ⟨?_, ?_⟩
            · rw [runCount_mid_run, if_pos rfl]
              omega
            · rw [waitToks_mid_run, hw1, hw2]
              rfl
          · refine keyInv_congr k2 (alookup_aset_ne hk2 none q) ?_ ?_ (hkey k2)
            · rw [runCount_mid_run, runCount_mid_ready, if_neg (fun hh => hk2 hh.symm)]
              omega
            · rw [waitToks_mid_run, waitToks_mid_ready]
        · intro t ht
          rw [allToks_mid_run] at ht
          show t < n + 1
          have h5 : t < n := htok t (by rw [allToks_mid_ready]; exact ht)
          omega
        · rw [allToks_mid_run]
          exact hnodup
      | some o =>
        have hokfalse : ∀ (v : Option (List Nat)) (q2 : List (SKey × Option (List Nat)))
            (hv : serAcquire q k n = (q2, false)),
            startResult q n pre post k
              = ⟨q2, pre ++ (⟨k, Phase.waiting n⟩ : TaskT) :: post, n + 1⟩ := by
          intro v q2 hv
          unfold startResult
          rw [hv]
          rfl
        have hboundtok : ∀ t, t ∈ allToks (pre ++ (⟨k, Phase.waiting n⟩ : TaskT) :: post)
            → t < n + 1 := by
          intro t ht
          rw [allToks_mid_wait, List.mem_append] at ht
          show t < n + 1
          cases ht with
          | inl hl =>
            have h5 : t < n := htok t
              (by rw [allToks_mid_ready]; exact List.mem_append_left _ hl)
            omega
          | inr hr =>
            rw [List.mem_append] at hr
            cases hr with
            | inl hl2 =>
              rw [List.mem_singleton] at hl2
              omega
            | inr hr2 =>
              have h5 : t < n := htok t
                (by rw [allToks_mid_ready]; exact List.mem_append_right _ hr2)
              omega
        have hnoduptok : (allToks (pre ++ (⟨k, Phase.waiting n⟩ : TaskT) :: post)).Nodup := by
          rw [allToks_mid_wait]
          have hnn : n ∉ allToks pre ++ allToks post := by
            intro hmem
            have h5 : n < n := htok n (by rw [allToks_mid_ready]; exact hmem)
            omega
          exact (@List.perm_middle _ n (allToks pre) (allToks post)).nodup_iff.mpr
            (List.nodup_cons.mpr ⟨hnn, hnodup⟩)
        cases o with
        | none =>
          have h0 := (@keyInv_marker ⟨q, pre ++ (⟨k, Phase.ready⟩ : TaskT) :: post, n⟩ _ hq).mp (hkey k)
          obtain ⟨h01, h02⟩ := h0
          rw [runCount_mid_ready] at h01
          rw [waitToks_mid_ready] at h02
          obtain ⟨hw1, hw2⟩ := List.append_eq_nil.mp h02
          rw [hokfalse (some [n]) (aset k (some [n]) q)
            (by unfold serAcquire; rw [hq])]
          refine ⟨?_, hboundtok, hnoduptok, nodupKeys_aset hndq k (some [n])⟩
          intro k2
          by_cases hk2 : k2 = k
          · subst hk2
            refine (@keyInv_queue ⟨aset k2 (some [n]) q, pre ++ (⟨k2, Phase.waiting n⟩ : TaskT) :: post,
                n + 1⟩ _ _
              (alookup_aset_self k2 (some [n]) q)).mpr ⟨?_, ?_, ?_⟩
            · rw [runCount_mid_wait]
              omega
            · rw [waitToks_mid_wait, hw1, hw2, if_pos rfl]
              exact List.Perm.refl _
            · exact List.pairwise_singleton _ _
          · refine keyInv_congr k2 (alookup_aset_ne hk2 (some [n]) q) ?_ ?_ (hkey k2)
            · rw [runCount_mid_wait, runCount_mid_ready]
            · rw [waitToks_mid_wait, waitToks_mid_ready, if_neg (fun hh => hk2 hh.symm)]
              rfl
        | some q0 =>
          have h0 := (@keyInv_queue ⟨q, pre ++ (⟨k, Phase.ready⟩ : TaskT) :: post, n⟩ _ _ hq).mp (hkey k)
          obtain ⟨h01, h02, h03⟩ := h0
          rw [runCount_mid_ready] at h01
          rw [waitToks_mid_ready] at h02
          rw [hokfalse (some (q0 ++ [n])) (aset k (some (q0 ++ [n])) q)
            (by unfold serAcquire; rw [hq])]
          refine ⟨?_, hboundtok, hnoduptok, nodupKeys_aset hndq k (some (q0 ++ [n]))⟩
          intro k2
          by_cases hk2 : k2 = k
          · subst hk2
            refine (@keyInv_queue ⟨aset k2 (some (q0 ++ [n])) q,
                pre ++ (⟨k2, Phase.waiting n⟩ : TaskT) :: post, n + 1⟩ _ _
              (alookup_aset_self k2 (some (q0 ++ [n])) q)).mpr ⟨?_, ?_, ?_⟩
            · rw [runCount_mid_wait]
              omega
            · rw [waitToks_mid_wait, if_pos rfl]
              refine (h02.append_right [n]).trans ?_
              rw [List.append_assoc]
              exact List.Perm.append_left (waitToks k2 pre) List.perm_append_comm
            · refine List.pairwise_append.mpr
                ⟨h03, List.pairwise_singleton _ _, ?_⟩
              intro x hx y hy
              rw [List.mem_singleton] at hy
              rw [hy]
              have hxw : x ∈ waitToks k2 pre ++ waitToks k2 post := h02.subset hx
              have hxa : x ∈ allToks (pre ++ (⟨k2, Phase.ready⟩ : TaskT) :: post) := by
                rw [allToks_mid_ready]
                rw [List.mem_append] at hxw
                cases hxw with
                | inl hl =>
                  exact List.mem_append_left (allToks post)
                    ((waitToks_sublist_allToks k2 pre).subset hl)
                | inr hr =>
                  exact List.mem_append_right (allToks pre)
                    ((waitToks_sublist_allToks k2 post).subset hr)
              show x < n
              exact htok x hxa
          · refine keyInv_congr k2 (alookup_aset_ne hk2 (some (q0 ++ [n])) q) ?_ ?_ (hkey k2)
            · rw [runCount_mid_wait, runCount_mid_ready]
            · rw [waitToks_mid_wait, waitToks_mid_ready, if_neg (fun hh => hk2 hh.symm)]
              rfl
    | finish q n pre post k =>
      rw [allToks_mid_run] at hnodup
      cases hq : alookup k q with
      | none =>
        have h0 := (@keyInv_none ⟨q, pre ++ (⟨k, Phase.running⟩ : TaskT) :: post, n⟩ _ hq).mp (hkey k)
        have h01 := h0.1
        rw [runCount_mid_run, if_pos rfl] at h01
        exact absurd h01 (by omega)
      | some o =>
        have hdel : ∀ (hv : serRelease q k = (adel k q, none)),
            finishResult q n pre post k
              = ⟨adel k q, pre ++ (⟨k, Phase.done⟩ : TaskT) :: post, n⟩ := by
          intro hv
          unfold finishResult
          rw [hv]
          rfl
        have hrcdel : ∀ (h01 : runCount k pre + runCount k post + 1 = 1)
            (hw1 : waitToks k pre = []) (hw2 : waitToks k post = []),
            SysInv ⟨adel k q, pre ++ (⟨k, Phase.done⟩ : TaskT) :: post, n⟩ := by
          intro h01 hw1 hw2
          refine ⟨?_, ?_, ?_, nodupKeys_adel hndq k⟩
          · intro k2
            by_cases hk2 : k2 = k
            · subst hk2
              refine (@keyInv_none ⟨adel k2 q, pre ++ (⟨k2, Phase.done⟩ : TaskT) :: post, n⟩ _
                (alookup_adel_self hndq k2)).mpr ⟨?_, ?_⟩
              · rw [runCount_mid_done]
                omega
              · rw [waitToks_mid_done, hw1, hw2]
                rfl
            · refine keyInv_congr k2 (alookup_adel_ne hk2 q) ?_ ?_ (hkey k2)
              · rw [runCount_mid_done, runCount_mid_run, if_neg (fun hh => hk2 hh.symm)]
                omega
              · rw [waitToks_mid_done, waitToks_mid_run]
          · intro t ht
            rw [allToks_mid_done] at ht
            exact htok t (by rw [allToks_mid_run]; exact ht)
          · rw [allToks_mid_done]
            exact hnodup
        cases o with
        | none =>
          have h0 := (@keyInv_marker ⟨q, pre ++ (⟨k, Phase.running⟩ : TaskT) :: post, n⟩ _ hq).mp (hkey k)
          obtain ⟨h01, h02⟩ := h0
          rw [runCount_mid_run, if_pos rfl] at h01
          rw [waitToks_mid_run] at h02
          obtain ⟨hw1, hw2⟩ := List.append_eq_nil.mp h02
          rw [hdel (by unfold serRelease; rw [hq])]
          exact hrcdel h01 hw1 hw2
        | some q0 =>
          cases q0 with
          | nil =>
            have h0 := (@keyInv_queue ⟨q, pre ++ (⟨k, Phase.running⟩ : TaskT) :: post, n⟩ _ _ hq).mp (hkey k)
            obtain ⟨h01, h02, _⟩ := h0
            rw [runCount_mid_run, if_pos rfl] at h01
            have h02' := (h02.symm).eq_nil
            rw [waitToks_mid_run] at h02'
            obtain ⟨hw1, hw2⟩ := List.append_eq_nil.mp h02'
            rw [hdel (by unfold serRelease; rw [hq])]
            exact hrcdel h01 hw1 hw2
          | cons t ts0 =>
            have h0 := (@keyInv_queue ⟨q, pre ++ (⟨k, Phase.running⟩ : TaskT) :: post, n⟩ _ _ hq).mp (hkey k)
            obtain ⟨h01, h02, h03⟩ := h0
            rw [runCount_mid_run, if_pos rfl] at h01
            rw [waitToks_mid_run] at h02
            obtain ⟨hlt, hts0⟩ := List.pairwise_cons.mp h03
            have htnotts0 : t ∉ ts0 := fun hmem => lt_irrefl t (hlt t hmem)
            have hsr : finishResult q n pre post k
                = ⟨aset k (some ts0) q,
                   wake (some t) (pre ++ (⟨k, Phase.done⟩ : TaskT) :: post), n⟩ := by
              unfold finishResult
              rw [show serRelease q k = (aset k (some ts0) q, some t) from by
                unfold serRelease; rw [hq]]
            rw [hsr]
            have hnodupD : (allToks (pre ++ (⟨k, Phase.done⟩ : TaskT) :: post)).Nodup := by
              rw [allToks_mid_done]
              exact hnodup
            have htmem : t ∈ waitToks k (pre ++ (⟨k, Phase.done⟩ : TaskT) :: post) := by
              rw [waitToks_mid_done]
              exact h02.subset (List.mem_cons_self t ts0)
            have hcount1 : (waitToks k (pre ++ (⟨k, Phase.done⟩ : TaskT) :: post)).count t
                = 1 :=
              List.count_eq_one_of_mem
                (List.Nodup.sublist (waitToks_sublist_allToks k _) hnodupD) htmem
            refine ⟨?_, ?_, ?_, nodupKeys_aset hndq k (some ts0)⟩
            · intro k2
              by_cases hk2 : k2 = k
              · subst hk2
                refine (@keyInv_queue ⟨aset k2 (some ts0) q,
                    wake (some t) (pre ++ (⟨k2, Phase.done⟩ : TaskT) :: post), n⟩ _ _
                  (alookup_aset_self k2 (some ts0) q)).mpr ⟨?_, ?_, hts0⟩
                · rw [runCount_wake, hcount1, runCount_mid_done]
                  omega
                · have hfil : (t :: ts0).filter (fun x => decide (x ≠ t)) = ts0 := by
                    rw [List.filter_cons, if_neg (by simp)]
                    exact filter_ne_of_not_mem htnotts0
                  have hpf := h02.filter (fun x => decide (x ≠ t))
                  rw [hfil] at hpf
                  rw [waitToks_wake, waitToks_mid_done]
                  exact hpf
              · have htk2 : t ∉ waitToks k2 (pre ++ (⟨k, Phase.done⟩ : TaskT) :: post) :=
                  waitToks_disjoint hk2 _ hnodupD htmem
                refine keyInv_congr k2 (alookup_aset_ne hk2 (some ts0) q) ?_ ?_ (hkey k2)
                · rw [runCount_wake, List.count_eq_zero_of_not_mem htk2,
                    runCount_mid_done, runCount_mid_run, if_neg (fun hh => hk2 hh.symm)]
                · rw [waitToks_wake, filter_ne_of_not_mem htk2, waitToks_mid_done,
                    waitToks_mid_run]
            · intro t2 ht2
              rw [allToks_wake] at ht2
              have ht2' := (List.mem_filter.mp ht2).1
              rw [allToks_mid_done] at ht2'
              exact htok t2 (by rw [allToks_mid_run]; exact ht2')
            · rw [allToks_wake]
              exact List.Nodup.filter _ hnodupD

/-! ## Well-formedness of the fixtures -/

theorem pmEmpty_wf : PMWF pmEmpty := by
  constructor <;>
    first
      | exact List.nodup_nil
      | exact List.Pairwise.nil
      | exact fun k l h => Option.noConfusion h
      | rfl

theorem stTwoCmds_wf : PMWF stTwoCmds := by
  constructor <;>
    first
      | exact List.Pairwise.nil
      | exact fun k l h => Option.noConfusion h
      | rfl
      | (unfold NodupKeys keysOf; decide)

theorem permPlug_wf : PlugWF permPlug := by
  constructor <;> decide

theorem failPlug_wf : PlugWF failPlug := by
  constructor <;> decide

theorem plgA_wf : PlugWF plgA := by
  constructor <;> decide

theorem sievePlug_wf : PlugWF sievePlug := by
  constructor <;> decide

/-! ## Counterexamples and witnesses -/

/-- C1 counterexample: loading and then immediately unloading `permPlug`
over the freshly initialised registry leaves `perm_hooks = [("p", [])]` —
a key with an empty hook list — instead of the original empty dict, so not
every derived index is left "in exactly the state it was in before the
load". -/
theorem load_unload_roundtrip_counterexample :
    ((loadPlugin pmEmpty permPlug).bind
        (fun out => unloadPlugin out.st permPlug.file_path)).map
      (fun res => res.1.perm_hooks) = some [("p", [])]
    ∧ pmEmpty.perm_hooks = []
    ∧ ([(("p" : String), ([] : List Hook))] : List (String × List Hook)) ≠ [] :=
  ⟨rfl, rfl, fun h => List.noConfusion h⟩

/-- C1 witness: the amended round trip at `pmEmpty` and `permPlug`. -/
theorem load_unload_roundtrip_witness :
    ∃ out res,
      loadPlugin pmEmpty permPlug = some out ∧
      unloadPlugin out.st permPlug.file_path = some res ∧
      res.1.commands = pmEmpty.commands ∧
      res.1.raw_triggers = pmEmpty.raw_triggers ∧
      res.1.catch_all_triggers = pmEmpty.catch_all_triggers ∧
      res.1.event_type_hooks = pmEmpty.event_type_hooks ∧
      res.1.regex_hooks = pmEmpty.regex_hooks ∧
      res.1.sieves = pmEmpty.sieves ∧
      res.1.cap_hooks_available = pmEmpty.cap_hooks_available ∧
      res.1.cap_hooks_ack = pmEmpty.cap_hooks_ack ∧
      res.1.connect_hooks = pmEmpty.connect_hooks ∧
      res.1.out_sieves = pmEmpty.out_sieves ∧
      (∀ k, (alookup k res.1.hook_hooks).getD []
        = (alookup k pmEmpty.hook_hooks).getD []) ∧
      (∀ k, (alookup k res.1.perm_hooks).getD []
        = (alookup k pmEmpty.perm_hooks).getD []) :=
  load_unload_roundtrip_amended pmEmpty permPlug pmEmpty_wf permPlug_wf
    ⟨by decide, rfl, rfl⟩

/-- C2 counterexample: a load whose sole `on_start` hook fails returns the
same value (`None`, here `()`) as a load that succeeds — no failure is
reported to the caller, although the failing module is observably not
registered while the succeeding one is. -/
theorem load_failure_counterexample :
    (loadPlugin pmEmpty failPlug).map (fun o => o.ret)
      = (loadPlugin pmEmpty okPlug).map (fun o => o.ret)
    ∧ (loadPlugin pmEmpty failPlug).map (fun o => findPlugin o.st "failmod") = some none
    ∧ (loadPlugin pmEmpty okPlug).map (fun o => (findPlugin o.st "okmod").isSome)
      = some true :=
  ⟨rfl, rfl, rfl⟩

/-- C2 witness: the amended abort property at `pmEmpty` and `failPlug`. -/
theorem load_failure_witness :
    ∃ out, loadPlugin pmEmpty failPlug = some out ∧
      out.ret = () ∧
      TEv.warnOnStartFailed failPlug.title ∈ out.tr ∧
      TEv.tablesDropped failPlug.title ∈ out.tr ∧
      out.st.plugins = pmEmpty.plugins ∧
      findPlugin out.st failPlug.title = none ∧
      out.st.commands = pmEmpty.commands ∧
      out.st.raw_triggers = pmEmpty.raw_triggers ∧
      out.st.catch_all_triggers = pmEmpty.catch_all_triggers ∧
      out.st.event_type_hooks = pmEmpty.event_type_hooks ∧
      out.st.regex_hooks = pmEmpty.regex_hooks ∧
      out.st.sieves = pmEmpty.sieves ∧
      out.st.cap_hooks_available = pmEmpty.cap_hooks_available ∧
      out.st.cap_hooks_ack = pmEmpty.cap_hooks_ack ∧
      out.st.connect_hooks = pmEmpty.connect_hooks ∧
      out.st.out_sieves = pmEmpty.out_sieves ∧
      out.st.perm_hooks = pmEmpty.perm_hooks ∧
      (∀ k, (alookup k out.st.hook_hooks).getD []
        = (alookup k pmEmpty.hook_hooks).getD []) ∧
      (∀ i ∈ pluginHids failPlug, i ∉ pmHids out.st) :=
  load_failure_aborts_amended pmEmpty failPlug pmEmpty_wf failPlug_wf
    ⟨by decide, rfl, rfl⟩ (by decide)

/-- C3 witness: dispatching a command hook over a registry whose sole
sieve rejects — `launch` returns `False`, the target hook never runs. -/
theorem launch_sieve_chain_witness :
    launch stSieve tgtCmdHook 0
      = some ((sieveChain stSieve stSieve.sieves 0 tgtCmdHook).1, false,
          (sieveChain stSieve stSieve.sieves 0 tgtCmdHook).2.2)
    ∧ runsOf tgtCmdHook.hid (sieveChain stSieve stSieve.sieves 0 tgtCmdHook).2.2 = []
    ∧ (∀ out, launch stSieve tgtCmdHook 0 = some out →
        sieveEvsOf out.2.2 = specSieveTrace stSieve.sieves 0 tgtCmdHook.hid) := by
  have happ := (launch_sieve_chain_spec stSieve tgtCmdHook 0 (by decide)).2.1 (by decide)
  refine ⟨(happ.2 rfl).1, (happ.2 rfl).2 (by decide), happ.1⟩

/-- C4 witness: `_execute_hook` over a registry whose post list is a
stopping post hook followed by another — the chain is the spec-side
prefix, cut exactly at the stopper. -/
theorem post_chain_witness :
    (executeHook stPost tgtCmdHook 0).2.1 = (internalLaunch tgtCmdHook 0).1
    ∧ (executeHook stPost tgtCmdHook 0).2.2
      = (internalLaunch tgtCmdHook 0).2.2
        ++ (specPostHooks (postsOf stPost) 0).map (fun p2 => runEvOf p2 0)
    ∧ specPostHooks (postsOf stPost) 0 = [postStopHook] := by
  have happ := post_chain_spec stPost tgtCmdHook 0 (by decide)
  refine ⟨happ.1, happ.2.1, ?_⟩
  have hcut := happ.2.2.2.1 [] postStopHook [postAfterHook] rfl
    (fun x hx => absurd hx (List.not_mem_nil x)) (by decide)
  rw [hcut]
  rfl

/-- C5 counterexample: `m1` declares alias `"a"`, `m2` declares `"c"`, and
`m3` declares both `"a"` and `"c"`.  The claim predicts that after the
`m1`/`m3` conflict on `"a"`, `m3`'s other alias `"c"` is registered to
`m3` (hid 33); in fact `"c"` stays with its first registrant `m2`
(hid 32). -/
theorem alias_conflict_counterexample :
    (((loadPlugin pmEmpty plgA).bind (fun o => loadPlugin o.st plgB)).bind
        (fun o => loadPlugin o.st plgC)).map
      (fun o => ((alookup "a" o.st.commands).map Hook.hid,
                 (alookup "c" o.st.commands).map Hook.hid))
      = some (some 31, some 32)
    ∧ "a" ∈ cmdHookA.aliases ∧ "a" ∈ cmdHookC.aliases ∧ "c" ∈ cmdHookC.aliases
    ∧ cmdHookC.hid = 33 ∧ (32 : Nat) ≠ 33 :=
  ⟨rfl, by decide, by decide, by decide, rfl, by decide⟩

/-- C5 witness: the amended per-alias first-wins law at `pmEmpty` and
`plgA`. -/
theorem alias_conflict_witness :
    ∃ out, loadPlugin pmEmpty plgA = some out ∧
      (∀ a, alookup a out.st.commands
        = (alookup a pmEmpty.commands).or (keyAdds a (cmdPairs plgA)).head?) ∧
      (∀ pre pr suf, cmdPairs plgA = pre ++ pr :: suf →
        ((alookup pr.1 pmEmpty.commands).isSome = true ∨ ∃ q ∈ pre, q.1 = pr.1) →
        TEv.logConflict pr.2.plugin_title pr.1 ∈ out.tr) :=
  alias_conflict_amended pmEmpty plgA pmEmpty_wf plgA_wf
    ⟨by decide, rfl, rfl⟩ (by decide)

/-- C6 counterexample: after loading and unloading `permPlug`, the
permission map holds `"p" ↦ []` and the post-notify table holds
`"post" ↦ []` — keyed entries with empty hook lists are left behind,
contradicting "no entry whose hook list is empty". -/
theorem unload_empty_entries_counterexample :
    ((loadPlugin pmEmpty permPlug).bind
        (fun out => unloadPlugin out.st permPlug.file_path)).map
      (fun res => (alookup "p" res.1.perm_hooks, alookup "post" res.1.hook_hooks))
      = some (some [], some [])
    ∧ ¬ (∀ res, (loadPlugin pmEmpty permPlug).bind
          (fun out => unloadPlugin out.st permPlug.file_path) = some res →
        mapNonempty res.1.perm_hooks) := by
  refine ⟨rfl, ?_⟩
  intro hall
  exact (hall _ rfl) "p" [] rfl rfl

/-- C6 witness: the amended statement at `stTwoCmds` and `plugOwn`. -/
theorem unload_empty_entries_witness :
    ∃ res, unloadPlugin stTwoCmds "/p/t.py" = some res ∧ res.2.1 = true ∧
      mapNonempty res.1.raw_triggers ∧
      mapNonempty res.1.cap_hooks_available := by
  obtain ⟨res, h1, h2, h3, h4, h5, h6, h7, h8⟩ :=
    unload_empty_entries_amended stTwoCmds "/p/t.py" plugOwn stTwoCmds_wf rfl
      (fun h hh => absurd hh (List.not_mem_nil h))
  exact ⟨res, h1, h2, h3, h5⟩

/-- C7 counterexample: loading the priority-5 capability hook and then the
priority-1 one leaves `cap_hooks_available["x"]` as `[5, 1]` — declaration
order, not ascending priority — because the load-time sort block never
sorts the capability maps. -/
theorem indices_sorted_counterexample :
    ((loadPlugin pmEmpty capPlugHi).bind (fun o => loadPlugin o.st capPlugLo)).map
      (fun o => ((alookup "x" o.st.cap_hooks_available).getD []).map Hook.priority)
      = some [5, 1]
    ∧ ¬ ([(5 : Int), 1].Pairwise (· ≤ ·)) :=
  ⟨rfl, by decide⟩

/-- C7 witness: the amended sortedness-plus-stability statement at
`pmEmpty` and `sievePlug` (whose two sieves are declared out of priority
order and end up sorted). -/
theorem indices_sorted_witness :
    (∃ out, loadPlugin pmEmpty sievePlug = some out ∧
      out.st.sieves.Pairwise hookle ∧ out.st.sieves.map Hook.hid = [44, 43]) := by
  obtain ⟨⟨out, hload, hs, _⟩, _⟩ :=
    indices_sorted_amended pmEmpty sievePlug pmEmpty_wf sievePlug_wf
      ⟨by decide, rfl, rfl⟩ (by decide)
  refine ⟨out, hload, hs, ?_⟩
  have hval := hload
  rw [show loadPlugin pmEmpty sievePlug
    = some (LoadOut.mk (loadedState pmEmpty sievePlug) ()
        ([TEv.tablesCreated "m6"] ++ (registerPhase
          { pmEmpty with
              plugins := aset sievePlug.file_path (storedPlugin sievePlug) pmEmpty.plugins
              plugin_name_map :=
                aset sievePlug.title sievePlug.file_path pmEmpty.plugin_name_map }
          sievePlug).2)) from rfl] at hval
  rw [(Option.some.inj hval).symm]
  rfl

/-- C8 witness: the acquire clause at the empty dict, and invariant
preservation across one concrete admission step. -/
theorem serialization_state_machine_witness :
    serAcquire [] ("t", "f") 0 = (aset ("t", "f") none [], true)
    ∧ SysInv (startResult [] 0 [] [] ("t", "f")) :=
  ⟨serialization_state_machine.1 [] ("t", "f") 0 rfl,
   serialization_state_machine.2.2.2.2.2.2
     ⟨[], [⟨("t", "f"), Phase.ready⟩], 0⟩
     (startResult [] 0 [] [] ("t", "f"))
     (by
       refine ⟨?_, ?_, List.nodup_nil, List.nodup_nil⟩
       · intro k
         refine (@keyInv_none ⟨[], [⟨("t", "f"), Phase.ready⟩], 0⟩ _ rfl).mpr
           ⟨?_, ?_⟩
         · show runCount k ([] ++ (⟨("t", "f"), Phase.ready⟩ : TaskT) :: []) = 0
           rw [runCount_mid_ready]
           rfl
         · show waitToks k ([] ++ (⟨("t", "f"), Phase.ready⟩ : TaskT) :: []) = []
           rw [waitToks_mid_ready]
           rfl
       · intro t ht
         exact absurd ht (List.not_mem_nil t))
     (SStep.start [] 0 [] [] ("t", "f"))⟩

/-- C9 counterexample: `postExcl` is marked exclusive (`single_thread`),
yet when it runs as a post hook of an ordinary dispatch it executes with
no serialization admission at all: it produces its run event while the
trace has no acquire event for its key and the waiting-queue dict stays
empty. -/
theorem post_hook_dispatch_counterexample :
    postExcl.single_thread = true
    ∧ (launch stPostX tgtPlainHook 0).map
        (fun r => (runsOf postExcl.hid r.2.2, acquiresOf (hookKey postExcl) r.2.2,
          r.1.hook_waiting_queues))
      = some ([TEv.runS postExcl.hid 0], [], []) :=
  ⟨rfl, rfl⟩

/-- C10 witness: unloading `m10` (which lost alias `"a"` to a foreign
hook) removes only its own binding `"b"` and leaves the winner's `"a"`
untouched. -/
theorem unload_frame_witness :
    ∃ res, unloadPlugin stTwoCmds "/p/t.py" = some res ∧ res.2.1 = true ∧
      alookup "a" res.1.commands = some winnerCmdHook ∧
      res.1.sieves.filter (fun h => decide (h.hid ∉ pluginHids plugOwn))
        = stTwoCmds.sieves.filter (fun h => decide (h.hid ∉ pluginHids plugOwn)) := by
  obtain ⟨res, h1, h2, h3, h4, h5, _⟩ :=
    unload_frame stTwoCmds "/p/t.py" plugOwn stTwoCmds_wf rfl
      (fun h hh => absurd hh (List.not_mem_nil h))
  exact ⟨res, h1, h2, h3 "a" winnerCmdHook rfl (by decide), h5⟩

end CloudBot
